import Mathlib

/-!
Verification of the MBP-10 order-book reconstruction engine.

The development shallowly embeds the core of the C++ sources:
`src/order_book.cpp` / `include/order_book.h` (the `OrderBook` class) and the
event-processing pipeline of `src/main.cpp`.

Modelling conventions:
* prices are `Int` (the source stores IEEE-754 doubles but, per the data model,
  only exact equality and ordering on parsed values matter, so integer ticks
  are a faithful carrier);
* `uint64_t` / `uint32_t` arithmetic is `Nat` with explicit reduction
  `% 2 ^ 64` / `% 2 ^ 32` at exactly the places the source casts
  (`wrap64` / `wrap32`); `static_cast<int64_t>` of a `uint64_t` is `centered64`;
* `std::map<double, LevelData, cmp>` is a key-sorted association list
  (`List (Int × LevelData)`), with the bid map sorted by `bidLt` (descending
  price, `std::greater`) and the ask map by `askLt` (ascending, `std::less`);
* `std::unordered_map<uint64_t, OrderData>` is an association list with
  unique keys; iteration order is never observed by the embedded code;
* the `level_iterator` member of `OrderData` is written but never read in the
  source, so it is omitted;
* the write-side of the CSV emitter is reduced to the fields claims talk
  about: a `SnapshotRow` keeps the sequence number, action and side of each
  emitted snapshot.
-/

namespace OrderBookModel

/-- One MBO input event (struct `MboEvent` of `mbo_parser.h`, restricted to
the fields the order-book core reads). -/
structure MboEvent where
  action : Char
  side : Char
  price : Int
  size : Nat
  order_id : Nat
  sequence : Nat
deriving DecidableEq, Repr

/-- `struct OrderEntry` — one FIFO queue entry of a price level. -/
structure OrderEntry where
  order_id : Nat
  size : Nat
deriving DecidableEq, Repr

/-- `struct LevelData` — aggregated data of one price level. -/
structure LevelData where
  price : Int
  total_size : Nat
  order_count : Nat
  order_queue : List OrderEntry
deriving DecidableEq, Repr

/-- `struct OrderData` — the per-order index record (price, remaining size,
side); the never-read `level_iterator` pointer is omitted. -/
structure OrderData where
  price : Int
  size : Nat
  side : Char
deriving DecidableEq, Repr

/-- `enum class TradeState` of `order_book.h`. -/
inductive TradeState where
  | NORMAL
  | EXPECTING_FILL
deriving DecidableEq, Repr

/-- `struct ProcessResult` — what `processEvent` tells the main loop. -/
structure ProcessResult where
  should_write : Bool
  snapshot_action : Char
  snapshot_side : Char
deriving DecidableEq, Repr

/-- `uint64_t` arithmetic: reduce an `Int` modulo `2 ^ 64`. -/
def wrap64 (i : Int) : Nat := (i % (2 ^ 64)).toNat

/-- `uint32_t` arithmetic: reduce an `Int` modulo `2 ^ 32`. -/
def wrap32 (i : Int) : Nat := (i % (2 ^ 32)).toNat

/-- `static_cast<int64_t>` applied to a `uint64_t` value (two's complement
reinterpretation of a value below `2 ^ 64`). -/
def centered64 (n : Nat) : Int := if n < 2 ^ 63 then (n : Int) else (n : Int) - 2 ^ 64

/-- Comparator of the bid map (`std::greater<double>`: highest price first). -/
def bidLt (a b : Int) : Bool := b < a

/-- Comparator of the ask map (`std::less<double>`: lowest price first). -/
def askLt (a b : Int) : Bool := a < b

abbrev LevelMap := List (Int × LevelData)

abbrev Orders := List (Nat × OrderData)

/-- `map::find` on a key-sorted association list (first matching key). -/
def mapFind (m : LevelMap) (k : Int) : Option LevelData :=
  match m with
  | [] => none
  | (k', v) :: rest => if k = k' then some v else mapFind rest k

/-- `map::erase` (removes the first binding of the key). -/
def mapErase (m : LevelMap) (k : Int) : LevelMap :=
  match m with
  | [] => []
  | (k', v) :: rest => if k = k' then rest else (k', v) :: mapErase rest k

/-- Insertion into the sorted association list at the position determined by
the comparator `lt`, replacing an existing binding of the same key
(`map::operator[]` followed by assignment). -/
def mapInsert (lt : Int → Int → Bool) (k : Int) (v : LevelData) (m : LevelMap) : LevelMap :=
  match m with
  | [] => [(k, v)]
  | (k', v') :: rest =>
    if lt k k' then (k, v) :: (k', v') :: rest
    else if k = k' then (k, v) :: rest
    else (k', v') :: mapInsert lt k v rest

/-- Replace the value bound to `k` (no effect when the key is absent):
in-place mutation through an existing iterator. -/
def mapAdjust (m : LevelMap) (k : Int) (f : LevelData → LevelData) : LevelMap :=
  match m with
  | [] => []
  | (k', v) :: rest => if k = k' then (k', f v) :: rest else (k', v) :: mapAdjust rest k f

/-- Value-initialised `LevelData()` (the default constructor). -/
def defaultLevel : LevelData := ⟨0, 0, 0, []⟩

/-- `map::operator[]` followed by an in-place mutation `f`: mutate the
existing binding, or default-construct a value, mutate it and insert it. -/
def mapApplyDefault (lt : Int → Int → Bool) (m : LevelMap) (k : Int)
    (f : LevelData → LevelData) : LevelMap :=
  match mapFind m k with
  | some _ => mapAdjust m k f
  | none => mapInsert lt k (f defaultLevel) m

/-- `unordered_map::find` on the per-order index. -/
def ordersFind (os : Orders) (id : Nat) : Option OrderData :=
  match os with
  | [] => none
  | (id', od) :: rest => if id = id' then some od else ordersFind rest id

/-- `unordered_map::erase` (first binding of the key). -/
def ordersErase (os : Orders) (id : Nat) : Orders :=
  match os with
  | [] => []
  | (id', od) :: rest => if id = id' then rest else (id', od) :: ordersErase rest id

/-- `orders_[id] = od`: replace an existing binding or append a fresh one. -/
def ordersSet (os : Orders) (id : Nat) (od : OrderData) : Orders :=
  match os with
  | [] => [(id, od)]
  | (id', od') :: rest => if id = id' then (id, od) :: rest else (id', od') :: ordersSet rest id od

/-- Mutation `it->second.size = sz` guarded by `find != end`: update the size
of the order if it is present, otherwise do nothing. -/
def ordersSetSize (os : Orders) (id : Nat) (sz : Nat) : Orders :=
  match os with
  | [] => []
  | (id', od) :: rest =>
    if id = id' then (id, ⟨od.price, sz, od.side⟩) :: rest else (id', od) :: ordersSetSize rest id sz

/-- The `OrderBook` class state. -/
structure OrderBook where
  bid_levels : LevelMap
  ask_levels : LevelMap
  orders : Orders
  sequence_counter : Nat
  trade_state : TradeState
  pending_trade_side : Char
  pending_actual_trade_side : Char
  pending_trade_price : Int
  pending_trade_size : Nat
  last_fill_was_trade : Bool
deriving DecidableEq, Repr

/-- The freshly constructed `OrderBook` (constructor of `order_book.cpp`). -/
def emptyBook : OrderBook :=
  ⟨[], [], [], 0, TradeState.NORMAL, Char.ofNat 0, Char.ofNat 0, 0, 0, false⟩

/-- `OrderBook::getOppositeSide`. -/
def getOppositeSide (side : Char) : Char :=
  if side = 'B' then 'A' else if side = 'A' then 'B' else Char.ofNat 0

/-- The shared body of `OrderBook::updateBidLevel` / `updateAskLevel`, acting
on one side's level map (the two member functions are textually identical up
to the map they touch). -/
def updateLevelMap (lt : Int → Int → Bool) (m : LevelMap) (price : Int)
    (size_delta count_delta : Int) (order_id : Nat) : LevelMap :=
  match mapFind m price with
  | none =>
    if 0 < size_delta then
      mapInsert lt price ⟨price, wrap64 size_delta, wrap32 count_delta,
        [⟨order_id, wrap64 size_delta⟩]⟩ m
    else m
  | some lv =>
    let total' := wrap64 ((lv.total_size : Int) + size_delta)
    let count' := wrap32 ((lv.order_count : Int) + count_delta)
    let queue' := if 0 < count_delta ∧ order_id ≠ 0
      then lv.order_queue ++ [⟨order_id, wrap64 size_delta⟩]
      else lv.order_queue
    if total' = 0 ∨ count' = 0 then mapErase m price
    else mapAdjust m price (fun _ => ⟨lv.price, total', count', queue'⟩)

/-- `OrderBook::updateBidLevel`. -/
def updateBidLevel (b : OrderBook) (price : Int) (size_delta count_delta : Int)
    (order_id : Nat) : OrderBook :=
  { b with bid_levels := updateLevelMap bidLt b.bid_levels price size_delta count_delta order_id }

/-- `OrderBook::updateAskLevel`. -/
def updateAskLevel (b : OrderBook) (price : Int) (size_delta count_delta : Int)
    (order_id : Nat) : OrderBook :=
  { b with ask_levels := updateLevelMap askLt b.ask_levels price size_delta count_delta order_id }

/-- `OrderBook::addOrder`. -/
def addOrder (b : OrderBook) (order_id : Nat) (price : Int) (size : Nat)
    (side : Char) : OrderBook :=
  let b1 := { b with orders := ordersSet b.orders order_id ⟨price, size, side⟩ }
  if side = 'B' then updateBidLevel b1 price (centered64 size) 1 order_id
  else if side = 'A' then updateAskLevel b1 price (centered64 size) 1 order_id
  else b1

/-- `OrderBook::updateOrderInQueue` — rebuild the level's FIFO queue,
reducing the matching entry by `cancel_size` and dropping it when it does not
stay strictly positive. -/
def updateOrderInQueue (lv : LevelData) (order_id cancel_size : Nat) : LevelData :=
  { lv with order_queue := lv.order_queue.filterMap (fun e =>
      if e.order_id = order_id then
        if cancel_size < e.size then some ⟨e.order_id, e.size - cancel_size⟩ else none
      else some e) }

/-- `OrderBook::cancelOrder`.  The call
`updateOrderInQueue(bid_levels_[order.price], …)` uses `map::operator[]`,
which default-constructs a level when the preceding update erased it; this is
modelled by `mapApplyDefault`. -/
def cancelOrder (b : OrderBook) (order_id cancel_size : Nat) : OrderBook :=
  match ordersFind b.orders order_id with
  | none => b
  | some od =>
    let actual := if cancel_size = 0 then od.size else min cancel_size od.size
    let b1 :=
      if od.side = 'B' then
        let b' := updateBidLevel b od.price (-(centered64 actual)) 0 0
        { b' with
            bid_levels := mapApplyDefault bidLt b'.bid_levels od.price
              (fun lv => updateOrderInQueue lv order_id actual) }
      else if od.side = 'A' then
        let b' := updateAskLevel b od.price (-(centered64 actual)) 0 0
        { b' with
            ask_levels := mapApplyDefault askLt b'.ask_levels od.price
              (fun lv => updateOrderInQueue lv order_id actual) }
      else b
    let b2 := { b1 with orders := ordersSetSize b1.orders order_id (od.size - actual) }
    if od.size - actual = 0 then
      let b3 :=
        if od.side = 'B' then updateBidLevel b2 od.price 0 (-1) 0
        else if od.side = 'A' then updateAskLevel b2 od.price 0 (-1) 0
        else b2
      { b3 with orders := ordersErase b3.orders order_id }
    else b2

/-- The loop of `OrderBook::fillOrdersAtLevel`, walking the FIFO queue while
fill quantity remains; returns the new queue, total size, order count and
per-order index. -/
def fillLoop (os : Orders) (queue : List OrderEntry) (total count remaining : Nat) :
    List OrderEntry × Nat × Nat × Orders :=
  match queue with
  | [] => ([], total, count, os)
  | e :: rest =>
    if remaining = 0 then (e :: rest, total, count, os)
    else if e.size ≤ remaining then
      fillLoop (ordersErase os e.order_id) rest
        (wrap64 ((total : Int) - (e.size : Int))) (wrap32 ((count : Int) - 1))
        (remaining - e.size)
    else
      (⟨e.order_id, e.size - remaining⟩ :: rest,
       wrap64 ((total : Int) - (remaining : Int)), count,
       ordersSetSize os e.order_id (e.size - remaining))

/-- `OrderBook::fillOrdersAtLevel` (also updating the per-order index the
way the member function does through `orders_`). -/
def fillOrdersAtLevel (os : Orders) (lv : LevelData) (fill_size : Nat) :
    LevelData × Orders :=
  let r := fillLoop os lv.order_queue lv.total_size lv.order_count fill_size
  (⟨lv.price, r.2.1, r.2.2.1, r.1⟩, r.2.2.2)

/-- The pattern shared by all fill call sites: look the level up in a side's
map, fill it, and erase it when its total size reached zero. -/
def fillAtLevelMap (m : LevelMap) (os : Orders) (price : Int) (size : Nat) :
    LevelMap × Orders :=
  match mapFind m price with
  | none => (m, os)
  | some lv =>
    let fr := fillOrdersAtLevel os lv size
    let m1 := mapAdjust m price (fun _ => fr.1)
    (if fr.1.total_size = 0 then mapErase m1 price else m1, fr.2)

/-- `OrderBook::processTradeFill` (the same logic is inlined in the pending
trade branch of `processCancelEvent` and in `fillOrdersAtPrice`). -/
def processTradeFill (b : OrderBook) (trade_side : Char) (price : Int)
    (size : Nat) : OrderBook :=
  let target := getOppositeSide trade_side
  if target = 'B' then
    let r := fillAtLevelMap b.bid_levels b.orders price size
    { b with bid_levels := r.1, orders := r.2 }
  else if target = 'A' then
    let r := fillAtLevelMap b.ask_levels b.orders price size
    { b with ask_levels := r.1, orders := r.2 }
  else b

/-- `OrderBook::hasOrdersAtPrice`. -/
def hasOrdersAtPrice (b : OrderBook) (price : Int) (side : Char) : Bool :=
  if side = 'B' then
    match mapFind b.bid_levels price with
    | some lv => 0 < lv.total_size
    | none => false
  else if side = 'A' then
    match mapFind b.ask_levels price with
    | some lv => 0 < lv.total_size
    | none => false
  else false

/-- `OrderBook::fillOrdersAtPrice`. -/
def fillOrdersAtPrice (b : OrderBook) (price : Int) (size : Nat) (side : Char) :
    OrderBook :=
  if side = 'B' then
    let r := fillAtLevelMap b.bid_levels b.orders price size
    { b with bid_levels := r.1, orders := r.2 }
  else if side = 'A' then
    let r := fillAtLevelMap b.ask_levels b.orders price size
    { b with ask_levels := r.1, orders := r.2 }
  else b

/-- `OrderBook::clear` (the sequence counter is not reset by the source). -/
def clearBook (b : OrderBook) : OrderBook :=
  ⟨[], [], [], b.sequence_counter, TradeState.NORMAL, Char.ofNat 0, Char.ofNat 0, 0, 0, false⟩

/-- `OrderBook::processAddEvent`. -/
def processAddEvent (b : OrderBook) (e : MboEvent) : OrderBook × ProcessResult :=
  if e.order_id = 0 then (b, ⟨true, 'A', e.side⟩)
  else if (ordersFind b.orders e.order_id).isSome then (b, ⟨false, ' ', ' '⟩)
  else
    let b1 := addOrder b e.order_id e.price e.size e.side
    ({ b1 with last_fill_was_trade := false }, ⟨true, 'A', e.side⟩)

/-- `OrderBook::processCancelEvent`. -/
def processCancelEvent (b : OrderBook) (e : MboEvent) : OrderBook × ProcessResult :=
  if e.order_id = 0 then (b, ⟨true, 'C', e.side⟩)
  else if b.last_fill_was_trade = true ∧ b.trade_state = TradeState.EXPECTING_FILL then
    let b1 := processTradeFill b b.pending_trade_side b.pending_trade_price b.pending_trade_size
    let filled := b.pending_actual_trade_side
    ({ b1 with
          trade_state := TradeState.NORMAL,
          pending_trade_side := Char.ofNat 0,
          pending_actual_trade_side := Char.ofNat 0,
          pending_trade_price := 0,
          pending_trade_size := 0,
          last_fill_was_trade := false },
     ⟨true, 'T', filled⟩)
  else
    match ordersFind b.orders e.order_id with
    | none => (b, ⟨true, 'C', 'N'⟩)
    | some od =>
      let b1 := if e.size = 0 then cancelOrder b e.order_id 0 else cancelOrder b e.order_id e.size
      (b1, ⟨true, 'C', od.side⟩)

/-- `OrderBook::processTradeEvent`. -/
def processTradeEvent (b : OrderBook) (e : MboEvent) : OrderBook × ProcessResult :=
  if e.side = 'N' then (b, ⟨true, 'T', 'N'⟩)
  else
    ({ b with
          trade_state := TradeState.EXPECTING_FILL,
          pending_trade_side := e.side,
          pending_trade_price := e.price,
          pending_trade_size := e.size },
     ⟨false, 'T', e.side⟩)

/-- `OrderBook::processFillEvent`. -/
def processFillEvent (b : OrderBook) (e : MboEvent) : OrderBook × ProcessResult :=
  if b.trade_state = TradeState.EXPECTING_FILL then
    ({ b with last_fill_was_trade := true, pending_actual_trade_side := e.side },
     ⟨false, ' ', ' '⟩)
  else (b, ⟨false, ' ', ' '⟩)

/-- `OrderBook::processResetEvent`. -/
def processResetEvent (b : OrderBook) (_e : MboEvent) : OrderBook × ProcessResult :=
  (clearBook b, ⟨true, 'R', 'N'⟩)

/-- `OrderBook::processEvent`. -/
def processEvent (b : OrderBook) (e : MboEvent) : OrderBook × ProcessResult :=
  let b0 := { b with sequence_counter := b.sequence_counter + 1 }
  match e.action with
  | 'A' => processAddEvent b0 e
  | 'C' => processCancelEvent b0 e
  | 'T' => processTradeEvent b0 e
  | 'F' => processFillEvent b0 e
  | 'R' => processResetEvent b0 e
  | _ => (b0, ⟨false, ' ', ' '⟩)

/-- Fold a whole event list through `processEvent`. -/
def processEvents (b : OrderBook) (es : List MboEvent) : OrderBook :=
  es.foldl (fun b e => (processEvent b e).1) b

/-- One side of the `Top10State` image: the first ten levels as
(price, aggregate size, order count) triples, zero-filled to length ten
(`OrderBook::captureTop10State`). -/
def top10Side (m : LevelMap) : List (Int × Nat × Nat) :=
  ((m.map (fun pl => (pl.1, pl.2.total_size, pl.2.order_count))) ++
    List.replicate 10 ((0 : Int), (0 : Nat), (0 : Nat))).take 10

/-- `struct Top10State` — sixty scalars, compared element-wise. -/
structure Top10State where
  bids : List (Int × Nat × Nat)
  asks : List (Int × Nat × Nat)
deriving DecidableEq, Repr

/-- `OrderBook::captureTop10State`. -/
def captureTop10State (b : OrderBook) : Top10State :=
  ⟨top10Side b.bid_levels, top10Side b.ask_levels⟩


/-- One emitted output row, reduced to the fields the claims mention
(`MbpSnapshot.sequence_number`, `.action`, `.side`; the snapshot's book
payload is determined by the book state at emission time). -/
structure SnapshotRow where
  sequence : Nat
  action : Char
  side : Char
deriving DecidableEq, Repr

/-- `generateSnapshot(event)` restricted to the retained row fields: the
sequence number, action and side are copied from the event. -/
def rowOf (e : MboEvent) : SnapshotRow := ⟨e.sequence, e.action, e.side⟩

/-- State of the `main.cpp` processing loop: the book, the
`failed_cancel_orders` set, and the rows written so far. -/
structure PipeState where
  book : OrderBook
  failed : List Nat
  rows : List SnapshotRow
deriving DecidableEq, Repr

/-- `unordered_set::insert` on `failed_cancel_orders`. -/
def failedInsert (s : List Nat) (id : Nat) : List Nat :=
  if id ∈ s then s else s ++ [id]

/-- `unordered_set::erase` on `failed_cancel_orders`. -/
def failedErase (s : List Nat) (id : Nat) : List Nat :=
  s.filter (fun x => x ≠ id)

/-- The pre-scan condition of `main.cpp` marking a `T`,`F`,`C` window at base
index `b` as one recognised trade sequence: contiguous actions with matching
fill price, fill size, and cancel order id. -/
def tfcMatch (t f c : MboEvent) : Bool :=
  t.action = 'T' && f.action = 'F' && c.action = 'C' &&
  f.price = t.price && f.size = t.size && c.order_id = f.order_id

/-- Whether the window starting at index `b` is a recognised T-F-C triple. -/
def tfcTriple (events : List MboEvent) (b : Nat) : Bool :=
  match events.get? b, events.get? (b + 1), events.get? (b + 2) with
  | some t, some f, some c => tfcMatch t f c
  | _, _, _ => false

/-- `is_tfc_event[i]`: the event at `i` belongs to some recognised triple
(as its `T`, `F` or `C` member). -/
def markedAt (events : List MboEvent) (i : Nat) : Bool :=
  tfcTriple events i || (decide (1 ≤ i) && tfcTriple events (i - 1)) ||
    (decide (2 ≤ i) && tfcTriple events (i - 2))

/-- The `A`/`C` application path of the main loop: capture the top-10 image,
apply the event, and write a row exactly when the book asked for a write and
the image changed. -/
def applyAddCancel (st : PipeState) (e : MboEvent) : PipeState :=
  let before := captureTop10State st.book
  let pr := processEvent st.book e
  if pr.2.should_write = true ∧ captureTop10State pr.1 ≠ before then
    ⟨pr.1, st.failed, st.rows ++ [rowOf e]⟩
  else ⟨pr.1, st.failed, st.rows⟩

/-- The non-`A`/`C` application path of the main loop.  An unmarked `T` with a
real side books an immediate fill against the opposite side and always writes;
a `T` with side `N` always writes; other actions write when the book asks. -/
def applyOther (st : PipeState) (e : MboEvent) : PipeState :=
  let pr := processEvent st.book e
  let b1 := pr.1
  if e.action = 'T' then
    if e.side = 'N' then ⟨b1, st.failed, st.rows ++ [⟨e.sequence, 'T', 'N'⟩]⟩
    else
      let target := if e.side = 'B' then 'A' else 'B'
      let b2 := if hasOrdersAtPrice b1 e.price target = true
        then fillOrdersAtPrice b1 e.price e.size target else b1
      ⟨b2, st.failed, st.rows ++ [⟨e.sequence, 'T', e.side⟩]⟩
  else
    if pr.2.should_write = true then ⟨b1, st.failed, st.rows ++ [rowOf e]⟩
    else ⟨b1, st.failed, st.rows⟩

/-- The per-event filter stage of the main loop (`should_process`): a cancel
naming an unknown order is skipped and remembered; an add whose id was
remembered is dropped and forgotten; everything else is applied. -/
def pipeNormal (st : PipeState) (e : MboEvent) : PipeState :=
  if e.action = 'C' then
    if (ordersFind st.book.orders e.order_id).isSome then applyAddCancel st e
    else ⟨st.book, failedInsert st.failed e.order_id, st.rows⟩
  else if e.action = 'A' then
    if e.order_id ∈ st.failed then ⟨st.book, failedErase st.failed e.order_id, st.rows⟩
    else applyAddCancel st e
  else applyOther st e

/-- One iteration of the `main.cpp` event loop at index `i`: the initial-`R`
special case, the recognised-triple branch (the closing `C` writes one row
whose sequence comes from the opening `T` and whose action and side come from
the process result), then the filter stage. -/
def pipeStep (events : List MboEvent) (i : Nat) (st : PipeState) : PipeState :=
  match events.get? i with
  | none => st
  | some e =>
    if e.action = 'R' ∧ i = 0 then ⟨st.book, st.failed, st.rows ++ [rowOf e]⟩
    else if markedAt events i = true then
      if e.action = 'T' ∨ e.action = 'F' then
        ⟨(processEvent st.book e).1, st.failed, st.rows⟩
      else if e.action = 'C' then
        let pr := processEvent st.book e
        let tseq := match events.get? (i - 2) with
          | some t => t.sequence
          | none => 0
        ⟨pr.1, st.failed, st.rows ++ [⟨tseq, pr.2.snapshot_action, pr.2.snapshot_side⟩]⟩
      else pipeNormal st e
    else pipeNormal st e

/-- The initial loop state. -/
def initPipeState : PipeState := ⟨emptyBook, [], []⟩

/-- Run the whole `main.cpp` loop over an event list. -/
def pipelineRun (events : List MboEvent) : PipeState :=
  (List.range events.length).foldl (fun st i => pipeStep events i st) initPipeState

/-- `fifoDepleteSpec q Q` — the claims' description of FIFO depletion of a
level queue by quantity `Q`: head entries whose size is at most the remaining
quantity are removed, a larger head entry is decremented, and depletion stops
when the quantity is exhausted or the queue empties.  Stated from the claim
text, to be compared with the queue component of `fillLoop`. -/
def fifoDepleteSpec : List OrderEntry → Nat → List OrderEntry
  | q, 0 => q
  | [], _ => []
  | e :: rest, Q =>
    if e.size ≤ Q then fifoDepleteSpec rest (Q - e.size)
    else ⟨e.order_id, e.size - Q⟩ :: rest

/-- `fifoOrdersSpec q Q os` — the claims' description of the effect of FIFO
depletion on the per-order index: removed head entries delete their order
records, a decremented head entry updates its record's size.  Stated from the
claim text, to be compared with the index component of `fillLoop`. -/
def fifoOrdersSpec : List OrderEntry → Nat → Orders → Orders
  | _, 0, os => os
  | [], _, os => os
  | e :: rest, Q, os =>
    if e.size ≤ Q then fifoOrdersSpec rest (Q - e.size) (ordersErase os e.order_id)
    else ordersSetSize os e.order_id (e.size - Q)

/-- Sum of the entry sizes of a FIFO queue. -/
def queueSum (q : List OrderEntry) : Nat := (q.map (fun e => e.size)).sum

/-- A side's level map viewed through an order's side tag. -/
def sideLevels (b : OrderBook) (side : Char) : LevelMap :=
  if side = 'B' then b.bid_levels else b.ask_levels

end OrderBookModel

namespace OrderBookModel

/-- The per-level invariant claimed by the spec (P2/P3): the aggregate size
is the sum of the queued entry sizes, the order count is the queue length,
and both are strictly positive. -/
def levelGood (lv : LevelData) : Prop :=
  lv.total_size = queueSum lv.order_queue ∧
  lv.order_count = lv.order_queue.length ∧
  0 < lv.total_size ∧ 0 < lv.order_count

instance (lv : LevelData) : Decidable (levelGood lv) := by
  unfold levelGood; infer_instance

/-- All retained levels of both sides satisfy `levelGood`. -/
def levelsGood (b : OrderBook) : Prop :=
  (∀ pl ∈ b.bid_levels, levelGood pl.2) ∧ (∀ pl ∈ b.ask_levels, levelGood pl.2)

instance (b : OrderBook) : Decidable (levelsGood b) := by
  unfold levelsGood; infer_instance

end OrderBookModel

namespace OrderBookModel

/-- C9 counterexample.  The claim asserts that after every event sequence
applied through `processEvent` from the empty book, every retained level's
order count equals its queue length.  A zero-size Add (`A,B,100,0,#1`) is
indexed without creating a queue entry; a later full cancel of that order
decrements the level's order count without removing any queue entry, leaving
a retained bid level with `order_count = 1` but two queued orders. -/
theorem claim9_counterexample :
    ¬ levelsGood (processEvents emptyBook
      [⟨'A', 'B', 100, 0, 1, 1⟩, ⟨'A', 'B', 100, 5, 2, 2⟩,
       ⟨'A', 'B', 100, 7, 3, 3⟩, ⟨'C', 'B', 100, 0, 1, 4⟩]) := by
  decide

/-- C2 counterexample.  The claim asserts that a non-matching event arriving
while the FSM awaits a follow-on discards the stashed trade without booking
any fill.  After `T(B,100,30)` followed by a non-matching Add, the stash is
still present (`EXPECTING_FILL`, pending size 30), and the later `F`,`C` pair
books the stashed 30-lot fill against the resting ask order of size 50,
leaving it at size 20 — whereas discarding the trade and processing the final
full cancel (`C`, size 0) from `Normal` would have emptied the ask side. -/
theorem claim2_counterexample :
    (processEvents emptyBook
      [⟨'A', 'A', 100, 50, 1, 1⟩, ⟨'T', 'B', 100, 30, 0, 2⟩,
       ⟨'A', 'B', 90, 10, 2, 3⟩]).trade_state = TradeState.EXPECTING_FILL ∧
    (processEvents emptyBook
      [⟨'A', 'A', 100, 50, 1, 1⟩, ⟨'T', 'B', 100, 30, 0, 2⟩,
       ⟨'A', 'B', 90, 10, 2, 3⟩]).pending_trade_size = 30 ∧
    mapFind (processEvents emptyBook
      [⟨'A', 'A', 100, 50, 1, 1⟩, ⟨'T', 'B', 100, 30, 0, 2⟩,
       ⟨'A', 'B', 90, 10, 2, 3⟩, ⟨'F', 'A', 100, 30, 1, 4⟩,
       ⟨'C', 'A', 100, 0, 1, 5⟩]).ask_levels 100 =
      some ⟨100, 20, 1, [⟨1, 20⟩]⟩ := by
  decide

/-- C3 counterexample.  The claim asserts that a Trade event with side None
produces no snapshot row.  Running the pipeline on an Add followed by
`T,N,10,50,#0` writes two rows: the second one, `(seq 2, T, N)`, is emitted
for the side-None trade event. -/
theorem claim3_counterexample :
    (pipelineRun [⟨'A', 'B', 10, 100, 1, 1⟩, ⟨'T', 'N', 10, 50, 0, 2⟩]).rows =
      [⟨1, 'A', 'B'⟩, ⟨2, 'T', 'N'⟩] := by
  decide

/-- C4 counterexample.  The claim asserts that the snapshot of a completed
`T→F→C` sequence carries the sequence number of the final `C`.  In the run
below the `C` event has sequence 4, yet the emitted row carries sequence 2 —
the sequence of the opening `T`. -/
theorem claim4_counterexample :
    (pipelineRun
      [⟨'A', 'A', 100, 50, 9, 1⟩, ⟨'T', 'B', 100, 20, 0, 2⟩,
       ⟨'F', 'A', 100, 20, 9, 3⟩, ⟨'C', 'A', 100, 20, 9, 4⟩]).rows =
      [⟨1, 'A', 'A'⟩, ⟨2, 'T', 'A'⟩] ∧ (2 : Nat) ≠ 4 := by
  decide

/-- C5 counterexample.  The claim asserts that an applied Cancel writes a row
iff the top-10 image changed.  The closing `C` of a recognised `T→F→C` triple
is applied to the book and always writes; here the fill is a no-op (no level
exists at the trade price), so one row is written although the image is
unchanged from the empty book. -/
theorem claim5_counterexample :
    (pipelineRun
      [⟨'T', 'B', 10, 5, 0, 1⟩, ⟨'F', 'A', 10, 5, 9, 2⟩,
       ⟨'C', 'A', 10, 5, 9, 3⟩]).rows = [⟨1, 'T', 'A'⟩] ∧
    captureTop10State (pipelineRun
      [⟨'T', 'B', 10, 5, 0, 1⟩, ⟨'F', 'A', 10, 5, 9, 2⟩,
       ⟨'C', 'A', 10, 5, 9, 3⟩]).book = captureTop10State emptyBook := by
  decide

/-- C6 counterexample.  The claim asserts that a Cancel naming an unknown
nonzero order id still emits a snapshot with side None.  The pipeline filters
such a cancel before it reaches the book: only the Add's row is written, and
the id is remembered in `failed_cancel_orders` instead. -/
theorem claim6_counterexample :
    (pipelineRun [⟨'A', 'B', 10, 100, 1, 1⟩, ⟨'C', 'B', 20, 5, 99, 2⟩]).rows =
      [⟨1, 'A', 'B'⟩] ∧
    (pipelineRun [⟨'A', 'B', 10, 100, 1, 1⟩, ⟨'C', 'B', 20, 5, 99, 2⟩]).failed =
      [99] := by
  decide

/-- C10 counterexample.  The claim asserts that every Cancel naming an order
id absent from the index is skipped without emission and the id remembered.
The closing `C` of a recognised `T→F→C` triple bypasses that filter: below,
order 77 was never added, yet the `C` is processed, emits a row, and nothing
is remembered. -/
theorem claim10_counterexample :
    (pipelineRun
      [⟨'T', 'B', 10, 5, 0, 1⟩, ⟨'F', 'A', 10, 5, 77, 2⟩,
       ⟨'C', 'A', 10, 5, 77, 3⟩]).rows = [⟨1, 'T', 'A'⟩] ∧
    (pipelineRun
      [⟨'T', 'B', 10, 5, 0, 1⟩, ⟨'F', 'A', 10, 5, 77, 2⟩,
       ⟨'C', 'A', 10, 5, 77, 3⟩]).failed = [] := by
  decide

/-- C1 counterexample.  The claim quantifies over every `T(S,P,Q);F;C`
sequence with enough opposite liquidity.  When the `F`/`C` events carry order
id 0, `processCancelEvent` returns on its id-zero guard before reaching the
pending-trade branch: no fill is booked (the resting ask keeps its full 100),
and the single emitted row carries action `C`, not `T`. -/
theorem claim1_counterexample :
    (pipelineRun
      [⟨'A', 'A', 50, 100, 7, 1⟩, ⟨'T', 'B', 50, 40, 0, 2⟩,
       ⟨'F', 'A', 50, 40, 0, 3⟩, ⟨'C', 'A', 50, 40, 0, 4⟩]).rows =
      [⟨1, 'A', 'A'⟩, ⟨2, 'C', 'A'⟩] ∧
    mapFind (pipelineRun
      [⟨'A', 'A', 50, 100, 7, 1⟩, ⟨'T', 'B', 50, 40, 0, 2⟩,
       ⟨'F', 'A', 50, 40, 0, 3⟩, ⟨'C', 'A', 50, 40, 0, 4⟩]).book.ask_levels 50 =
      some ⟨50, 100, 1, [⟨7, 100⟩]⟩ := by
  decide

end OrderBookModel

namespace OrderBookModel

/-- Two books that agree on everything except the (unobservable) sequence
counter. -/
def sameBookCore (b b' : OrderBook) : Prop :=
  b'.bid_levels = b.bid_levels ∧ b'.ask_levels = b.ask_levels ∧ b'.orders = b.orders ∧
  b'.trade_state = b.trade_state ∧ b'.pending_trade_side = b.pending_trade_side ∧
  b'.pending_actual_trade_side = b.pending_actual_trade_side ∧
  b'.pending_trade_price = b.pending_trade_price ∧
  b'.pending_trade_size = b.pending_trade_size ∧
  b'.last_fill_was_trade = b.last_fill_was_trade

instance (b b' : OrderBook) : Decidable (sameBookCore b b') := by
  unfold sameBookCore; infer_instance

theorem tfcTriple_false_left (events : List MboEvent) (b : Nat) (e : MboEvent)
    (h1 : events.get? b = some e) (h : e.action ≠ 'T') : tfcTriple events b = false := by
  unfold tfcTriple
  rw [h1]
  cases h2 : events.get? (b + 1) <;> cases h3 : events.get? (b + 2) <;>
    simp [tfcMatch, h]

theorem tfcTriple_false_mid (events : List MboEvent) (b : Nat) (e : MboEvent)
    (h1 : events.get? (b + 1) = some e) (h : e.action ≠ 'F') : tfcTriple events b = false := by
  unfold tfcTriple
  rw [h1]
  cases h2 : events.get? b <;> cases h3 : events.get? (b + 2) <;>
    simp [tfcMatch, h]

theorem tfcTriple_false_right (events : List MboEvent) (b : Nat) (e : MboEvent)
    (h1 : events.get? (b + 2) = some e) (h : e.action ≠ 'C') : tfcTriple events b = false := by
  unfold tfcTriple
  rw [h1]
  cases h2 : events.get? b <;> cases h3 : events.get? (b + 1) <;>
    simp [tfcMatch, h]

theorem markedAt_false_of_actions (events : List MboEvent) (i : Nat) (e : MboEvent)
    (he : events.get? i = some e) (hT : e.action ≠ 'T') (hF : e.action ≠ 'F')
    (hC : e.action ≠ 'C') : markedAt events i = false := by
  unfold markedAt
  have h1 : tfcTriple events i = false := tfcTriple_false_left events i e he hT
  have h2 : (decide (1 ≤ i) && tfcTriple events (i - 1)) = false := by
    by_cases hi : 1 ≤ i
    · have : i - 1 + 1 = i := Nat.sub_add_cancel hi
      have := tfcTriple_false_mid events (i - 1) e (by rw [this]; exact he) hF
      simp [this]
    · simp [hi]
  have h3 : (decide (2 ≤ i) && tfcTriple events (i - 2)) = false := by
    by_cases hi : 2 ≤ i
    · have : i - 2 + 2 = i := Nat.sub_add_cancel hi
      have := tfcTriple_false_right events (i - 2) e (by rw [this]; exact he) hC
      simp [this]
    · simp [hi]
  rw [h1, h2, h3]
  rfl

theorem captureTop10State_counter (b : OrderBook) (n : Nat) :
    captureTop10State { b with sequence_counter := n } = captureTop10State b := rfl

end OrderBookModel

namespace OrderBookModel

theorem pipeStep_normal (events : List MboEvent) (i : Nat) (st : PipeState) (e : MboEvent)
    (he : events.get? i = some e) (hR : e.action ≠ 'R') (hm : markedAt events i = false) :
    pipeStep events i st = pipeNormal st e := by
  simp only [pipeStep, he]
  rw [if_neg (fun h => hR h.1), hm]
  simp

/-- Claim C8 (confirmed): an Add event whose order identifier already exists
in the per-order index is rejected atomically by the pipeline — the per-order
index, both side maps (and hence all level queues), and every trade-FSM field
are unchanged, and no snapshot row is written for the event. -/
theorem claim8_duplicate_add_rejected
    (events : List MboEvent) (i : Nat) (st : PipeState) (e : MboEvent) (od : OrderData)
    (he : events.get? i = some e) (ha : e.action = 'A')
    (hdup : ordersFind st.book.orders e.order_id = some od) :
    (pipeStep events i st).rows = st.rows ∧
    sameBookCore st.book (pipeStep events i st).book := by
  have hm : markedAt events i = false :=
    markedAt_false_of_actions events i e he (by rw [ha]; decide) (by rw [ha]; decide)
      (by rw [ha]; decide)
  rw [pipeStep_normal events i st e he (by rw [ha]; decide) hm]
  unfold pipeNormal
  rw [if_neg (show ¬ e.action = 'C' by rw [ha]; decide), if_pos ha]
  by_cases hf : e.order_id ∈ st.failed
  · rw [if_pos hf]
    exact ⟨rfl, rfl, rfl, rfl, rfl, rfl, rfl, rfl, rfl, rfl⟩
  · rw [if_neg hf]
    unfold applyAddCancel
    have hpe : processEvent st.book e =
        processAddEvent { st.book with sequence_counter := st.book.sequence_counter + 1 } e := by
      simp only [processEvent, ha]
    rw [hpe]
    by_cases hz : e.order_id = 0
    · unfold processAddEvent
      rw [if_pos hz]
      simp only [captureTop10State_counter]
      rw [if_neg (fun h => h.2 rfl)]
      exact ⟨rfl, rfl, rfl, rfl, rfl, rfl, rfl, rfl, rfl, rfl⟩
    · unfold processAddEvent
      rw [if_neg hz, if_pos (show (ordersFind st.book.orders e.order_id).isSome = true by
        rw [hdup]; rfl)]
      rw [if_neg (fun h => by simpa using h.1)]
      exact ⟨rfl, rfl, rfl, rfl, rfl, rfl, rfl, rfl, rfl, rfl⟩

end OrderBookModel

namespace OrderBookModel

theorem tfcMatch_spec (t f c : MboEvent) (h : tfcMatch t f c = true) :
    t.action = 'T' ∧ f.action = 'F' ∧ c.action = 'C' ∧ f.price = t.price ∧
    f.size = t.size ∧ c.order_id = f.order_id := by
  simp only [tfcMatch, Bool.and_eq_true, decide_eq_true_eq] at h
  exact ⟨h.1.1.1.1.1, h.1.1.1.1.2, h.1.1.1.2, h.1.1.2, h.1.2, h.2⟩

theorem markedAt_of_base (events : List MboEvent) (i : Nat)
    (h : tfcTriple events i = true) : markedAt events i = true := by
  unfold markedAt
  rw [h]
  rfl

theorem markedAt_of_mid (events : List MboEvent) (i : Nat)
    (h : tfcTriple events i = true) : markedAt events (i + 1) = true := by
  unfold markedAt
  have h2 : (decide (1 ≤ i + 1) && tfcTriple events (i + 1 - 1)) = true := by
    simp [h]
  rw [h2]
  simp

theorem markedAt_of_last (events : List MboEvent) (i : Nat)
    (h : tfcTriple events i = true) : markedAt events (i + 2) = true := by
  unfold markedAt
  have h2 : (decide (2 ≤ i + 2) && tfcTriple events (i + 2 - 2)) = true := by
    simp [h]
  rw [h2]
  simp

theorem tfcTriple_of (events : List MboEvent) (i : Nat) (t f c : MboEvent)
    (ht : events.get? i = some t) (hf : events.get? (i + 1) = some f)
    (hc : events.get? (i + 2) = some c) (hm : tfcMatch t f c = true) :
    tfcTriple events i = true := by
  unfold tfcTriple
  rw [ht, hf, hc]
  exact hm

/-- Claim C3 (amended): a Trade event with side None never changes the book
or the trade FSM (only the internal sequence counter advances).  Outside a
recognised T-F-C triple the pipeline — contrary to the original claim —
unconditionally writes one snapshot row `(sequence, T, N)` for it; as the
opening `T` of a recognised triple (the prescan never inspects the `T`'s
side) it writes no row of its own: the triple's single row is emitted only
at the closing `C`. -/
theorem claim3_trade_side_none_emits
    (events : List MboEvent) (i : Nat) (st : PipeState) (e : MboEvent)
    (he : events.get? i = some e) (ha : e.action = 'T') (hs : e.side = 'N') :
    (pipeStep events i st).rows =
      (if markedAt events i = true then st.rows
       else st.rows ++ [⟨e.sequence, 'T', 'N'⟩]) ∧
    sameBookCore st.book (pipeStep events i st).book ∧
    (pipeStep events i st).failed = st.failed := by
  cases hmk : markedAt events i with
  | true =>
    have hstep : pipeStep events i st =
        ⟨(processEvent st.book e).1, st.failed, st.rows⟩ := by
      simp only [pipeStep, he]
      rw [if_neg (fun h => by rw [ha] at h; exact absurd h.1 (by decide)), hmk]
      rw [if_pos rfl, if_pos (Or.inl ha)]
    rw [hstep, if_pos rfl]
    have hpe : processEvent st.book e =
        processTradeEvent { st.book with sequence_counter := st.book.sequence_counter + 1 } e := by
      simp only [processEvent, ha]
    rw [hpe]
    unfold processTradeEvent
    rw [if_pos hs]
    exact ⟨rfl, ⟨rfl, rfl, rfl, rfl, rfl, rfl, rfl, rfl, rfl⟩, rfl⟩
  | false =>
    rw [pipeStep_normal events i st e he (by rw [ha]; decide) hmk,
      if_neg (show ¬ (false = true) by decide)]
    unfold pipeNormal
    rw [if_neg (show ¬ e.action = 'C' by rw [ha]; decide),
      if_neg (show ¬ e.action = 'A' by rw [ha]; decide)]
    unfold applyOther
    have hpe : processEvent st.book e =
        processTradeEvent { st.book with sequence_counter := st.book.sequence_counter + 1 } e := by
      simp only [processEvent, ha]
    rw [hpe]
    unfold processTradeEvent
    rw [if_pos hs, if_pos ha, if_pos hs]
    exact ⟨rfl, ⟨rfl, rfl, rfl, rfl, rfl, rfl, rfl, rfl, rfl⟩, rfl⟩

/-- Claim C6 (amended): a Cancel naming a nonzero order identifier absent
from the per-order index, outside a recognised T-F-C triple, leaves the whole
pipeline book untouched, but — contrary to the original claim — no snapshot
row is emitted: the event is filtered before reaching the book and its order
identifier is remembered in `failed_cancel_orders`. -/
theorem claim6_unknown_cancel_filtered
    (events : List MboEvent) (i : Nat) (st : PipeState) (e : MboEvent)
    (he : events.get? i = some e) (ha : e.action = 'C') (_hz : e.order_id ≠ 0)
    (hm : markedAt events i = false)
    (hnot : ordersFind st.book.orders e.order_id = none) :
    (pipeStep events i st).rows = st.rows ∧
    (pipeStep events i st).book = st.book ∧
    (pipeStep events i st).failed = failedInsert st.failed e.order_id := by
  rw [pipeStep_normal events i st e he (by rw [ha]; decide) hm]
  unfold pipeNormal
  rw [if_pos ha, hnot]
  exact ⟨rfl, rfl, rfl⟩

/-- The same book with the trade FSM returned to its `Normal` resting state
(state `NORMAL`, no fill seen). -/
def inNormalState (b : OrderBook) : OrderBook :=
  { b with trade_state := TradeState.NORMAL, last_fill_was_trade := false }

/-- Claim C2 (amended): when an Add arrives while the trade FSM is awaiting a
follow-on event, the stashed pending trade is retained, not discarded — the
FSM state and the stashed side/price/size are unchanged — while the Add
itself is applied to the book (levels, orders, and the returned result)
exactly as it would be from the `Normal` state. -/
theorem claim2_nonmatching_event_keeps_book_semantics (b : OrderBook) (e : MboEvent) (ha : e.action = 'A') :
    ((processEvent b e).1.trade_state = b.trade_state ∧
     (processEvent b e).1.pending_trade_side = b.pending_trade_side ∧
     (processEvent b e).1.pending_trade_price = b.pending_trade_price ∧
     (processEvent b e).1.pending_trade_size = b.pending_trade_size) ∧
    ((processEvent b e).1.bid_levels = (processEvent (inNormalState b) e).1.bid_levels ∧
     (processEvent b e).1.ask_levels = (processEvent (inNormalState b) e).1.ask_levels ∧
     (processEvent b e).1.orders = (processEvent (inNormalState b) e).1.orders ∧
     (processEvent b e).2 = (processEvent (inNormalState b) e).2) := by
  have hpe : ∀ b' : OrderBook, processEvent b' e =
      processAddEvent { b' with sequence_counter := b'.sequence_counter + 1 } e := by
    intro b'
    simp only [processEvent, ha]
  rw [hpe b, hpe (inNormalState b)]
  unfold processAddEvent inNormalState
  by_cases hz : e.order_id = 0
  · rw [if_pos hz, if_pos hz]
    exact ⟨⟨rfl, rfl, rfl, rfl⟩, rfl, rfl, rfl, rfl⟩
  · rw [if_neg hz, if_neg hz]
    by_cases hdup : (ordersFind b.orders e.order_id).isSome = true
    · rw [if_pos hdup, if_pos hdup]
      exact ⟨⟨rfl, rfl, rfl, rfl⟩, rfl, rfl, rfl, rfl⟩
    · rw [if_neg hdup, if_neg hdup]
      unfold addOrder updateBidLevel updateAskLevel
      by_cases hb : e.side = 'B'
      · rw [if_pos hb, if_pos hb]
        exact ⟨⟨rfl, rfl, rfl, rfl⟩, rfl, rfl, rfl, rfl⟩
      · rw [if_neg hb, if_neg hb]
        by_cases hA : e.side = 'A'
        · rw [if_pos hA, if_pos hA]
          exact ⟨⟨rfl, rfl, rfl, rfl⟩, rfl, rfl, rfl, rfl⟩
        · rw [if_neg hA, if_neg hA]
          exact ⟨⟨rfl, rfl, rfl, rfl⟩, rfl, rfl, rfl, rfl⟩

/-- Claim C4 (amended): the single row emitted for a recognised `T→F→C`
triple carries the sequence number of the opening `T` event — not, as the
original claim states, that of the final `C`. -/
theorem claim4_tfc_row_takes_trade_sequence
    (events : List MboEvent) (i : Nat) (st : PipeState) (t f c : MboEvent)
    (ht : events.get? i = some t) (hf : events.get? (i + 1) = some f)
    (hc : events.get? (i + 2) = some c) (hm : tfcMatch t f c = true) :
    ∃ a s, (pipeStep events (i + 2) (pipeStep events (i + 1) (pipeStep events i st))).rows =
      st.rows ++ [⟨t.sequence, a, s⟩] := by
  obtain ⟨hat, haf, hac, _, _, _⟩ := tfcMatch_spec t f c hm
  have htrip : tfcTriple events i = true := tfcTriple_of events i t f c ht hf hc hm
  have h1 : pipeStep events i st =
      ⟨(processEvent st.book t).1, st.failed, st.rows⟩ := by
    simp only [pipeStep, ht]
    rw [if_neg (fun h => by rw [hat] at h; exact absurd h.1 (by decide)),
      markedAt_of_base events i htrip]
    rw [if_pos rfl, if_pos (Or.inl hat)]
  have h2 : pipeStep events (i + 1) (pipeStep events i st) =
      ⟨(processEvent (processEvent st.book t).1 f).1, st.failed, st.rows⟩ := by
    rw [h1]
    simp only [pipeStep, hf]
    rw [if_neg (fun h => by rw [haf] at h; exact absurd h.1 (by decide)),
      markedAt_of_mid events i htrip]
    rw [if_pos rfl, if_pos (Or.inr haf)]
  rw [h2]
  simp only [pipeStep, hc]
  rw [if_neg (fun h => by rw [hac] at h; exact absurd h.1 (by decide)),
    markedAt_of_last events i htrip]
  rw [if_pos rfl,
    if_neg (show ¬(c.action = 'T' ∨ c.action = 'F') by rw [hac]; decide),
    if_pos hac]
  have : i + 2 - 2 = i := rfl
  rw [this, ht]
  exact ⟨_, _, rfl⟩

end OrderBookModel

namespace OrderBookModel

theorem failedInsert_mem (s : List Nat) (id : Nat) : id ∈ failedInsert s id := by
  unfold failedInsert
  by_cases h : id ∈ s
  · rw [if_pos h]; exact h
  · rw [if_neg h]; simp

theorem failedErase_not_mem (s : List Nat) (id : Nat) : id ∉ failedErase s id := by
  unfold failedErase
  simp

/-- Claim C10 (amended): outside recognised T-F-C triples, a Cancel naming an
order identifier absent from the per-order index is skipped without emission
and the identifier is remembered in `failed_cancel_orders`; an Add carrying a
remembered identifier is dropped entirely — not applied and not emitted — and
the identifier is forgotten. -/
theorem claim10_failed_cancel_then_add_dropped
    (events : List MboEvent) (i : Nat) (st : PipeState) (c : MboEvent)
    (events2 : List MboEvent) (j : Nat) (st2 : PipeState) (a : MboEvent)
    (hc : events.get? i = some c) (hac : c.action = 'C')
    (hmc : markedAt events i = false)
    (hnot : ordersFind st.book.orders c.order_id = none)
    (ha : events2.get? j = some a) (haa : a.action = 'A')
    (hfa : a.order_id ∈ st2.failed) :
    ((pipeStep events i st).rows = st.rows ∧
     (pipeStep events i st).book = st.book ∧
     (pipeStep events i st).failed = failedInsert st.failed c.order_id ∧
     c.order_id ∈ (pipeStep events i st).failed) ∧
    ((pipeStep events2 j st2).rows = st2.rows ∧
     (pipeStep events2 j st2).book = st2.book ∧
     (pipeStep events2 j st2).failed = failedErase st2.failed a.order_id ∧
     a.order_id ∉ (pipeStep events2 j st2).failed) := by
  constructor
  · rw [pipeStep_normal events i st c hc (by rw [hac]; decide) hmc]
    unfold pipeNormal
    rw [if_pos hac, hnot]
    exact ⟨rfl, rfl, rfl, failedInsert_mem st.failed c.order_id⟩
  · have hm2 : markedAt events2 j = false :=
      markedAt_false_of_actions events2 j a ha (by rw [haa]; decide) (by rw [haa]; decide)
        (by rw [haa]; decide)
    rw [pipeStep_normal events2 j st2 a ha (by rw [haa]; decide) hm2]
    unfold pipeNormal
    rw [if_neg (show ¬ a.action = 'C' by rw [haa]; decide), if_pos haa, if_pos hfa]
    exact ⟨rfl, rfl, rfl, failedErase_not_mem st2.failed a.order_id⟩

end OrderBookModel

namespace OrderBookModel

theorem claim8_duplicate_add_rejected_witness :
    ordersFind (pipelineRun [⟨'A', 'B', 10, 100, 5, 1⟩]).book.orders 5 = some ⟨10, 100, 'B'⟩ ∧
    ((pipeStep [⟨'A', 'B', 10, 100, 5, 1⟩, ⟨'A', 'B', 11, 50, 5, 2⟩] 1
        (pipelineRun [⟨'A', 'B', 10, 100, 5, 1⟩])).rows =
      (pipelineRun [⟨'A', 'B', 10, 100, 5, 1⟩]).rows ∧
     sameBookCore (pipelineRun [⟨'A', 'B', 10, 100, 5, 1⟩]).book
      (pipeStep [⟨'A', 'B', 10, 100, 5, 1⟩, ⟨'A', 'B', 11, 50, 5, 2⟩] 1
        (pipelineRun [⟨'A', 'B', 10, 100, 5, 1⟩])).book) :=
  ⟨by decide,
   claim8_duplicate_add_rejected [⟨'A', 'B', 10, 100, 5, 1⟩, ⟨'A', 'B', 11, 50, 5, 2⟩] 1
     (pipelineRun [⟨'A', 'B', 10, 100, 5, 1⟩]) ⟨'A', 'B', 11, 50, 5, 2⟩ ⟨10, 100, 'B'⟩
     (by decide) (by decide) (by decide)⟩

theorem claim3_trade_side_none_emits_witness :
    (pipeStep [⟨'T', 'N', 10, 50, 0, 7⟩] 0 initPipeState).rows =
      (if markedAt [⟨'T', 'N', 10, 50, 0, 7⟩] 0 = true then initPipeState.rows
       else initPipeState.rows ++ [⟨7, 'T', 'N'⟩]) ∧
    sameBookCore initPipeState.book (pipeStep [⟨'T', 'N', 10, 50, 0, 7⟩] 0 initPipeState).book ∧
    (pipeStep [⟨'T', 'N', 10, 50, 0, 7⟩] 0 initPipeState).failed = initPipeState.failed :=
  claim3_trade_side_none_emits [⟨'T', 'N', 10, 50, 0, 7⟩] 0 initPipeState ⟨'T', 'N', 10, 50, 0, 7⟩
    (by decide) (by decide) (by decide)

theorem claim2_nonmatching_event_keeps_book_semantics_witness :
    (processEvents emptyBook [⟨'T', 'B', 100, 30, 0, 1⟩]).trade_state =
      TradeState.EXPECTING_FILL ∧
    (((processEvent (processEvents emptyBook [⟨'T', 'B', 100, 30, 0, 1⟩])
        ⟨'A', 'B', 90, 10, 2, 2⟩).1.trade_state =
       (processEvents emptyBook [⟨'T', 'B', 100, 30, 0, 1⟩]).trade_state ∧
      (processEvent (processEvents emptyBook [⟨'T', 'B', 100, 30, 0, 1⟩])
        ⟨'A', 'B', 90, 10, 2, 2⟩).1.pending_trade_side =
       (processEvents emptyBook [⟨'T', 'B', 100, 30, 0, 1⟩]).pending_trade_side ∧
      (processEvent (processEvents emptyBook [⟨'T', 'B', 100, 30, 0, 1⟩])
        ⟨'A', 'B', 90, 10, 2, 2⟩).1.pending_trade_price =
       (processEvents emptyBook [⟨'T', 'B', 100, 30, 0, 1⟩]).pending_trade_price ∧
      (processEvent (processEvents emptyBook [⟨'T', 'B', 100, 30, 0, 1⟩])
        ⟨'A', 'B', 90, 10, 2, 2⟩).1.pending_trade_size =
       (processEvents emptyBook [⟨'T', 'B', 100, 30, 0, 1⟩]).pending_trade_size) ∧
     ((processEvent (processEvents emptyBook [⟨'T', 'B', 100, 30, 0, 1⟩])
        ⟨'A', 'B', 90, 10, 2, 2⟩).1.bid_levels =
       (processEvent (inNormalState (processEvents emptyBook [⟨'T', 'B', 100, 30, 0, 1⟩]))
        ⟨'A', 'B', 90, 10, 2, 2⟩).1.bid_levels ∧
      (processEvent (processEvents emptyBook [⟨'T', 'B', 100, 30, 0, 1⟩])
        ⟨'A', 'B', 90, 10, 2, 2⟩).1.ask_levels =
       (processEvent (inNormalState (processEvents emptyBook [⟨'T', 'B', 100, 30, 0, 1⟩]))
        ⟨'A', 'B', 90, 10, 2, 2⟩).1.ask_levels ∧
      (processEvent (processEvents emptyBook [⟨'T', 'B', 100, 30, 0, 1⟩])
        ⟨'A', 'B', 90, 10, 2, 2⟩).1.orders =
       (processEvent (inNormalState (processEvents emptyBook [⟨'T', 'B', 100, 30, 0, 1⟩]))
        ⟨'A', 'B', 90, 10, 2, 2⟩).1.orders ∧
      (processEvent (processEvents emptyBook [⟨'T', 'B', 100, 30, 0, 1⟩])
        ⟨'A', 'B', 90, 10, 2, 2⟩).2 =
       (processEvent (inNormalState (processEvents emptyBook [⟨'T', 'B', 100, 30, 0, 1⟩]))
        ⟨'A', 'B', 90, 10, 2, 2⟩).2)) :=
  ⟨by decide,
   claim2_nonmatching_event_keeps_book_semantics (processEvents emptyBook [⟨'T', 'B', 100, 30, 0, 1⟩])
     ⟨'A', 'B', 90, 10, 2, 2⟩ (by decide)⟩

theorem claim4_tfc_row_takes_trade_sequence_witness :
    tfcMatch ⟨'T', 'B', 100, 20, 0, 11⟩ ⟨'F', 'A', 100, 20, 9, 12⟩ ⟨'C', 'A', 100, 20, 9, 13⟩ =
      true ∧
    ∃ a s, (pipeStep [⟨'T', 'B', 100, 20, 0, 11⟩, ⟨'F', 'A', 100, 20, 9, 12⟩,
        ⟨'C', 'A', 100, 20, 9, 13⟩] (0 + 2)
      (pipeStep [⟨'T', 'B', 100, 20, 0, 11⟩, ⟨'F', 'A', 100, 20, 9, 12⟩,
        ⟨'C', 'A', 100, 20, 9, 13⟩] (0 + 1)
        (pipeStep [⟨'T', 'B', 100, 20, 0, 11⟩, ⟨'F', 'A', 100, 20, 9, 12⟩,
          ⟨'C', 'A', 100, 20, 9, 13⟩] 0 initPipeState))).rows =
      initPipeState.rows ++ [⟨11, a, s⟩] :=
  ⟨by decide,
   claim4_tfc_row_takes_trade_sequence [⟨'T', 'B', 100, 20, 0, 11⟩, ⟨'F', 'A', 100, 20, 9, 12⟩,
       ⟨'C', 'A', 100, 20, 9, 13⟩] 0 initPipeState ⟨'T', 'B', 100, 20, 0, 11⟩
     ⟨'F', 'A', 100, 20, 9, 12⟩ ⟨'C', 'A', 100, 20, 9, 13⟩
     (by decide) (by decide) (by decide) (by decide)⟩

theorem claim6_unknown_cancel_filtered_witness :
    ordersFind initPipeState.book.orders 99 = none ∧
    ((pipeStep [⟨'C', 'B', 20, 5, 99, 3⟩] 0 initPipeState).rows = initPipeState.rows ∧
     (pipeStep [⟨'C', 'B', 20, 5, 99, 3⟩] 0 initPipeState).book = initPipeState.book ∧
     (pipeStep [⟨'C', 'B', 20, 5, 99, 3⟩] 0 initPipeState).failed =
       failedInsert initPipeState.failed 99) :=
  ⟨by decide,
   claim6_unknown_cancel_filtered [⟨'C', 'B', 20, 5, 99, 3⟩] 0 initPipeState ⟨'C', 'B', 20, 5, 99, 3⟩
     (by decide) (by decide) (by decide) (by decide) (by decide)⟩

theorem claim10_failed_cancel_then_add_dropped_witness :
    41 ∈ (pipeStep [⟨'C', 'B', 20, 5, 41, 1⟩] 0 initPipeState).failed ∧
    (((pipeStep [⟨'C', 'B', 20, 5, 41, 1⟩] 0 initPipeState).rows = initPipeState.rows ∧
      (pipeStep [⟨'C', 'B', 20, 5, 41, 1⟩] 0 initPipeState).book = initPipeState.book ∧
      (pipeStep [⟨'C', 'B', 20, 5, 41, 1⟩] 0 initPipeState).failed =
        failedInsert initPipeState.failed 41 ∧
      41 ∈ (pipeStep [⟨'C', 'B', 20, 5, 41, 1⟩] 0 initPipeState).failed) ∧
     ((pipeStep [⟨'A', 'B', 20, 5, 41, 2⟩] 0
        (pipeStep [⟨'C', 'B', 20, 5, 41, 1⟩] 0 initPipeState)).rows =
       (pipeStep [⟨'C', 'B', 20, 5, 41, 1⟩] 0 initPipeState).rows ∧
      (pipeStep [⟨'A', 'B', 20, 5, 41, 2⟩] 0
        (pipeStep [⟨'C', 'B', 20, 5, 41, 1⟩] 0 initPipeState)).book =
       (pipeStep [⟨'C', 'B', 20, 5, 41, 1⟩] 0 initPipeState).book ∧
      (pipeStep [⟨'A', 'B', 20, 5, 41, 2⟩] 0
        (pipeStep [⟨'C', 'B', 20, 5, 41, 1⟩] 0 initPipeState)).failed =
       failedErase (pipeStep [⟨'C', 'B', 20, 5, 41, 1⟩] 0 initPipeState).failed 41 ∧
      41 ∉ (pipeStep [⟨'A', 'B', 20, 5, 41, 2⟩] 0
        (pipeStep [⟨'C', 'B', 20, 5, 41, 1⟩] 0 initPipeState)).failed)) :=
  ⟨by decide,
   claim10_failed_cancel_then_add_dropped [⟨'C', 'B', 20, 5, 41, 1⟩] 0 initPipeState ⟨'C', 'B', 20, 5, 41, 1⟩
     [⟨'A', 'B', 20, 5, 41, 2⟩] 0 (pipeStep [⟨'C', 'B', 20, 5, 41, 1⟩] 0 initPipeState)
     ⟨'A', 'B', 20, 5, 41, 2⟩
     (by decide) (by decide) (by decide) (by decide) (by decide) (by decide) (by decide)⟩

end OrderBookModel

namespace OrderBookModel

theorem take_mapErase (m : LevelMap) (k : Int) (n : Nat)
    (h : ∀ q ∈ (m.take n).map Prod.fst, q ≠ k) :
    (mapErase m k).take n = m.take n := by
  induction m generalizing n with
  | nil => rfl
  | cons hd tl ih =>
    cases n with
    | zero => rfl
    | succ n =>
      have hhd : hd.1 ≠ k := h hd.1 (by simp)
      unfold mapErase
      rw [if_neg (fun hh => hhd hh.symm)]
      simp only [List.take_succ_cons, List.cons.injEq, true_and]
      exact ih n (fun q hq => h q (by
        simp only [List.take_succ_cons, List.map_cons, List.mem_cons]
        right
        exact hq))

theorem take_mapAdjust (m : LevelMap) (k : Int) (f : LevelData → LevelData) (n : Nat)
    (h : ∀ q ∈ (m.take n).map Prod.fst, q ≠ k) :
    (mapAdjust m k f).take n = m.take n := by
  induction m generalizing n with
  | nil => rfl
  | cons hd tl ih =>
    cases n with
    | zero => rfl
    | succ n =>
      have hhd : hd.1 ≠ k := h hd.1 (by simp)
      unfold mapAdjust
      rw [if_neg (fun hh => hhd hh.symm)]
      simp only [List.take_succ_cons, List.cons.injEq, true_and]
      exact ih n (fun q hq => h q (by
        simp only [List.take_succ_cons, List.map_cons, List.mem_cons]
        right
        exact hq))

theorem take_mapInsert (lt : Int → Int → Bool) (k : Int) (v : LevelData) (m : LevelMap) (n : Nat)
    (hlen : (m.take n).length = n)
    (h : ∀ q ∈ (m.take n).map Prod.fst, lt k q = false ∧ k ≠ q) :
    (mapInsert lt k v m).take n = m.take n := by
  induction m generalizing n with
  | nil =>
    cases n with
    | zero => rfl
    | succ n => simp at hlen
  | cons hd tl ih =>
    cases n with
    | zero => rfl
    | succ n =>
      have hhd := h hd.1 (by simp)
      unfold mapInsert
      rw [if_neg (fun hh => by rw [hhd.1] at hh; exact Bool.false_ne_true hh),
        if_neg hhd.2]
      simp only [List.take_succ_cons, List.cons.injEq, true_and]
      refine ih n ?_ (fun q hq => h q (by
        simp only [List.take_succ_cons, List.map_cons, List.mem_cons]
        right
        exact hq))
      simpa using hlen

theorem top10Side_eq_take (m : LevelMap) : top10Side m = top10Side (m.take 10) := by
  unfold top10Side
  rw [List.take_append_eq_append_take, List.take_append_eq_append_take,
    ← List.map_take, ← List.map_take, List.take_take, min_self]
  simp only [List.length_map, List.length_take, List.take_replicate]
  congr 2
  omega

theorem top10Side_congr (m m' : LevelMap) (h : m.take 10 = m'.take 10) :
    top10Side m = top10Side m' := by
  rw [top10Side_eq_take m, top10Side_eq_take m', h]

/-- Ten levels of the side map are all strictly better (earlier in the sort
order of the comparator) than price `p`: the premise of the claim's
"ranked 11th or deeper" scenario. -/
def tenBetter (lt : Int → Int → Bool) (m : LevelMap) (p : Int) : Prop :=
  (m.take 10).length = 10 ∧ ∀ q ∈ (m.take 10).map Prod.fst, lt q p = true

instance (lt : Int → Int → Bool) (m : LevelMap) (p : Int) : Decidable (tenBetter lt m p) := by
  unfold tenBetter; infer_instance

theorem updateLevelMap_take10 (lt : Int → Int → Bool) (m : LevelMap) (k : Int)
    (sd cd : Int) (oid : Nat)
    (hlen : (m.take 10).length = 10)
    (h : ∀ q ∈ (m.take 10).map Prod.fst, lt k q = false ∧ k ≠ q) :
    (updateLevelMap lt m k sd cd oid).take 10 = m.take 10 := by
  unfold updateLevelMap
  cases hf : mapFind m k with
  | none =>
    dsimp only
    by_cases hsd : 0 < sd
    · rw [if_pos hsd]
      exact take_mapInsert lt k _ m 10 hlen h
    · rw [if_neg hsd]
  | some lv =>
    dsimp only
    by_cases hz : wrap64 ((lv.total_size : Int) + sd) = 0 ∨ wrap32 ((lv.order_count : Int) + cd) = 0
    · rw [if_pos hz]
      exact take_mapErase m k 10 (fun q hq hh => (h q hq).2 hh.symm)
    · rw [if_neg hz]
      exact take_mapAdjust m k _ 10 (fun q hq hh => (h q hq).2 hh.symm)

end OrderBookModel

namespace OrderBookModel

theorem processCancelEvent_write (b : OrderBook) (e : MboEvent) :
    (processCancelEvent b e).2.should_write = true := by
  unfold processCancelEvent
  by_cases hz : e.order_id = 0
  · rw [if_pos hz]
  · rw [if_neg hz]
    by_cases hfsm : b.last_fill_was_trade = true ∧ b.trade_state = TradeState.EXPECTING_FILL
    · rw [if_pos hfsm]
    · rw [if_neg hfsm]
      cases ho : ordersFind b.orders e.order_id <;> rfl

theorem processAddEvent_nowrite_book (b : OrderBook) (e : MboEvent)
    (h : (processAddEvent b e).2.should_write = false) : (processAddEvent b e).1 = b := by
  unfold processAddEvent at h ⊢
  by_cases hz : e.order_id = 0
  · rw [if_pos hz] at h
    simp at h
  · rw [if_neg hz] at h ⊢
    by_cases hdup : (ordersFind b.orders e.order_id).isSome = true
    · rw [if_pos hdup]
    · rw [if_neg hdup] at h
      simp at h

theorem applyAddCancel_write (st : PipeState) (e : MboEvent)
    (hw : (processEvent st.book e).2.should_write = true) :
    applyAddCancel st e = ⟨(processEvent st.book e).1, st.failed,
      if captureTop10State (processEvent st.book e).1 = captureTop10State st.book
      then st.rows else st.rows ++ [rowOf e]⟩ := by
  unfold applyAddCancel
  by_cases hT : captureTop10State (processEvent st.book e).1 = captureTop10State st.book
  · rw [if_neg (fun h => h.2 hT), if_pos hT]
  · rw [if_pos ⟨hw, hT⟩, if_neg hT]

theorem applyAddCancel_nowrite (st : PipeState) (e : MboEvent)
    (hw : (processEvent st.book e).2.should_write = false) :
    applyAddCancel st e = ⟨(processEvent st.book e).1, st.failed, st.rows⟩ := by
  unfold applyAddCancel
  rw [if_neg (fun h => by rw [hw] at h; exact Bool.false_ne_true h.1)]

theorem bidLt_pass (p q : Int) (h : bidLt q p = true) : bidLt p q = false ∧ p ≠ q := by
  simp only [bidLt, decide_eq_true_eq, decide_eq_false_iff_not] at h ⊢
  omega

theorem askLt_pass (p q : Int) (h : askLt q p = true) : askLt p q = false ∧ p ≠ q := by
  simp only [askLt, decide_eq_true_eq, decide_eq_false_iff_not] at h ⊢
  omega

/-- Claim C5 (amended): for every Add or Cancel event handled outside a
recognised T-F-C triple, a snapshot row is written if and only if the top-10
image (element-wise on all sixty scalars) after the event differs from the
image before it; in particular, an Add at a price with ten strictly better
levels already on its side (rank eleven or deeper) emits no snapshot. -/
theorem claim5_row_iff_top10_changed
    (events : List MboEvent) (i : Nat) (st : PipeState) (e : MboEvent)
    (he : events.get? i = some e) (hac : e.action = 'A' ∨ e.action = 'C')
    (hm : markedAt events i = false) :
    ((pipeStep events i st).rows =
      if captureTop10State (pipeStep events i st).book = captureTop10State st.book
      then st.rows else st.rows ++ [rowOf e]) ∧
    (e.action = 'A' →
      ((e.side = 'B' ∧ tenBetter bidLt st.book.bid_levels e.price) ∨
       (e.side = 'A' ∧ tenBetter askLt st.book.ask_levels e.price)) →
      (pipeStep events i st).rows = st.rows) := by
  have hR : e.action ≠ 'R' := by rcases hac with h | h <;> rw [h] <;> decide
  rw [pipeStep_normal events i st e he hR hm]
  have key : (pipeNormal st e).rows =
      (if captureTop10State (pipeNormal st e).book = captureTop10State st.book
       then st.rows else st.rows ++ [rowOf e]) ∧
      (e.action = 'A' →
        ((e.side = 'B' ∧ tenBetter bidLt st.book.bid_levels e.price) ∨
         (e.side = 'A' ∧ tenBetter askLt st.book.ask_levels e.price)) →
        captureTop10State (pipeNormal st e).book = captureTop10State st.book) := by
    unfold pipeNormal
    rcases hac with hA | hC
    · rw [if_neg (show ¬ e.action = 'C' by rw [hA]; decide), if_pos hA]
      by_cases hf : e.order_id ∈ st.failed
      · rw [if_pos hf]
        exact ⟨by rw [if_pos rfl], fun _ _ => rfl⟩
      · rw [if_neg hf]
        have hpe : processEvent st.book e = processAddEvent
            { st.book with sequence_counter := st.book.sequence_counter + 1 } e := by
          simp only [processEvent, hA]
        by_cases hw : (processEvent st.book e).2.should_write = true
        · rw [applyAddCancel_write st e hw]
          refine ⟨rfl, fun _ hdeep => ?_⟩
          -- show the top-10 image is unchanged for a deep add
          rw [hpe]
          rw [hpe] at hw
          unfold processAddEvent at hw ⊢
          by_cases hz : e.order_id = 0
          · rw [if_pos hz]
            exact captureTop10State_counter st.book _
          · rw [if_neg hz] at hw ⊢
            by_cases hdup : (ordersFind st.book.orders e.order_id).isSome = true
            · rw [if_pos hdup]
              exact captureTop10State_counter st.book _
            · rw [if_neg hdup]
              unfold addOrder
              rcases hdeep with ⟨hsB, hten⟩ | ⟨hsA, hten⟩
              · rw [if_pos hsB]
                unfold updateBidLevel captureTop10State
                have := updateLevelMap_take10 bidLt st.book.bid_levels e.price
                  (centered64 e.size) 1 e.order_id hten.1
                  (fun q hq => bidLt_pass e.price q (hten.2 q hq))
                simp only
                rw [top10Side_eq_take (updateLevelMap bidLt st.book.bid_levels e.price
                  (centered64 e.size) 1 e.order_id), this, ← top10Side_eq_take]
              · rw [if_neg (show ¬ e.side = 'B' by rw [hsA]; decide), if_pos hsA]
                unfold updateAskLevel captureTop10State
                have := updateLevelMap_take10 askLt st.book.ask_levels e.price
                  (centered64 e.size) 1 e.order_id hten.1
                  (fun q hq => askLt_pass e.price q (hten.2 q hq))
                simp only
                rw [top10Side_eq_take (updateLevelMap askLt st.book.ask_levels e.price
                  (centered64 e.size) 1 e.order_id), this, ← top10Side_eq_take]
        · have hw' : (processEvent st.book e).2.should_write = false :=
            Bool.eq_false_iff.mpr (fun hh => hw hh)
          rw [applyAddCancel_nowrite st e hw']
          have hb : (processEvent st.book e).1 =
              { st.book with sequence_counter := st.book.sequence_counter + 1 } := by
            rw [hpe]
            exact processAddEvent_nowrite_book _ e (by rw [← hpe]; exact hw')
          constructor
          · rw [if_pos (by rw [hb]; exact captureTop10State_counter st.book _)]
          · intro _ _
            rw [hb]
            exact captureTop10State_counter st.book _
    · rw [if_pos hC]
      by_cases hex : (ordersFind st.book.orders e.order_id).isSome = true
      · rw [if_pos hex]
        have hpe : processEvent st.book e = processCancelEvent
            { st.book with sequence_counter := st.book.sequence_counter + 1 } e := by
          simp only [processEvent, hC]
        have hw : (processEvent st.book e).2.should_write = true := by
          rw [hpe]
          exact processCancelEvent_write _ e
        rw [applyAddCancel_write st e hw]
        exact ⟨rfl, fun hA' => absurd (hC ▸ hA') (by intro hh; cases hh)⟩
      · rw [if_neg hex]
        exact ⟨by rw [if_pos rfl], fun hA' => absurd (hC ▸ hA') (by intro hh; cases hh)⟩
  refine ⟨key.1, fun hA' hdeep => ?_⟩
  rw [key.1, if_pos (key.2 hA' hdeep)]

end OrderBookModel

namespace OrderBookModel

/-- A concrete ten-level bid book used to exercise the deep-add scenario. -/
def tenLevelBids : LevelMap :=
  [(20, ⟨20, 1, 1, [⟨1, 1⟩]⟩), (19, ⟨19, 1, 1, [⟨2, 1⟩]⟩), (18, ⟨18, 1, 1, [⟨3, 1⟩]⟩),
   (17, ⟨17, 1, 1, [⟨4, 1⟩]⟩), (16, ⟨16, 1, 1, [⟨5, 1⟩]⟩), (15, ⟨15, 1, 1, [⟨6, 1⟩]⟩),
   (14, ⟨14, 1, 1, [⟨7, 1⟩]⟩), (13, ⟨13, 1, 1, [⟨8, 1⟩]⟩), (12, ⟨12, 1, 1, [⟨9, 1⟩]⟩),
   (11, ⟨11, 1, 1, [⟨10, 1⟩]⟩)]

/-- A pipeline state whose book carries `tenLevelBids`. -/
def tenLevelState : PipeState :=
  ⟨⟨tenLevelBids, [], [], 0, TradeState.NORMAL, Char.ofNat 0, Char.ofNat 0, 0, 0, false⟩,
   [], []⟩

theorem claim5_row_iff_top10_changed_witness :
    tenBetter bidLt tenLevelBids 5 ∧
    (((pipeStep [⟨'A', 'B', 5, 50, 11, 11⟩] 0 tenLevelState).rows =
      if captureTop10State (pipeStep [⟨'A', 'B', 5, 50, 11, 11⟩] 0 tenLevelState).book =
        captureTop10State tenLevelState.book
      then tenLevelState.rows else tenLevelState.rows ++ [rowOf ⟨'A', 'B', 5, 50, 11, 11⟩]) ∧
     (pipeStep [⟨'A', 'B', 5, 50, 11, 11⟩] 0 tenLevelState).rows = tenLevelState.rows) :=
  ⟨by decide,
   (claim5_row_iff_top10_changed [⟨'A', 'B', 5, 50, 11, 11⟩] 0 tenLevelState
      ⟨'A', 'B', 5, 50, 11, 11⟩ (by decide) (Or.inl (by decide)) (by decide)).imp id
     (fun h2 => h2 (by decide) (Or.inl (by decide)))⟩

end OrderBookModel

namespace OrderBookModel

theorem wrap64_toNat (i : Int) (h0 : 0 ≤ i) (h : i < 2 ^ 64) : wrap64 i = i.toNat := by
  unfold wrap64
  rw [Int.emod_eq_of_lt h0 h]

theorem wrap64_sub (a b : Nat) (hle : b ≤ a) (hlt : a < 2 ^ 64) :
    wrap64 ((a : Int) - (b : Int)) = a - b := by
  unfold wrap64
  omega

theorem wrap64_add_zero (a : Nat) (hlt : a < 2 ^ 64) : wrap64 ((a : Int) + 0) = a := by
  unfold wrap64
  omega

theorem wrap32_sub (a b : Nat) (hle : b ≤ a) (hlt : a < 2 ^ 32) :
    wrap32 ((a : Int) - (b : Int)) = a - b := by
  unfold wrap32
  omega

theorem wrap32_add_zero (a : Nat) (hlt : a < 2 ^ 32) : wrap32 ((a : Int) + 0) = a := by
  unfold wrap32
  omega

theorem centered64_small (n : Nat) (h : n < 2 ^ 63) : centered64 n = (n : Int) := by
  unfold centered64
  rw [if_pos h]

theorem mapFind_not_mem (m : LevelMap) (k : Int) (h : k ∉ m.map Prod.fst) :
    mapFind m k = none := by
  induction m with
  | nil => rfl
  | cons hd tl ih =>
    unfold mapFind
    rw [if_neg (fun hh => h (by simp [hh]))]
    exact ih (fun hh => h (by simp [hh]))

theorem mapFind_mapErase_self (m : LevelMap) (k : Int)
    (h : (m.map Prod.fst).Nodup) : mapFind (mapErase m k) k = none := by
  induction m with
  | nil => rfl
  | cons hd tl ih =>
    simp only [List.map_cons, List.nodup_cons] at h
    unfold mapErase
    by_cases hk : k = hd.1
    · rw [if_pos hk]
      exact mapFind_not_mem tl k (fun hm => h.1 (hk ▸ hm))
    · rw [if_neg hk]
      unfold mapFind
      rw [if_neg hk]
      exact ih h.2

theorem mapFind_mapAdjust_self (m : LevelMap) (k : Int) (f : LevelData → LevelData)
    (v : LevelData) (h : mapFind m k = some v) :
    mapFind (mapAdjust m k f) k = some (f v) := by
  induction m with
  | nil => simp [mapFind] at h
  | cons hd tl ih =>
    unfold mapFind at h
    unfold mapAdjust
    by_cases hk : k = hd.1
    · rw [if_pos hk] at h
      rw [if_pos hk]
      unfold mapFind
      rw [if_pos hk]
      injection h with h
      rw [h]
    · rw [if_neg hk] at h
      rw [if_neg hk]
      unfold mapFind
      rw [if_neg hk]
      exact ih h

theorem mapFind_mapInsert_self (lt : Int → Int → Bool) (k : Int) (v : LevelData)
    (m : LevelMap) : mapFind (mapInsert lt k v m) k = some v := by
  induction m with
  | nil => simp [mapInsert, mapFind]
  | cons hd tl ih =>
    unfold mapInsert
    by_cases h1 : lt k hd.1 = true
    · rw [if_pos h1]
      unfold mapFind
      rw [if_pos rfl]
    · rw [if_neg h1]
      by_cases h2 : k = hd.1
      · rw [if_pos h2]
        unfold mapFind
        rw [if_pos rfl]
      · rw [if_neg h2]
        unfold mapFind
        rw [if_neg h2]
        exact ih

theorem mapErase_mapInsert_of_find_none (lt : Int → Int → Bool) (k : Int) (v : LevelData)
    (m : LevelMap) (h : mapFind m k = none) :
    mapErase (mapInsert lt k v m) k = m := by
  induction m with
  | nil => simp [mapInsert, mapErase]
  | cons hd tl ih =>
    unfold mapFind at h
    by_cases hk : k = hd.1
    · rw [if_pos hk] at h
      exact absurd h (by simp)
    · rw [if_neg hk] at h
      unfold mapInsert
      by_cases h1 : lt k hd.1 = true
      · rw [if_pos h1]
        unfold mapErase
        rw [if_pos rfl]
      · rw [if_neg h1, if_neg hk]
        unfold mapErase
        rw [if_neg hk]
        rw [ih h]

theorem filterMap_keep_of (q : List OrderEntry) (f : OrderEntry → Option OrderEntry)
    (h : ∀ x ∈ q, f x = some x) : q.filterMap f = q := by
  induction q with
  | nil => rfl
  | cons hd tl ih =>
    rw [List.filterMap_cons, h hd (by simp)]
    rw [ih (fun x hx => h x (by simp [hx]))]

theorem queueSum_append (q1 q2 : List OrderEntry) :
    queueSum (q1 ++ q2) = queueSum q1 + queueSum q2 := by
  unfold queueSum
  simp

theorem queueSum_cons (e : OrderEntry) (q : List OrderEntry) :
    queueSum (e :: q) = e.size + queueSum q := by
  unfold queueSum
  simp

end OrderBookModel

namespace OrderBookModel

theorem updateLevelMap_cancel_sub (lt : Int → Int → Bool) (m : LevelMap) (p : Int)
    (lv : LevelData) (eff : Nat) (hlv : mapFind m p = some lv)
    (heff : eff ≤ lv.total_size) (h64 : lv.total_size < 2 ^ 64) (h63 : eff < 2 ^ 63)
    (hc32 : lv.order_count < 2 ^ 32) (hc0 : lv.order_count ≠ 0)
    (hne : lv.total_size ≠ eff) :
    updateLevelMap lt m p (-(centered64 eff)) 0 0 =
      mapAdjust m p (fun _ => ⟨lv.price, lv.total_size - eff, lv.order_count,
        lv.order_queue⟩) := by
  unfold updateLevelMap
  rw [hlv]
  dsimp only
  rw [centered64_small eff h63]
  have ht : wrap64 ((lv.total_size : Int) + -(eff : Int)) = lv.total_size - eff := by
    unfold wrap64; omega
  have hc : wrap32 ((lv.order_count : Int) + 0) = lv.order_count := by
    unfold wrap32; omega
  rw [ht, hc]
  rw [if_neg (by push_neg; constructor <;> omega)]
  simp

theorem updateLevelMap_cancel_sub_all (lt : Int → Int → Bool) (m : LevelMap) (p : Int)
    (lv : LevelData) (eff : Nat) (hlv : mapFind m p = some lv)
    (_h64 : lv.total_size < 2 ^ 64) (h63 : eff < 2 ^ 63)
    (heq : lv.total_size = eff) :
    updateLevelMap lt m p (-(centered64 eff)) 0 0 = mapErase m p := by
  unfold updateLevelMap
  rw [hlv]
  dsimp only
  rw [centered64_small eff h63]
  have ht : wrap64 ((lv.total_size : Int) + -(eff : Int)) = 0 := by
    unfold wrap64; omega
  rw [ht]
  rw [if_pos (Or.inl rfl)]

theorem updateLevelMap_dec_count (lt : Int → Int → Bool) (m : LevelMap) (p : Int)
    (lv : LevelData) (hlv : mapFind m p = some lv)
    (h64 : lv.total_size < 2 ^ 64) (hc32 : lv.order_count < 2 ^ 32)
    (hc1 : 1 ≤ lv.order_count) :
    updateLevelMap lt m p 0 (-1) 0 =
      if lv.total_size = 0 ∨ lv.order_count - 1 = 0 then mapErase m p
      else mapAdjust m p (fun _ => ⟨lv.price, lv.total_size, lv.order_count - 1,
        lv.order_queue⟩) := by
  unfold updateLevelMap
  rw [hlv]
  dsimp only
  have ht : wrap64 ((lv.total_size : Int) + 0) = lv.total_size := by
    unfold wrap64; omega
  have hc : wrap32 ((lv.order_count : Int) + -1) = lv.order_count - 1 := by
    unfold wrap32; omega
  rw [ht, hc]
  by_cases hz : lv.total_size = 0 ∨ lv.order_count - 1 = 0
  · rw [if_pos hz, if_pos hz]
  · rw [if_neg hz, if_neg hz]
    simp

theorem ordersSetSize_keys (os : Orders) (id : Nat) (sz : Nat) :
    (ordersSetSize os id sz).map Prod.fst = os.map Prod.fst := by
  induction os with
  | nil => rfl
  | cons hd tl ih =>
    unfold ordersSetSize
    by_cases hk : id = hd.1
    · rw [if_pos hk]
      simp [hk]
    · rw [if_neg hk]
      simp [ih]

theorem ordersFind_not_mem (os : Orders) (id : Nat) (h : id ∉ os.map Prod.fst) :
    ordersFind os id = none := by
  induction os with
  | nil => rfl
  | cons hd tl ih =>
    unfold ordersFind
    rw [if_neg (fun hh => h (by simp [hh]))]
    exact ih (fun hh => h (by simp [hh]))

theorem ordersFind_erase_self (os : Orders) (id : Nat)
    (h : (os.map Prod.fst).Nodup) : ordersFind (ordersErase os id) id = none := by
  induction os with
  | nil => rfl
  | cons hd tl ih =>
    simp only [List.map_cons, List.nodup_cons] at h
    unfold ordersErase
    by_cases hk : id = hd.1
    · rw [if_pos hk]
      exact ordersFind_not_mem tl id (fun hm => h.1 (hk ▸ hm))
    · rw [if_neg hk]
      unfold ordersFind
      rw [if_neg hk]
      exact ih h.2

theorem ordersFind_setSize_self (os : Orders) (id : Nat) (sz : Nat) (od : OrderData)
    (h : ordersFind os id = some od) :
    ordersFind (ordersSetSize os id sz) id = some ⟨od.price, sz, od.side⟩ := by
  induction os with
  | nil => simp [ordersFind] at h
  | cons hd tl ih =>
    unfold ordersFind at h
    unfold ordersSetSize
    by_cases hk : id = hd.1
    · rw [if_pos hk] at h
      rw [if_pos hk]
      unfold ordersFind
      rw [if_pos rfl]
      injection h with h
      rw [h]
    · rw [if_neg hk] at h
      rw [if_neg hk]
      unfold ordersFind
      rw [if_neg hk]
      exact ih h

end OrderBookModel

namespace OrderBookModel

theorem updateOrderInQueue_split (lv : LevelData) (id eff odsize : Nat)
    (q1 q2 : List OrderEntry)
    (hsplit : lv.order_queue = q1 ++ ⟨id, odsize⟩ :: q2)
    (hq1 : ∀ x ∈ q1, x.order_id ≠ id) (hq2 : ∀ x ∈ q2, x.order_id ≠ id) :
    updateOrderInQueue lv id eff =
      ⟨lv.price, lv.total_size, lv.order_count,
       q1 ++ (if eff < odsize then [⟨id, odsize - eff⟩] else []) ++ q2⟩ := by
  have hq : lv.order_queue.filterMap (fun e =>
      if e.order_id = id then
        if eff < e.size then some ⟨e.order_id, e.size - eff⟩ else none
      else some e) = q1 ++ (if eff < odsize then [⟨id, odsize - eff⟩] else []) ++ q2 := by
    rw [hsplit, List.filterMap_append, List.filterMap_cons]
    rw [filterMap_keep_of q1 _ (fun x hx => by rw [if_neg (hq1 x hx)])]
    rw [filterMap_keep_of q2 _ (fun x hx => by rw [if_neg (hq2 x hx)])]
    by_cases heo : eff < odsize
    · simp [heo]
    · simp [heo]
  unfold updateOrderInQueue
  rw [hq]

theorem updateLevelMap_dec_count_zero (lt : Int → Int → Bool) (m : LevelMap) (p : Int)
    (lv : LevelData) (hlv : mapFind m p = some lv) (h0 : lv.total_size = 0) :
    updateLevelMap lt m p 0 (-1) 0 = mapErase m p := by
  unfold updateLevelMap
  rw [hlv]
  dsimp only
  have ht : wrap64 ((lv.total_size : Int) + 0) = 0 := by
    unfold wrap64; omega
  rw [ht]
  rw [if_pos (Or.inl rfl)]

theorem cancel_map_spec (lt : Int → Int → Bool) (m : LevelMap) (p : Int)
    (id eff odsize : Nat) (lv : LevelData) (q1 q2 : List OrderEntry)
    (hlv : mapFind m p = some lv)
    (hnodup : (m.map Prod.fst).Nodup)
    (hsplit : lv.order_queue = q1 ++ ⟨id, odsize⟩ :: q2)
    (hq1 : ∀ x ∈ q1, x.order_id ≠ id) (hq2 : ∀ x ∈ q2, x.order_id ≠ id)
    (hsum : lv.total_size = queueSum lv.order_queue)
    (hcnt : lv.order_count = lv.order_queue.length)
    (hbound : lv.total_size < 2 ^ 63)
    (hcb : lv.order_queue.length < 2 ^ 32)
    (heff : eff ≤ odsize) :
    mapFind (if odsize - eff = 0
      then updateLevelMap lt (mapApplyDefault lt
        (updateLevelMap lt m p (-(centered64 eff)) 0 0) p
        (fun lv' => updateOrderInQueue lv' id eff)) p 0 (-1) 0
      else mapApplyDefault lt (updateLevelMap lt m p (-(centered64 eff)) 0 0) p
        (fun lv' => updateOrderInQueue lv' id eff)) p =
    (if lv.total_size = eff then none
     else some ⟨lv.price, lv.total_size - eff,
       lv.order_count - (if eff = odsize then 1 else 0),
       q1 ++ (if eff < odsize then [⟨id, odsize - eff⟩] else []) ++ q2⟩) := by
  have hsumq : lv.total_size = queueSum q1 + odsize + queueSum q2 := by
    rw [hsum, hsplit, queueSum_append, queueSum_cons]
    dsimp only
    omega
  have hcntq : lv.order_count = q1.length + 1 + q2.length := by
    rw [hcnt, hsplit]
    simp
    omega
  have heff_le_total : eff ≤ lv.total_size := by omega
  have h63 : eff < 2 ^ 63 := by omega
  have h64 : lv.total_size < 2 ^ 64 := by omega
  have hc32 : lv.order_count < 2 ^ 32 := by
    rw [hcnt]
    omega
  by_cases hzero : lv.total_size = eff
  · -- the whole level is consumed: it is erased (with a transient default level)
    have hM1 : updateLevelMap lt m p (-(centered64 eff)) 0 0 = mapErase m p :=
      updateLevelMap_cancel_sub_all lt m p lv eff hlv h64 h63 hzero
    have hM1find : mapFind (mapErase m p) p = none := mapFind_mapErase_self m p hnodup
    rw [if_pos (by omega)]
    rw [hM1]
    have hM2 : mapApplyDefault lt (mapErase m p) p
        (fun lv' => updateOrderInQueue lv' id eff) =
        mapInsert lt p (updateOrderInQueue defaultLevel id eff) (mapErase m p) := by
      unfold mapApplyDefault
      rw [hM1find]
    rw [hM2]
    have hdef : updateOrderInQueue defaultLevel id eff = defaultLevel := rfl
    rw [hdef]
    have hfind3 : mapFind (mapInsert lt p defaultLevel (mapErase m p)) p =
        some defaultLevel := mapFind_mapInsert_self lt p defaultLevel (mapErase m p)
    rw [updateLevelMap_dec_count_zero lt _ p defaultLevel hfind3 rfl]
    rw [mapErase_mapInsert_of_find_none lt p _ _ hM1find]
    rw [if_pos hzero]
    exact hM1find
  · -- the level survives with its aggregate reduced by `eff`
    have hc0 : lv.order_count ≠ 0 := by
      rw [hcntq]
      omega
    have hM1 : updateLevelMap lt m p (-(centered64 eff)) 0 0 =
        mapAdjust m p (fun _ => ⟨lv.price, lv.total_size - eff, lv.order_count,
          lv.order_queue⟩) :=
      updateLevelMap_cancel_sub lt m p lv eff hlv heff_le_total h64 h63 hc32 hc0 hzero
    have hM1find : mapFind (mapAdjust m p (fun _ => (⟨lv.price, lv.total_size - eff,
        lv.order_count, lv.order_queue⟩ : LevelData))) p =
        some ⟨lv.price, lv.total_size - eff, lv.order_count, lv.order_queue⟩ :=
      mapFind_mapAdjust_self m p _ lv hlv
    have hupd := updateOrderInQueue_split ⟨lv.price, lv.total_size - eff, lv.order_count,
        lv.order_queue⟩ id eff odsize q1 q2 hsplit hq1 hq2
    have hM2 : mapApplyDefault lt (mapAdjust m p (fun _ => (⟨lv.price,
        lv.total_size - eff, lv.order_count, lv.order_queue⟩ : LevelData))) p
        (fun lv' => updateOrderInQueue lv' id eff) =
        mapAdjust (mapAdjust m p (fun _ => (⟨lv.price, lv.total_size - eff,
          lv.order_count, lv.order_queue⟩ : LevelData))) p
          (fun lv' => updateOrderInQueue lv' id eff) := by
      unfold mapApplyDefault
      rw [hM1find]
    have hM2find : mapFind (mapAdjust (mapAdjust m p (fun _ => (⟨lv.price,
        lv.total_size - eff, lv.order_count, lv.order_queue⟩ : LevelData))) p
          (fun lv' => updateOrderInQueue lv' id eff)) p =
        some ⟨lv.price, lv.total_size - eff, lv.order_count,
          q1 ++ (if eff < odsize then [⟨id, odsize - eff⟩] else []) ++ q2⟩ := by
      rw [mapFind_mapAdjust_self _ p _ _ hM1find, hupd]
    by_cases hfull : odsize - eff = 0
    · -- full cancel of the order: the count is decremented afterwards
      have hodeq : eff = odsize := by omega
      have hcm1 : lv.order_count - 1 ≠ 0 := by
        intro hcm
        have hq1n : q1.length = 0 := by omega
        have hq2n : q2.length = 0 := by omega
        rw [List.length_eq_zero.mp hq1n, List.length_eq_zero.mp hq2n] at hsumq
        simp [queueSum] at hsumq
        omega
      rw [if_pos hfull, hM1, hM2]
      have hdec := updateLevelMap_dec_count lt _ p _ hM2find
        (show lv.total_size - eff < 2 ^ 64 by omega)
        (show lv.order_count < 2 ^ 32 from hc32)
        (show 1 ≤ lv.order_count by omega)
      rw [hdec]
      rw [if_neg (show ¬((⟨lv.price, lv.total_size - eff, lv.order_count,
          q1 ++ (if eff < odsize then [⟨id, odsize - eff⟩] else []) ++ q2⟩ :
          LevelData).total_size = 0 ∨ (⟨lv.price, lv.total_size - eff, lv.order_count,
          q1 ++ (if eff < odsize then [⟨id, odsize - eff⟩] else []) ++ q2⟩ :
          LevelData).order_count - 1 = 0) from by
        dsimp only
        push_neg
        exact ⟨by omega, hcm1⟩)]
      rw [mapFind_mapAdjust_self _ p _ _ hM2find]
      rw [if_neg hzero]
      rw [if_neg (show ¬ eff < odsize by omega), if_pos hodeq]
    · -- partial cancel: nothing else happens
      have hodlt : eff < odsize := by omega
      rw [if_neg hfull, hM1, hM2, hM2find]
      rw [if_neg hzero]
      rw [if_pos hodlt, if_neg (show ¬ eff = odsize by omega)]
      simp only [Nat.sub_zero]

end OrderBookModel

namespace OrderBookModel

theorem charBB : (('B' : Char) = 'B') = True := by simp

theorem charBA : (('B' : Char) = 'A') = False := by simp

theorem charAB : (('A' : Char) = 'B') = False := by simp

theorem charAA : (('A' : Char) = 'A') = True := by simp

theorem cancelOrder_spec (b : OrderBook) (id cs eff : Nat) (od : OrderData)
    (lv : LevelData) (q1 q2 : List OrderEntry)
    (heffdef : (if cs = 0 then od.size else min cs od.size) = eff)
    (hod : ordersFind b.orders id = some od)
    (hside : od.side = 'B' ∨ od.side = 'A')
    (hlv : mapFind (sideLevels b od.side) od.price = some lv)
    (hnodup : ((sideLevels b od.side).map Prod.fst).Nodup)
    (hsplit : lv.order_queue = q1 ++ ⟨id, od.size⟩ :: q2)
    (hq1 : ∀ x ∈ q1, x.order_id ≠ id) (hq2 : ∀ x ∈ q2, x.order_id ≠ id)
    (hsum : lv.total_size = queueSum lv.order_queue)
    (hcnt : lv.order_count = lv.order_queue.length)
    (hbound : lv.total_size < 2 ^ 63)
    (hcb : lv.order_queue.length < 2 ^ 32)
    (honodup : (b.orders.map Prod.fst).Nodup) :
    mapFind (sideLevels (cancelOrder b id cs) od.side) od.price =
      (if lv.total_size = eff then none
       else some ⟨lv.price, lv.total_size - eff,
         lv.order_count - (if eff = od.size then 1 else 0),
         q1 ++ (if eff < od.size then [⟨id, od.size - eff⟩] else []) ++ q2⟩) ∧
    ordersFind (cancelOrder b id cs).orders id =
      (if eff = od.size then none
       else some ⟨od.price, od.size - eff, od.side⟩) := by
  have heff_le : eff ≤ od.size := by
    rw [← heffdef]
    by_cases hcs : cs = 0 <;> simp [hcs]
  unfold cancelOrder
  rw [hod]
  dsimp only
  rw [heffdef]
  rcases hside with hB | hA
  · simp only [sideLevels, hB, charBB, charBA, if_true, if_false] at hlv hnodup ⊢
    unfold updateBidLevel
    have hmap := cancel_map_spec bidLt b.bid_levels od.price id eff od.size lv q1 q2
      hlv hnodup hsplit hq1 hq2 hsum hcnt hbound hcb heff_le
    by_cases hfull : od.size - eff = 0
    · rw [if_pos hfull] at hmap
      rw [if_pos hfull]
      refine ⟨hmap, ?_⟩
      rw [if_pos (show eff = od.size by omega)]
      apply ordersFind_erase_self
      rw [ordersSetSize_keys]
      exact honodup
    · rw [if_neg hfull] at hmap
      rw [if_neg hfull]
      refine ⟨hmap, ?_⟩
      rw [if_neg (show ¬ eff = od.size by omega)]
      show ordersFind (ordersSetSize b.orders id (od.size - eff)) id =
        some ⟨od.price, od.size - eff, 'B'⟩
      rw [← hB]
      exact ordersFind_setSize_self b.orders id (od.size - eff) od hod
  · simp only [sideLevels, hA, charAB, charAA, if_true, if_false] at hlv hnodup ⊢
    unfold updateAskLevel
    have hmap := cancel_map_spec askLt b.ask_levels od.price id eff od.size lv q1 q2
      hlv hnodup hsplit hq1 hq2 hsum hcnt hbound hcb heff_le
    by_cases hfull : od.size - eff = 0
    · rw [if_pos hfull] at hmap
      rw [if_pos hfull]
      refine ⟨hmap, ?_⟩
      rw [if_pos (show eff = od.size by omega)]
      apply ordersFind_erase_self
      rw [ordersSetSize_keys]
      exact honodup
    · rw [if_neg hfull] at hmap
      rw [if_neg hfull]
      refine ⟨hmap, ?_⟩
      rw [if_neg (show ¬ eff = od.size by omega)]
      show ordersFind (ordersSetSize b.orders id (od.size - eff)) id =
        some ⟨od.price, od.size - eff, 'A'⟩
      rw [← hA]
      exact ordersFind_setSize_self b.orders id (od.size - eff) od hod

end OrderBookModel

namespace OrderBookModel

/-- The effective cancelled quantity: `actual_cancel_size` of
`OrderBook::cancelOrder` combined with the size dispatch of
`processCancelEvent` (`event.size` of zero requests a full cancel). -/
def effectiveCancel (eventSize odSize : Nat) : Nat :=
  if eventSize = 0 then odSize else min eventSize odSize

theorem cancelOrder_full_eq (b : OrderBook) (id : Nat) (od : OrderData)
    (hod : ordersFind b.orders id = some od) (hos : od.size ≠ 0) :
    cancelOrder b id od.size = cancelOrder b id 0 := by
  unfold cancelOrder
  rw [hod]
  dsimp only
  simp [hos]

/-- Claim C7 (confirmed): a Cancel whose order id is found in the index,
arriving outside a pending trade sequence, removes
`effective = min(event.size, order.size)` (or the whole order size when
`event.size` is zero) from the level's aggregate and from the order's queue
entry; the entry, the order record and the order count disappear exactly when
the effective quantity equals the order's remaining size; the level
disappears exactly when the aggregate reaches zero; and a partial cancel
whose size equals the order's remaining size yields the same state as a full
cancel. -/
theorem claim7_cancel_effective_quantity (b : OrderBook) (e : MboEvent)
    (od : OrderData) (lv : LevelData) (q1 q2 : List OrderEntry)
    (ha : e.action = 'C') (hid : e.order_id ≠ 0)
    (hnofsm : ¬(b.last_fill_was_trade = true ∧ b.trade_state = TradeState.EXPECTING_FILL))
    (hod : ordersFind b.orders e.order_id = some od)
    (hside : od.side = 'B' ∨ od.side = 'A')
    (hlv : mapFind (sideLevels b od.side) od.price = some lv)
    (hnodup : ((sideLevels b od.side).map Prod.fst).Nodup)
    (hsplit : lv.order_queue = q1 ++ ⟨e.order_id, od.size⟩ :: q2)
    (hq1 : ∀ x ∈ q1, x.order_id ≠ e.order_id)
    (hq2 : ∀ x ∈ q2, x.order_id ≠ e.order_id)
    (hsum : lv.total_size = queueSum lv.order_queue)
    (hcnt : lv.order_count = lv.order_queue.length)
    (hbound : lv.total_size < 2 ^ 63)
    (hcb : lv.order_queue.length < 2 ^ 32)
    (honodup : (b.orders.map Prod.fst).Nodup) :
    (processEvent b e).2 = ⟨true, 'C', od.side⟩ ∧
    mapFind (sideLevels (processEvent b e).1 od.side) od.price =
      (if lv.total_size = effectiveCancel e.size od.size then none
       else some ⟨lv.price, lv.total_size - effectiveCancel e.size od.size,
         lv.order_count - (if effectiveCancel e.size od.size = od.size then 1 else 0),
         q1 ++ (if effectiveCancel e.size od.size < od.size
                then [⟨e.order_id, od.size - effectiveCancel e.size od.size⟩]
                else []) ++ q2⟩) ∧
    ordersFind (processEvent b e).1.orders e.order_id =
      (if effectiveCancel e.size od.size = od.size then none
       else some ⟨od.price, od.size - effectiveCancel e.size od.size, od.side⟩) ∧
    (processEvent b { e with size := od.size }).1 =
      (processEvent b { e with size := 0 }).1 := by
  have hpe : ∀ sz : Nat, processEvent b { e with size := sz } =
      processCancelEvent { b with sequence_counter := b.sequence_counter + 1 }
        { e with size := sz } := by
    intro sz
    simp only [processEvent, ha]
  have hpe0 : processEvent b e =
      processCancelEvent { b with sequence_counter := b.sequence_counter + 1 } e := by
    simp only [processEvent, ha]
  have hnofsm0 : ¬(({ b with sequence_counter := b.sequence_counter + 1 } :
      OrderBook).last_fill_was_trade = true ∧
      ({ b with sequence_counter := b.sequence_counter + 1 } :
      OrderBook).trade_state = TradeState.EXPECTING_FILL) := hnofsm
  have hod0 : ordersFind ({ b with sequence_counter := b.sequence_counter + 1 } :
      OrderBook).orders e.order_id = some od := hod
  refine ⟨?_, ?_, ?_, ?_⟩
  · rw [hpe0]
    unfold processCancelEvent
    rw [if_neg hid, if_neg hnofsm0, hod0]
  · rw [hpe0]
    unfold processCancelEvent
    rw [if_neg hid, if_neg hnofsm0, hod0]
    dsimp only
    by_cases hz : e.size = 0
    · rw [if_pos hz]
      exact (cancelOrder_spec _ e.order_id 0 (effectiveCancel e.size od.size) od lv q1 q2
        (by simp [effectiveCancel, hz]) hod0 hside hlv hnodup hsplit hq1 hq2
        hsum hcnt hbound hcb honodup).1
    · rw [if_neg hz]
      exact (cancelOrder_spec _ e.order_id e.size (effectiveCancel e.size od.size) od lv q1 q2
        (by simp [effectiveCancel, hz]) hod0 hside hlv hnodup hsplit hq1 hq2
        hsum hcnt hbound hcb honodup).1
  · rw [hpe0]
    unfold processCancelEvent
    rw [if_neg hid, if_neg hnofsm0, hod0]
    dsimp only
    by_cases hz : e.size = 0
    · rw [if_pos hz]
      exact (cancelOrder_spec _ e.order_id 0 (effectiveCancel e.size od.size) od lv q1 q2
        (by simp [effectiveCancel, hz]) hod0 hside hlv hnodup hsplit hq1 hq2
        hsum hcnt hbound hcb honodup).2
    · rw [if_neg hz]
      exact (cancelOrder_spec _ e.order_id e.size (effectiveCancel e.size od.size) od lv q1 q2
        (by simp [effectiveCancel, hz]) hod0 hside hlv hnodup hsplit hq1 hq2
        hsum hcnt hbound hcb honodup).2
  · rw [hpe od.size, hpe 0]
    unfold processCancelEvent
    dsimp only
    rw [if_neg hid, if_neg hid, if_neg hnofsm, if_neg hnofsm, hod]
    dsimp only
    by_cases hos : od.size = 0
    · rw [if_pos hos, if_pos rfl]
    · rw [if_neg hos, if_pos rfl]
      rw [cancelOrder_full_eq _ e.order_id od hod0 hos]

end OrderBookModel

namespace OrderBookModel

/-- A small concrete book (two resting bid orders at one level) used to
exercise the cancel path. -/
def cancelDemoBook : OrderBook :=
  processEvents emptyBook [⟨'A', 'B', 10, 100, 1, 1⟩, ⟨'A', 'B', 10, 40, 2, 2⟩]

theorem claim7_cancel_effective_quantity_witness :
    ordersFind cancelDemoBook.orders 1 = some ⟨10, 100, 'B'⟩ ∧
    ((processEvent cancelDemoBook ⟨'C', 'B', 10, 30, 1, 3⟩).2 = ⟨true, 'C', 'B'⟩ ∧
     mapFind (sideLevels (processEvent cancelDemoBook ⟨'C', 'B', 10, 30, 1, 3⟩).1 'B') 10 =
       (if (140 : Nat) = effectiveCancel 30 100 then none
        else some ⟨10, 140 - effectiveCancel 30 100,
          2 - (if effectiveCancel 30 100 = 100 then 1 else 0),
          [] ++ (if effectiveCancel 30 100 < 100
                 then [⟨1, 100 - effectiveCancel 30 100⟩] else []) ++ [⟨2, 40⟩]⟩) ∧
     ordersFind (processEvent cancelDemoBook ⟨'C', 'B', 10, 30, 1, 3⟩).1.orders 1 =
       (if effectiveCancel 30 100 = 100 then none
        else some ⟨10, 100 - effectiveCancel 30 100, 'B'⟩) ∧
     (processEvent cancelDemoBook ⟨'C', 'B', 10, 100, 1, 3⟩).1 =
       (processEvent cancelDemoBook ⟨'C', 'B', 10, 0, 1, 3⟩).1) :=
  ⟨by decide,
   claim7_cancel_effective_quantity cancelDemoBook ⟨'C', 'B', 10, 30, 1, 3⟩
     ⟨10, 100, 'B'⟩ ⟨10, 140, 2, [⟨1, 100⟩, ⟨2, 40⟩]⟩ [] [⟨2, 40⟩]
     (by decide) (by decide) (by decide) (by decide) (Or.inl (by decide)) (by decide)
     (by decide) (by decide) (by decide) (by decide) (by decide) (by decide)
     (by decide) (by decide) (by decide)⟩

end OrderBookModel

namespace OrderBookModel

theorem fifoDepleteSpec_length_le (q : List OrderEntry) (Q : Nat) :
    (fifoDepleteSpec q Q).length ≤ q.length := by
  induction q generalizing Q with
  | nil =>
    cases Q with
    | zero => exact Nat.le_refl _
    | succ n => exact Nat.le_refl _
  | cons e rest ih =>
    cases Q with
    | zero => exact Nat.le_refl _
    | succ n =>
      simp only [fifoDepleteSpec]
      by_cases hle : e.size ≤ n + 1
      · rw [if_pos hle]
        exact Nat.le_succ_of_le (ih (n + 1 - e.size))
      · rw [if_neg hle]
        simp

theorem fillLoop_spec (q : List OrderEntry) (os : Orders) (total count Q : Nat)
    (hsum : total = queueSum q)
    (hpos : ∀ x ∈ q, 0 < x.size)
    (h64 : total < 2 ^ 64)
    (hcnt : count = q.length) (hc32 : count < 2 ^ 32) :
    fillLoop os q total count Q =
      (fifoDepleteSpec q (min Q total), total - min Q total,
       count - (q.length - (fifoDepleteSpec q (min Q total)).length),
       fifoOrdersSpec q (min Q total) os) := by
  induction q generalizing os total count Q with
  | nil =>
    have h0 : total = 0 := by simpa [queueSum] using hsum
    subst h0
    cases Q <;> simp [fillLoop, fifoDepleteSpec, fifoOrdersSpec]
  | cons e rest ih =>
    rw [queueSum_cons] at hsum
    have hes : 0 < e.size := hpos e (by simp)
    have hetot : e.size ≤ total := by omega
    cases Q with
    | zero =>
      simp [fillLoop, fifoDepleteSpec, fifoOrdersSpec]
    | succ n =>
      unfold fillLoop
      rw [if_neg (Nat.succ_ne_zero n)]
      by_cases hle : e.size ≤ n + 1
      · rw [if_pos hle]
        have hw64 : wrap64 ((total : Int) - (e.size : Int)) = total - e.size :=
          wrap64_sub total e.size hetot h64
        have hcpos : 1 ≤ count := by
          rw [hcnt]
          simp only [List.length_cons]
          omega
        have hw32 : wrap32 ((count : Int) - 1) = count - 1 := by
          unfold wrap32
          omega
        rw [hw64, hw32]
        have hsum' : total - e.size = queueSum rest := by omega
        have h64' : total - e.size < 2 ^ 64 := by omega
        have hcnt' : count - 1 = rest.length := by
          simp only [hcnt, List.length_cons]
          omega
        have hc32' : count - 1 < 2 ^ 32 := by omega
        rw [ih (ordersErase os e.order_id) (total - e.size) (count - 1) (n + 1 - e.size)
          hsum' (fun x hx => hpos x (by simp [hx])) h64' hcnt' hc32']
        have hminpos : e.size ≤ min (n + 1) total := Nat.le_min.mpr ⟨hle, hetot⟩
        have hmin : min (n + 1) total - e.size = min (n + 1 - e.size) (total - e.size) := by
          rcases Nat.le_total (n + 1) total with h | h
          · rw [Nat.min_eq_left h, Nat.min_eq_left (by omega)]
          · rw [Nat.min_eq_right h, Nat.min_eq_right (by omega)]
        have hM : min (n + 1) total ≠ 0 := by omega
        obtain ⟨m, hm⟩ := Nat.exists_eq_succ_of_ne_zero hM
        have hdep : fifoDepleteSpec (e :: rest) (min (n + 1) total) =
            fifoDepleteSpec rest (min (n + 1 - e.size) (total - e.size)) := by
          rw [hm]
          simp only [fifoDepleteSpec]
          rw [if_pos (by omega)]
          congr 1
          omega
        have hords : fifoOrdersSpec (e :: rest) (min (n + 1) total) os =
            fifoOrdersSpec rest (min (n + 1 - e.size) (total - e.size))
              (ordersErase os e.order_id) := by
          rw [hm]
          simp only [fifoOrdersSpec]
          rw [if_pos (by omega)]
          congr 1
          omega
        rw [hdep, hords]
        have hL : (fifoDepleteSpec rest (min (n + 1 - e.size) (total - e.size))).length ≤
            rest.length := fifoDepleteSpec_length_le rest _
        have hclen : count = rest.length + 1 := by simp [hcnt]
        refine congrArg₂ Prod.mk rfl (congrArg₂ Prod.mk ?_ (congrArg₂ Prod.mk ?_ rfl))
        · omega
        · simp only [List.length_cons]
          omega
      · rw [if_neg hle]
        have hQlt : n + 1 < e.size := by omega
        have hminQ : min (n + 1) total = n + 1 := by omega
        have hw64 : wrap64 ((total : Int) - ((n + 1 : Nat) : Int)) = total - (n + 1) := by
          unfold wrap64
          omega
        rw [hw64, hminQ]
        have hdep : fifoDepleteSpec (e :: rest) (n + 1) =
            ⟨e.order_id, e.size - (n + 1)⟩ :: rest := by
          simp only [fifoDepleteSpec]
          rw [if_neg hle]
        have hords : fifoOrdersSpec (e :: rest) (n + 1) os =
            ordersSetSize os e.order_id (e.size - (n + 1)) := by
          simp only [fifoOrdersSpec]
          rw [if_neg hle]
        rw [hdep, hords]
        refine congrArg₂ Prod.mk rfl (congrArg₂ Prod.mk rfl (congrArg₂ Prod.mk ?_ rfl))
        simp only [List.length_cons]
        omega

end OrderBookModel

namespace OrderBookModel

theorem mapAdjust_keys (m : LevelMap) (k : Int) (f : LevelData → LevelData) :
    (mapAdjust m k f).map Prod.fst = m.map Prod.fst := by
  induction m with
  | nil => rfl
  | cons hd tl ih =>
    unfold mapAdjust
    by_cases hk : k = hd.1
    · rw [if_pos hk]
      simp
    · rw [if_neg hk]
      simp [ih]

theorem fillAtLevelMap_spec (m : LevelMap) (os : Orders) (p : Int) (Q : Nat)
    (lv : LevelData)
    (hlv : mapFind m p = some lv)
    (hnodup : (m.map Prod.fst).Nodup)
    (hsum : lv.total_size = queueSum lv.order_queue)
    (hpos : ∀ x ∈ lv.order_queue, 0 < x.size)
    (h64 : lv.total_size < 2 ^ 64)
    (hcnt : lv.order_count = lv.order_queue.length)
    (hc32 : lv.order_count < 2 ^ 32)
    (hQ : Q ≤ lv.total_size) :
    mapFind (fillAtLevelMap m os p Q).1 p =
      (if Q = lv.total_size then none
       else some ⟨lv.price, lv.total_size - Q,
         lv.order_count - (lv.order_queue.length -
           (fifoDepleteSpec lv.order_queue Q).length),
         fifoDepleteSpec lv.order_queue Q⟩) ∧
    (fillAtLevelMap m os p Q).2 = fifoOrdersSpec lv.order_queue Q os := by
  have hmin : min Q lv.total_size = Q := Nat.min_eq_left hQ
  have hfl := fillLoop_spec lv.order_queue os lv.total_size lv.order_count Q
    hsum hpos h64 hcnt hc32
  rw [hmin] at hfl
  unfold fillAtLevelMap
  rw [hlv]
  dsimp only
  unfold fillOrdersAtLevel
  rw [hfl]
  dsimp only
  by_cases hz : lv.total_size - Q = 0
  · rw [if_pos hz]
    have hQt : Q = lv.total_size := by omega
    rw [if_pos hQt]
    constructor
    · apply mapFind_mapErase_self
      rw [mapAdjust_keys]
      exact hnodup
    · rfl
  · rw [if_neg hz]
    have hQt : ¬ Q = lv.total_size := by omega
    rw [if_neg hQt]
    constructor
    · exact mapFind_mapAdjust_self m p _ lv hlv
    · rfl

end OrderBookModel

namespace OrderBookModel

theorem trade_step (b : OrderBook) (t : MboEvent) (hat : t.action = 'T')
    (hsn : ¬ t.side = 'N') :
    (processEvent b t).1 =
      { b with
          sequence_counter := b.sequence_counter + 1,
          trade_state := TradeState.EXPECTING_FILL,
          pending_trade_side := t.side,
          pending_trade_price := t.price,
          pending_trade_size := t.size } := by
  rw [show processEvent b t =
      processTradeEvent { b with sequence_counter := b.sequence_counter + 1 } t from by
    simp only [processEvent, hat]]
  unfold processTradeEvent
  rw [if_neg hsn]

theorem fill_step (b : OrderBook) (f : MboEvent) (haf : f.action = 'F')
    (hst : b.trade_state = TradeState.EXPECTING_FILL) :
    (processEvent b f).1 =
      { b with
          sequence_counter := b.sequence_counter + 1,
          last_fill_was_trade := true,
          pending_actual_trade_side := f.side } := by
  rw [show processEvent b f =
      processFillEvent { b with sequence_counter := b.sequence_counter + 1 } f from by
    simp only [processEvent, haf]]
  unfold processFillEvent
  dsimp only
  rw [if_pos hst]

end OrderBookModel

namespace OrderBookModel

theorem cancel_fsm_step (b : OrderBook) (c : MboEvent) (hac : c.action = 'C')
    (hz : ¬ c.order_id = 0) (hlf : b.last_fill_was_trade = true)
    (hst : b.trade_state = TradeState.EXPECTING_FILL) :
    processEvent b c =
      ({ processTradeFill { b with sequence_counter := b.sequence_counter + 1 }
           b.pending_trade_side b.pending_trade_price b.pending_trade_size with
          trade_state := TradeState.NORMAL,
          pending_trade_side := Char.ofNat 0,
          pending_actual_trade_side := Char.ofNat 0,
          pending_trade_price := 0,
          pending_trade_size := 0,
          last_fill_was_trade := false },
       ⟨true, 'T', b.pending_actual_trade_side⟩) := by
  rw [show processEvent b c =
      processCancelEvent { b with sequence_counter := b.sequence_counter + 1 } c from by
    simp only [processEvent, hac]]
  unfold processCancelEvent
  dsimp only
  rw [if_neg hz, if_pos (And.intro hlf hst)]

end OrderBookModel

namespace OrderBookModel

/-- Claim C1 (amended): for a recognised `T(S,P,Q) → F → C` triple (the `F`
matching the `T`'s price and size and the `C` naming the `F`'s order) whose
closing `C` carries a nonzero order identifier, if a well-formed level rests
at price `P` on the side opposite to `S` with aggregate size `A ≥ Q`, the
three pipeline steps deplete that level FIFO-fashion by exactly `Q` — head
entries covered by the remaining quantity disappear together with their order
records, a larger head entry is decremented, the aggregate becomes `A - Q`,
and the level is deleted exactly when that reaches zero — and exactly one
snapshot row is emitted for the whole triple, with action `T`, the `T` event's
sequence number, and the side reported by the `F` event. -/
theorem claim1_tfc_fifo_depletion
    (events : List MboEvent) (i : Nat) (st : PipeState) (t f c : MboEvent) (lv : LevelData)
    (ht : events.get? i = some t) (hf : events.get? (i + 1) = some f)
    (hc : events.get? (i + 2) = some c) (hm : tfcMatch t f c = true)
    (hside : t.side = 'B' ∨ t.side = 'A') (hcid : ¬ c.order_id = 0)
    (hlv : mapFind (sideLevels st.book (getOppositeSide t.side)) t.price = some lv)
    (hnodup : ((sideLevels st.book (getOppositeSide t.side)).map Prod.fst).Nodup)
    (hsum : lv.total_size = queueSum lv.order_queue)
    (hpos : ∀ x ∈ lv.order_queue, 0 < x.size)
    (h64 : lv.total_size < 2 ^ 64)
    (hcnt : lv.order_count = lv.order_queue.length)
    (hc32 : lv.order_count < 2 ^ 32)
    (hQ : t.size ≤ lv.total_size) :
    (pipeStep events (i + 2) (pipeStep events (i + 1) (pipeStep events i st))).rows =
      st.rows ++ [⟨t.sequence, 'T', f.side⟩] ∧
    mapFind (sideLevels (pipeStep events (i + 2) (pipeStep events (i + 1)
        (pipeStep events i st))).book (getOppositeSide t.side)) t.price =
      (if t.size = lv.total_size then none
       else some ⟨lv.price, lv.total_size - t.size,
         lv.order_count - (lv.order_queue.length -
           (fifoDepleteSpec lv.order_queue t.size).length),
         fifoDepleteSpec lv.order_queue t.size⟩) ∧
    (pipeStep events (i + 2) (pipeStep events (i + 1)
        (pipeStep events i st))).book.orders =
      fifoOrdersSpec lv.order_queue t.size st.book.orders := by
  obtain ⟨hat, haf, hac, _, _, _⟩ := tfcMatch_spec t f c hm
  have hsn : ¬ t.side = 'N' := by
    rcases hside with h | h <;> rw [h] <;> decide
  have htrip : tfcTriple events i = true := tfcTriple_of events i t f c ht hf hc hm
  have h1 : pipeStep events i st =
      ⟨(processEvent st.book t).1, st.failed, st.rows⟩ := by
    simp only [pipeStep, ht]
    rw [if_neg (fun h => by rw [hat] at h; exact absurd h.1 (by decide)),
      markedAt_of_base events i htrip]
    rw [if_pos rfl, if_pos (Or.inl hat)]
  have h2 : pipeStep events (i + 1) (pipeStep events i st) =
      ⟨(processEvent (processEvent st.book t).1 f).1, st.failed, st.rows⟩ := by
    rw [h1]
    simp only [pipeStep, hf]
    rw [if_neg (fun h => by rw [haf] at h; exact absurd h.1 (by decide)),
      markedAt_of_mid events i htrip]
    rw [if_pos rfl, if_pos (Or.inr haf)]
  rw [h2]
  simp only [pipeStep, hc]
  rw [if_neg (fun h => by rw [hac] at h; exact absurd h.1 (by decide)),
    markedAt_of_last events i htrip]
  rw [if_pos rfl,
    if_neg (show ¬(c.action = 'T' ∨ c.action = 'F') by rw [hac]; decide),
    if_pos hac]
  have hi : i + 2 - 2 = i := rfl
  rw [hi, ht]
  rw [trade_step st.book t hat hsn]
  rw [fill_step { st.book with
      sequence_counter := st.book.sequence_counter + 1,
      trade_state := TradeState.EXPECTING_FILL,
      pending_trade_side := t.side,
      pending_trade_price := t.price,
      pending_trade_size := t.size } f haf rfl]
  rw [cancel_fsm_step { st.book with
      sequence_counter := st.book.sequence_counter + 1 + 1,
      trade_state := TradeState.EXPECTING_FILL,
      pending_trade_side := t.side,
      pending_actual_trade_side := f.side,
      pending_trade_price := t.price,
      pending_trade_size := t.size,
      last_fill_was_trade := true } c hac hcid rfl rfl]
  dsimp only
  rcases hside with hB | hA
  · have hlv' : mapFind st.book.ask_levels t.price = some lv := by
      rw [hB] at hlv; exact hlv
    have hnodup' : (st.book.ask_levels.map Prod.fst).Nodup := by
      rw [hB] at hnodup; exact hnodup
    obtain ⟨hm1, hm2⟩ := fillAtLevelMap_spec st.book.ask_levels st.book.orders
      t.price t.size lv hlv' hnodup' hsum hpos h64 hcnt hc32 hQ
    rw [hB]
    have hgo : getOppositeSide 'B' = 'A' := by decide
    rw [hgo]
    unfold processTradeFill
    rw [hgo]
    rw [if_neg (show ¬ ('A' : Char) = 'B' by decide), if_pos rfl]
    unfold sideLevels
    rw [if_neg (show ¬ ('A' : Char) = 'B' by decide)]
    dsimp only
    exact ⟨rfl, hm1, hm2⟩
  · have hlv' : mapFind st.book.bid_levels t.price = some lv := by
      rw [hA] at hlv; exact hlv
    have hnodup' : (st.book.bid_levels.map Prod.fst).Nodup := by
      rw [hA] at hnodup; exact hnodup
    obtain ⟨hm1, hm2⟩ := fillAtLevelMap_spec st.book.bid_levels st.book.orders
      t.price t.size lv hlv' hnodup' hsum hpos h64 hcnt hc32 hQ
    rw [hA]
    have hgo : getOppositeSide 'A' = 'B' := by decide
    rw [hgo]
    unfold processTradeFill
    rw [hgo]
    rw [if_pos rfl]
    unfold sideLevels
    rw [if_pos rfl]
    dsimp only
    exact ⟨rfl, hm1, hm2⟩

end OrderBookModel

namespace OrderBookModel

/-- A concrete five-event input for exercising the recognised-triple fill:
two resting asks at price 100, then a recognised `T/F/C` buy trade of 40. -/
def claim1E : List MboEvent :=
  [⟨'A', 'A', 100, 30, 1, 1⟩, ⟨'A', 'A', 100, 50, 2, 2⟩,
   ⟨'T', 'B', 100, 40, 0, 3⟩, ⟨'F', 'A', 100, 40, 9, 4⟩, ⟨'C', 'A', 100, 40, 9, 5⟩]

/-- The pipeline state of `claim1E` just before its trade triple. -/
def claim1ST : PipeState := pipeStep claim1E 1 (pipeStep claim1E 0 initPipeState)

theorem claim1_tfc_fifo_depletion_witness :
    tfcMatch ⟨'T', 'B', 100, 40, 0, 3⟩ ⟨'F', 'A', 100, 40, 9, 4⟩ ⟨'C', 'A', 100, 40, 9, 5⟩ = true ∧
    ((pipeStep claim1E (2 + 2) (pipeStep claim1E (2 + 1) (pipeStep claim1E 2 claim1ST))).rows =
      claim1ST.rows ++ [⟨3, 'T', 'A'⟩] ∧
     mapFind (sideLevels (pipeStep claim1E (2 + 2) (pipeStep claim1E (2 + 1)
        (pipeStep claim1E 2 claim1ST))).book (getOppositeSide 'B')) 100 =
      some ⟨100, 40, 1, [⟨2, 40⟩]⟩ ∧
     (pipeStep claim1E (2 + 2) (pipeStep claim1E (2 + 1)
        (pipeStep claim1E 2 claim1ST))).book.orders =
      fifoOrdersSpec [⟨1, 30⟩, ⟨2, 50⟩] 40 claim1ST.book.orders) :=
  ⟨by decide,
   claim1_tfc_fifo_depletion claim1E 2 claim1ST ⟨'T', 'B', 100, 40, 0, 3⟩
     ⟨'F', 'A', 100, 40, 9, 4⟩ ⟨'C', 'A', 100, 40, 9, 5⟩ ⟨100, 80, 2, [⟨1, 30⟩, ⟨2, 50⟩]⟩
     (by decide) (by decide) (by decide) (by decide) (by decide) (by decide)
     (by decide) (by decide) (by decide) (by decide) (by decide) (by decide)
     (by decide) (by decide)⟩

end OrderBookModel

namespace OrderBookModel

/-- Mass of `A` (add) events in an input: the total size they would add to
the book.  The overflow-freedom hypothesis of the level invariants is stated
against this quantity. -/
def addMass (es : List MboEvent) : Nat :=
  (es.map (fun e => if e.action = 'A' then e.size else 0)).sum

/-- Total aggregate size resting in one side's level map. -/
def levelMass (m : LevelMap) : Nat := (m.map (fun pl => pl.2.total_size)).sum

/-- Total aggregate size resting in the whole book. -/
def massOf (b : OrderBook) : Nat := levelMass b.bid_levels + levelMass b.ask_levels

/-- Full well-formedness of one retained level keyed at `p` on side `s`:
the claimed aggregate/count/queue relations plus the correspondence of every
queue entry with its record in the per-order index. -/
def levelWF (os : Orders) (s : Char) (p : Int) (lv : LevelData) : Prop :=
  lv.total_size = queueSum lv.order_queue ∧
  lv.order_count = lv.order_queue.length ∧
  0 < lv.total_size ∧
  (lv.order_queue.map (fun e => e.order_id)).Nodup ∧
  ∀ e ∈ lv.order_queue, 0 < e.size ∧ e.order_id ≠ 0 ∧
    ordersFind os e.order_id = some ⟨p, e.size, s⟩

/-- Well-formedness of a whole side: distinct price keys and every retained
level well-formed. -/
def sideWF (os : Orders) (s : Char) (m : LevelMap) : Prop :=
  (m.map Prod.fst).Nodup ∧
  ∀ p lv, mapFind m p = some lv → levelWF os s p lv

/-- Well-formedness of the per-order index: distinct ids, no zero id, and
every sided record backed by a queue entry of the level it names. -/
def recordsWF (b : OrderBook) : Prop :=
  (b.orders.map Prod.fst).Nodup ∧
  ∀ id od, ordersFind b.orders id = some od → id ≠ 0 ∧
    ((od.side = 'B' ∨ od.side = 'A') →
      ∃ lv, mapFind (sideLevels b od.side) od.price = some lv ∧
        (⟨id, od.size⟩ : OrderEntry) ∈ lv.order_queue)

/-- The inductive invariant of the book. -/
def booksWF (b : OrderBook) : Prop :=
  sideWF b.orders 'B' b.bid_levels ∧ sideWF b.orders 'A' b.ask_levels ∧ recordsWF b

theorem mem_of_mapFind (m : LevelMap) (p : Int) (lv : LevelData)
    (h : mapFind m p = some lv) : (p, lv) ∈ m := by
  induction m with
  | nil => simp [mapFind] at h
  | cons hd tl ih =>
    unfold mapFind at h
    by_cases hk : p = hd.1
    · rw [if_pos hk] at h
      injection h with h
      rw [hk, ← h]
      exact List.mem_cons_self _ _
    · rw [if_neg hk] at h
      right
      exact ih h

theorem mapFind_none_not_mem (m : LevelMap) (k : Int)
    (h : mapFind m k = none) : k ∉ m.map Prod.fst := by
  induction m with
  | nil => simp
  | cons hd tl ih =>
    unfold mapFind at h
    by_cases hk : k = hd.1
    · rw [if_pos hk] at h
      exact absurd h (by simp)
    · rw [if_neg hk] at h
      simp only [List.map_cons, List.mem_cons]
      rintro (hh | hh)
      · exact hk hh
      · exact ih h hh

theorem mapInsert_perm (lt : Int → Int → Bool) (k : Int) (v : LevelData)
    (m : LevelMap) (h : mapFind m k = none) :
    List.Perm (mapInsert lt k v m) ((k, v) :: m) := by
  induction m with
  | nil => exact List.Perm.refl _
  | cons hd tl ih =>
    unfold mapFind at h
    by_cases hk : k = hd.1
    · rw [if_pos hk] at h
      exact absurd h (by simp)
    · rw [if_neg hk] at h
      unfold mapInsert
      by_cases h1 : lt k hd.1 = true
      · rw [if_pos h1]
      · rw [if_neg h1, if_neg hk]
        exact ((ih h).cons hd).trans (List.Perm.swap (k, v) hd tl)

theorem mapInsert_find_ne (lt : Int → Int → Bool) (k : Int) (v : LevelData)
    (m : LevelMap) (k' : Int) (h : k' ≠ k) :
    mapFind (mapInsert lt k v m) k' = mapFind m k' := by
  induction m with
  | nil => simp [mapInsert, mapFind, h]
  | cons hd tl ih =>
    unfold mapInsert
    by_cases h1 : lt k hd.1 = true
    · rw [if_pos h1]
      unfold mapFind
      rw [if_neg h]
      rfl
    · rw [if_neg h1]
      by_cases h2 : k = hd.1
      · rw [if_pos h2]
        unfold mapFind
        rw [if_neg h, if_neg (h2 ▸ h)]
      · rw [if_neg h2]
        unfold mapFind
        by_cases h3 : k' = hd.1
        · rw [if_pos h3, if_pos h3]
        · rw [if_neg h3, if_neg h3]
          exact ih

theorem mapErase_sublist (m : LevelMap) (k : Int) : (mapErase m k).Sublist m := by
  induction m with
  | nil => exact List.Sublist.refl _
  | cons hd tl ih =>
    unfold mapErase
    by_cases hk : k = hd.1
    · rw [if_pos hk]
      exact (List.Sublist.refl tl).cons hd
    · rw [if_neg hk]
      exact ih.cons₂ hd

theorem mapFind_cons (a : Int × LevelData) (tl : LevelMap) (k : Int) :
    mapFind (a :: tl) k = if k = a.1 then some a.2 else mapFind tl k := by
  cases a
  simp only [mapFind]

theorem mapErase_find_ne (m : LevelMap) (k k' : Int) (h : k' ≠ k) :
    mapFind (mapErase m k) k' = mapFind m k' := by
  induction m with
  | nil => rfl
  | cons hd tl ih =>
    unfold mapErase
    by_cases hk : k = hd.1
    · rw [if_pos hk, mapFind_cons]
      rw [if_neg (hk ▸ h)]
    · rw [if_neg hk]
      unfold mapFind
      by_cases h3 : k' = hd.1
      · rw [if_pos h3, if_pos h3]
      · rw [if_neg h3, if_neg h3]
        exact ih

theorem mapErase_perm (m : LevelMap) (k : Int) (lv : LevelData)
    (h : mapFind m k = some lv) : List.Perm m ((k, lv) :: mapErase m k) := by
  induction m with
  | nil => simp [mapFind] at h
  | cons hd tl ih =>
    unfold mapFind at h
    by_cases hk : k = hd.1
    · rw [if_pos hk] at h
      injection h with h
      unfold mapErase
      rw [if_pos hk]
      have : hd = (k, lv) := by
        rw [← h, hk]
      rw [this]
    · rw [if_neg hk] at h
      unfold mapErase
      rw [if_neg hk]
      exact ((ih h).cons hd).trans (List.Perm.swap (k, lv) hd (mapErase tl k))

theorem mapAdjust_perm (m : LevelMap) (k : Int) (f : LevelData → LevelData)
    (lv : LevelData) (h : mapFind m k = some lv) :
    List.Perm (mapAdjust m k f) ((k, f lv) :: mapErase m k) := by
  induction m with
  | nil => simp [mapFind] at h
  | cons hd tl ih =>
    unfold mapFind at h
    unfold mapAdjust mapErase
    by_cases hk : k = hd.1
    · rw [if_pos hk] at h
      injection h with h
      rw [if_pos hk, if_pos hk]
      have : (hd.1, f hd.2) = (k, f lv) := by
        rw [← h, hk]
      rw [this]
    · rw [if_neg hk] at h
      rw [if_neg hk, if_neg hk]
      exact ((ih h).cons hd).trans (List.Perm.swap (k, f lv) hd (mapErase tl k))

theorem mapAdjust_find_ne (m : LevelMap) (k : Int) (f : LevelData → LevelData)
    (k' : Int) (h : k' ≠ k) : mapFind (mapAdjust m k f) k' = mapFind m k' := by
  induction m with
  | nil => rfl
  | cons hd tl ih =>
    unfold mapAdjust
    by_cases hk : k = hd.1
    · rw [if_pos hk]
      unfold mapFind
      rw [if_neg (hk ▸ h), if_neg (hk ▸ h)]
    · rw [if_neg hk]
      unfold mapFind
      by_cases h3 : k' = hd.1
      · rw [if_pos h3, if_pos h3]
      · rw [if_neg h3, if_neg h3]
        exact ih

theorem levelMass_perm (m m' : LevelMap) (h : List.Perm m m') :
    levelMass m = levelMass m' := by
  unfold levelMass
  exact (h.map _).sum_eq

theorem levelMass_cons (kv : Int × LevelData) (m : LevelMap) :
    levelMass (kv :: m) = kv.2.total_size + levelMass m := by
  unfold levelMass
  simp

theorem level_le_levelMass (m : LevelMap) (p : Int) (lv : LevelData)
    (h : mapFind m p = some lv) : lv.total_size ≤ levelMass m := by
  have hmem := mem_of_mapFind m p lv h
  unfold levelMass
  exact List.single_le_sum (fun x _ => Nat.zero_le x) _
    (List.mem_map_of_mem _ hmem)

end OrderBookModel

namespace OrderBookModel

theorem ordersFind_cons (a : Nat × OrderData) (tl : Orders) (id : Nat) :
    ordersFind (a :: tl) id = if id = a.1 then some a.2 else ordersFind tl id := by
  cases a
  simp only [ordersFind]

theorem ordersFind_none_not_mem (os : Orders) (id : Nat)
    (h : ordersFind os id = none) : id ∉ os.map Prod.fst := by
  induction os with
  | nil => simp
  | cons hd tl ih =>
    rw [ordersFind_cons] at h
    by_cases hk : id = hd.1
    · rw [if_pos hk] at h
      exact absurd h (by simp)
    · rw [if_neg hk] at h
      simp only [List.map_cons, List.mem_cons]
      rintro (hh | hh)
      · exact hk hh
      · exact ih h hh

theorem ordersSet_find_self (os : Orders) (id : Nat) (od : OrderData) :
    ordersFind (ordersSet os id od) id = some od := by
  induction os with
  | nil => simp [ordersSet, ordersFind]
  | cons hd tl ih =>
    unfold ordersSet
    by_cases hk : id = hd.1
    · rw [if_pos hk, ordersFind_cons, if_pos rfl]
    · rw [if_neg hk, ordersFind_cons, if_neg hk]
      exact ih

theorem ordersSet_find_ne (os : Orders) (id : Nat) (od : OrderData) (id' : Nat)
    (h : id' ≠ id) : ordersFind (ordersSet os id od) id' = ordersFind os id' := by
  induction os with
  | nil => simp [ordersSet, ordersFind, h]
  | cons hd tl ih =>
    unfold ordersSet
    by_cases hk : id = hd.1
    · rw [if_pos hk, ordersFind_cons, ordersFind_cons]
      dsimp only
      rw [if_neg (hk ▸ h), if_neg (hk ▸ h)]
    · rw [if_neg hk, ordersFind_cons, ordersFind_cons]
      rw [ih]

theorem ordersSet_mem (os : Orders) (id : Nat) (od : OrderData)
    (x : Nat × OrderData) : x ∈ ordersSet os id od → x ∈ os ∨ x = (id, od) := by
  induction os with
  | nil => intro hx; simp [ordersSet] at hx; simp [hx]
  | cons hd tl ih =>
    intro hx
    unfold ordersSet at hx
    by_cases hk : id = hd.1
    · rw [if_pos hk, List.mem_cons] at hx
      rcases hx with hx | hx
      · right; exact hx
      · left; exact List.mem_cons_of_mem hd hx
    · rw [if_neg hk, List.mem_cons] at hx
      rcases hx with hx | hx
      · left; exact hx ▸ List.mem_cons_self hd tl
      · rcases ih hx with hh | hh
        · left; exact List.mem_cons_of_mem hd hh
        · right; exact hh

theorem ordersSet_keys_nodup (os : Orders) (id : Nat) (od : OrderData)
    (h : (os.map Prod.fst).Nodup) : ((ordersSet os id od).map Prod.fst).Nodup := by
  induction os with
  | nil => simp [ordersSet]
  | cons hd tl ih =>
    simp only [List.map_cons, List.nodup_cons] at h
    unfold ordersSet
    by_cases hk : id = hd.1
    · rw [if_pos hk]
      simp only [List.map_cons, List.nodup_cons]
      exact ⟨hk ▸ h.1, h.2⟩
    · rw [if_neg hk]
      simp only [List.map_cons, List.nodup_cons]
      refine ⟨?_, ih h.2⟩
      intro hmem
      rcases List.mem_map.mp hmem with ⟨x, hx, hx1⟩
      rcases ordersSet_mem tl id od x hx with hmem2 | heq
      · exact h.1 (hx1 ▸ List.mem_map_of_mem _ hmem2)
      · rw [heq] at hx1
        exact hk (by rw [← hx1])

theorem ordersErase_sublist (os : Orders) (id : Nat) :
    (ordersErase os id).Sublist os := by
  induction os with
  | nil => exact List.Sublist.refl _
  | cons hd tl ih =>
    unfold ordersErase
    by_cases hk : id = hd.1
    · rw [if_pos hk]
      exact (List.Sublist.refl tl).cons hd
    · rw [if_neg hk]
      exact ih.cons₂ hd

theorem ordersErase_find_ne (os : Orders) (id id' : Nat) (h : id' ≠ id) :
    ordersFind (ordersErase os id) id' = ordersFind os id' := by
  induction os with
  | nil => rfl
  | cons hd tl ih =>
    unfold ordersErase
    by_cases hk : id = hd.1
    · rw [if_pos hk, ordersFind_cons, if_neg (hk ▸ h)]
    · rw [if_neg hk, ordersFind_cons, ordersFind_cons]
      rw [ih]

theorem ordersSetSize_find_ne (os : Orders) (id : Nat) (sz : Nat) (id' : Nat)
    (h : id' ≠ id) : ordersFind (ordersSetSize os id sz) id' = ordersFind os id' := by
  induction os with
  | nil => rfl
  | cons hd tl ih =>
    unfold ordersSetSize
    by_cases hk : id = hd.1
    · rw [if_pos hk, ordersFind_cons, ordersFind_cons]
      dsimp only
      rw [if_neg (hk ▸ h), if_neg (hk ▸ h)]
    · rw [if_neg hk, ordersFind_cons, ordersFind_cons]
      rw [ih]

theorem ordersSetSize_find_none (os : Orders) (id : Nat) (sz : Nat)
    (h : ordersFind os id = none) : ordersFind (ordersSetSize os id sz) id = none := by
  apply ordersFind_not_mem
  rw [ordersSetSize_keys]
  exact ordersFind_none_not_mem os id h

end OrderBookModel

namespace OrderBookModel

theorem fifoDepleteSpec_sum (q : List OrderEntry) (Q : Nat) :
    queueSum (fifoDepleteSpec q Q) + min Q (queueSum q) = queueSum q := by
  induction q generalizing Q with
  | nil =>
    cases Q <;> simp [fifoDepleteSpec, queueSum]
  | cons e rest ih =>
    cases Q with
    | zero => simp [fifoDepleteSpec]
    | succ n =>
      simp only [fifoDepleteSpec]
      by_cases hle : e.size ≤ n + 1
      · rw [if_pos hle]
        have := ih (n + 1 - e.size)
        rw [queueSum_cons]
        omega
      · rw [if_neg hle]
        rw [queueSum_cons, queueSum_cons]
        dsimp only
        omega

theorem fifoDepleteSpec_ids (q : List OrderEntry) (Q : Nat) :
    ∃ k, (fifoDepleteSpec q Q).map (fun e => e.order_id) =
      (q.map (fun e => e.order_id)).drop k := by
  induction q generalizing Q with
  | nil =>
    refine ⟨0, ?_⟩
    cases Q <;> simp [fifoDepleteSpec]
  | cons e rest ih =>
    cases Q with
    | zero => exact ⟨0, rfl⟩
    | succ n =>
      simp only [fifoDepleteSpec]
      by_cases hle : e.size ≤ n + 1
      · rw [if_pos hle]
        obtain ⟨k, hk⟩ := ih (n + 1 - e.size)
        exact ⟨k + 1, by simp [hk]⟩
      · rw [if_neg hle]
        exact ⟨0, rfl⟩

theorem fifoDepleteSpec_nodup (q : List OrderEntry) (Q : Nat)
    (h : (q.map (fun e => e.order_id)).Nodup) :
    ((fifoDepleteSpec q Q).map (fun e => e.order_id)).Nodup := by
  obtain ⟨k, hk⟩ := fifoDepleteSpec_ids q Q
  rw [hk]
  exact h.sublist (List.drop_sublist k _)

theorem fifoOrdersSpec_find_ne (q : List OrderEntry) (Q : Nat) (os : Orders)
    (id : Nat) (hid : id ∉ q.map (fun e => e.order_id)) :
    ordersFind (fifoOrdersSpec q Q os) id = ordersFind os id := by
  induction q generalizing Q os with
  | nil =>
    cases Q <;> rfl
  | cons e rest ih =>
    simp only [List.map_cons, List.mem_cons, not_or] at hid
    cases Q with
    | zero => rfl
    | succ n =>
      simp only [fifoOrdersSpec]
      by_cases hle : e.size ≤ n + 1
      · rw [if_pos hle]
        rw [ih _ _ hid.2]
        exact ordersErase_find_ne os e.order_id id hid.1
      · rw [if_neg hle]
        exact ordersSetSize_find_ne os e.order_id _ id hid.1

theorem fifoOrdersSpec_keys_nodup (q : List OrderEntry) (Q : Nat) (os : Orders)
    (h : (os.map Prod.fst).Nodup) :
    ((fifoOrdersSpec q Q os).map Prod.fst).Nodup := by
  induction q generalizing Q os with
  | nil =>
    cases Q <;> exact h
  | cons e rest ih =>
    cases Q with
    | zero => exact h
    | succ n =>
      simp only [fifoOrdersSpec]
      by_cases hle : e.size ≤ n + 1
      · rw [if_pos hle]
        exact ih _ _ (h.sublist ((ordersErase_sublist os e.order_id).map Prod.fst))
      · rw [if_neg hle]
        rw [ordersSetSize_keys]
        exact h

theorem fifoDepleteSpec_entries (q : List OrderEntry) (Q : Nat) (os : Orders)
    (p : Int) (s : Char)
    (hnd : (q.map (fun e => e.order_id)).Nodup)
    (hq : ∀ e ∈ q, 0 < e.size ∧ e.order_id ≠ 0 ∧
      ordersFind os e.order_id = some ⟨p, e.size, s⟩) :
    ∀ e ∈ fifoDepleteSpec q Q, 0 < e.size ∧ e.order_id ≠ 0 ∧
      ordersFind (fifoOrdersSpec q Q os) e.order_id = some ⟨p, e.size, s⟩ := by
  induction q generalizing Q os with
  | nil =>
    intro x hx
    cases Q <;> simp [fifoDepleteSpec] at hx
  | cons e rest ih =>
    simp only [List.map_cons, List.nodup_cons] at hnd
    cases Q with
    | zero =>
      intro x hx
      exact hq x hx
    | succ n =>
      simp only [fifoDepleteSpec, fifoOrdersSpec]
      by_cases hle : e.size ≤ n + 1
      · rw [if_pos hle, if_pos hle]
        apply ih _ _ hnd.2
        intro x hx
        obtain ⟨h1, h2, h3⟩ := hq x (List.mem_cons_of_mem e hx)
        refine ⟨h1, h2, ?_⟩
        rw [ordersErase_find_ne os e.order_id x.order_id
          (fun hh => hnd.1 (hh ▸ List.mem_map_of_mem _ hx))]
        exact h3
      · rw [if_neg hle, if_neg hle]
        intro x hx
        rw [List.mem_cons] at hx
        rcases hx with hx | hx
        · obtain ⟨h1, h2, h3⟩ := hq e (List.mem_cons_self e rest)
          subst hx
          refine ⟨by dsimp only; omega, h2, ?_⟩
          dsimp only
          have := ordersFind_setSize_self os e.order_id (e.size - (n + 1)) _ h3
          rw [this]
        · obtain ⟨h1, h2, h3⟩ := hq x (List.mem_cons_of_mem e hx)
          refine ⟨h1, h2, ?_⟩
          rw [ordersSetSize_find_ne os e.order_id _ x.order_id
            (fun hh => hnd.1 (hh ▸ List.mem_map_of_mem _ hx))]
          exact h3

theorem fifoOrdersSpec_find_inv (q : List OrderEntry) (Q : Nat) (os : Orders)
    (p : Int) (s : Char) (id : Nat) (od : OrderData)
    (hnd : (q.map (fun e => e.order_id)).Nodup)
    (hosnd : (os.map Prod.fst).Nodup)
    (hq : ∀ e ∈ q, ordersFind os e.order_id = some ⟨p, e.size, s⟩)
    (h : ordersFind (fifoOrdersSpec q Q os) id = some od) :
    (id ∉ q.map (fun e => e.order_id) ∧ ordersFind os id = some od) ∨
    ((⟨id, od.size⟩ : OrderEntry) ∈ fifoDepleteSpec q Q ∧ od.price = p ∧ od.side = s) := by
  induction q generalizing Q os with
  | nil =>
    left
    cases Q with
    | zero => exact ⟨by simp, h⟩
    | succ n => exact ⟨by simp, h⟩
  | cons e rest ih =>
    simp only [List.map_cons, List.nodup_cons] at hnd
    cases Q with
    | zero =>
      have h0 : ordersFind os id = some od := h
      by_cases hmem : id ∈ (e :: rest).map (fun x => x.order_id)
      · right
        rcases List.mem_map.mp hmem with ⟨x, hx, hxid⟩
        have hfx := hq x hx
        rw [hxid, h0] at hfx
        injection hfx with hfx
        have hodv : od = ⟨p, x.size, s⟩ := hfx
        refine ⟨?_, by rw [hodv], by rw [hodv]⟩
        have hex : (⟨id, od.size⟩ : OrderEntry) = x := by
          rw [hodv, ← hxid]
        rw [hex]
        exact hx
      · left
        exact ⟨hmem, h0⟩
    | succ n =>
      simp only [fifoOrdersSpec] at h
      simp only [fifoDepleteSpec]
      by_cases hle : e.size ≤ n + 1
      · rw [if_pos hle] at h
        rw [if_pos hle]
        have hq' : ∀ x ∈ rest, ordersFind (ordersErase os e.order_id) x.order_id =
            some ⟨p, x.size, s⟩ := by
          intro x hx
          rw [ordersErase_find_ne os e.order_id x.order_id
            (fun hh => hnd.1 (hh ▸ List.mem_map_of_mem _ hx))]
          exact hq x (List.mem_cons_of_mem e hx)
        have hosnd' : ((ordersErase os e.order_id).map Prod.fst).Nodup :=
          hosnd.sublist ((ordersErase_sublist os e.order_id).map Prod.fst)
        rcases ih _ _ hnd.2 hosnd' hq' h with ⟨hnm, hf⟩ | hr
        · by_cases hide : id = e.order_id
          · rw [hide, ordersFind_erase_self os e.order_id hosnd] at hf
            exact absurd hf (by simp)
          · left
            refine ⟨?_, ?_⟩
            · simp only [List.map_cons, List.mem_cons, not_or]
              exact ⟨hide, hnm⟩
            · rw [← ordersErase_find_ne os e.order_id id hide]
              exact hf
        · right
          exact hr
      · rw [if_neg hle] at h
        rw [if_neg hle]
        by_cases hide : id = e.order_id
        · right
          have hfe := hq e (List.mem_cons_self e rest)
          have hset := ordersFind_setSize_self os e.order_id (e.size - (n + 1)) _ hfe
          rw [hide] at h
          rw [h] at hset
          injection hset with hset
          have hodv : od = ⟨p, e.size - (n + 1), s⟩ := hset
          refine ⟨?_, by rw [hodv], by rw [hodv]⟩
          rw [hodv, hide]
          exact List.mem_cons_self _ _
        · rw [ordersSetSize_find_ne os e.order_id _ id hide] at h
          by_cases hmem : id ∈ rest.map (fun x => x.order_id)
          · right
            rcases List.mem_map.mp hmem with ⟨x, hx, hxid⟩
            have hfx := hq x (List.mem_cons_of_mem e hx)
            rw [hxid, h] at hfx
            injection hfx with hfx
            have hodv : od = ⟨p, x.size, s⟩ := hfx
            refine ⟨?_, by rw [hodv], by rw [hodv]⟩
            have hex : (⟨id, od.size⟩ : OrderEntry) = x := by
              rw [hodv, ← hxid]
            rw [hex]
            exact List.mem_cons_of_mem _ hx
          · left
            refine ⟨?_, h⟩
            simp only [List.map_cons, List.mem_cons, not_or]
            exact ⟨hide, hmem⟩

end OrderBookModel

namespace OrderBookModel

theorem levelMass_mapAdjust (m : LevelMap) (k : Int) (f : LevelData → LevelData)
    (lv : LevelData) (h : mapFind m k = some lv) :
    levelMass (mapAdjust m k f) + lv.total_size = levelMass m + (f lv).total_size := by
  rw [levelMass_perm _ _ (mapAdjust_perm m k f lv h),
    levelMass_perm _ _ (mapErase_perm m k lv h), levelMass_cons, levelMass_cons]
  dsimp only
  omega

theorem levelMass_mapErase (m : LevelMap) (k : Int) (lv : LevelData)
    (h : mapFind m k = some lv) :
    levelMass (mapErase m k) + lv.total_size = levelMass m := by
  rw [levelMass_perm _ _ (mapErase_perm m k lv h), levelMass_cons]
  dsimp only
  omega

theorem levelMass_mapInsert (lt : Int → Int → Bool) (k : Int) (v : LevelData)
    (m : LevelMap) (h : mapFind m k = none) :
    levelMass (mapInsert lt k v m) = v.total_size + levelMass m := by
  rw [levelMass_perm _ _ (mapInsert_perm lt k v m h), levelMass_cons]

theorem mapInsert_keys_nodup (lt : Int → Int → Bool) (k : Int) (v : LevelData)
    (m : LevelMap) (h : mapFind m k = none) (hnd : (m.map Prod.fst).Nodup) :
    ((mapInsert lt k v m).map Prod.fst).Nodup := by
  have hperm := (mapInsert_perm lt k v m h).map Prod.fst
  rw [hperm.nodup_iff]
  simp only [List.map_cons, List.nodup_cons]
  exact ⟨mapFind_none_not_mem m k h, hnd⟩

theorem mapAdjust_keys_nodup (m : LevelMap) (k : Int) (f : LevelData → LevelData)
    (hnd : (m.map Prod.fst).Nodup) : ((mapAdjust m k f).map Prod.fst).Nodup := by
  rw [mapAdjust_keys]
  exact hnd

theorem mapErase_keys_nodup (m : LevelMap) (k : Int)
    (hnd : (m.map Prod.fst).Nodup) : ((mapErase m k).map Prod.fst).Nodup :=
  hnd.sublist ((mapErase_sublist m k).map Prod.fst)

theorem queue_len_le_sum (q : List OrderEntry) (h : ∀ e ∈ q, 0 < e.size) :
    q.length ≤ queueSum q := by
  induction q with
  | nil => simp [queueSum]
  | cons e rest ih =>
    rw [queueSum_cons, List.length_cons]
    have h1 := h e (List.mem_cons_self e rest)
    have h2 := ih (fun x hx => h x (List.mem_cons_of_mem e hx))
    omega

theorem sideWF_orders_congr (os os' : Orders) (s : Char) (m : LevelMap)
    (hs : sideWF os s m)
    (hagree : ∀ id od, ordersFind os id = some od → ordersFind os' id = some od) :
    sideWF os' s m := by
  obtain ⟨hnd, hlv⟩ := hs
  refine ⟨hnd, fun p lv hf => ?_⟩
  obtain ⟨h1, h2, h3, h4, h5⟩ := hlv p lv hf
  exact ⟨h1, h2, h3, h4, fun e he =>
    ⟨(h5 e he).1, (h5 e he).2.1, hagree _ _ (h5 e he).2.2⟩⟩

theorem sideWF_entry_le_mass (os : Orders) (s : Char) (m : LevelMap)
    (hs : sideWF os s m) (p : Int) (lv : LevelData) (h : mapFind m p = some lv) :
    lv.order_count ≤ lv.total_size := by
  obtain ⟨h1, h2, _, _, h5⟩ := (hs.2 p lv h)
  rw [h1, h2]
  exact queue_len_le_sum _ (fun e he => (h5 e he).1)

end OrderBookModel

namespace OrderBookModel

theorem updateLevelMap_add_absent (lt : Int → Int → Bool) (m : LevelMap) (p : Int)
    (sz : Nat) (id : Nat) (hsz : 0 < sz) (h64 : sz < 2 ^ 64)
    (habs : mapFind m p = none) :
    updateLevelMap lt m p (sz : Int) 1 id =
      mapInsert lt p ⟨p, sz, 1, [⟨id, sz⟩]⟩ m := by
  unfold updateLevelMap
  rw [habs]
  dsimp only
  rw [if_pos (by exact_mod_cast hsz)]
  have hw : wrap64 (sz : Int) = sz := by
    unfold wrap64; omega
  have hw1 : wrap32 (1 : Int) = 1 := by
    unfold wrap32
    decide
  rw [hw, hw1]

theorem updateLevelMap_add_present (lt : Int → Int → Bool) (m : LevelMap) (p : Int)
    (sz : Nat) (id : Nat) (lv : LevelData) (hlv : mapFind m p = some lv)
    (hid : id ≠ 0)
    (h64 : lv.total_size + sz < 2 ^ 64) (hc32 : lv.order_count + 1 < 2 ^ 32)
    (hsz : 0 < sz) :
    updateLevelMap lt m p (sz : Int) 1 id =
      mapAdjust m p (fun _ => ⟨lv.price, lv.total_size + sz, lv.order_count + 1,
        lv.order_queue ++ [⟨id, sz⟩]⟩) := by
  unfold updateLevelMap
  rw [hlv]
  dsimp only
  have ht : wrap64 ((lv.total_size : Int) + (sz : Int)) = lv.total_size + sz := by
    unfold wrap64; omega
  have hc : wrap32 ((lv.order_count : Int) + 1) = lv.order_count + 1 := by
    unfold wrap32; omega
  have hw : wrap64 (sz : Int) = sz := by
    unfold wrap64; omega
  rw [ht, hc, hw]
  rw [if_pos (show (0 : Int) < 1 ∧ id ≠ 0 from ⟨by decide, hid⟩)]
  rw [if_neg (by push_neg; constructor <;> omega)]

end OrderBookModel

namespace OrderBookModel

theorem ordersSet_agree (os : Orders) (id : Nat) (nd : OrderData)
    (hfresh : ordersFind os id = none) :
    ∀ id0 od0, ordersFind os id0 = some od0 →
      ordersFind (ordersSet os id nd) id0 = some od0 := by
  intro id0 od0 h
  by_cases hi : id0 = id
  · rw [hi] at h
    rw [h] at hfresh
    exact absurd hfresh (by simp)
  · rw [ordersSet_find_ne os id nd id0 hi]
    exact h

theorem add_map_WF (lt : Int → Int → Bool) (m : LevelMap) (os : Orders)
    (p : Int) (sz : Nat) (id : Nat) (s : Char)
    (hs : sideWF os s m)
    (hid : id ≠ 0) (hsz : 0 < sz)
    (hfresh : ordersFind os id = none)
    (hbound : levelMass m + sz < 2 ^ 32) :
    sideWF (ordersSet os id ⟨p, sz, s⟩) s (updateLevelMap lt m p (sz : Int) 1 id) ∧
    (∀ k, k ≠ p → mapFind (updateLevelMap lt m p (sz : Int) 1 id) k = mapFind m k) ∧
    levelMass (updateLevelMap lt m p (sz : Int) 1 id) = levelMass m + sz ∧
    (∃ lv', mapFind (updateLevelMap lt m p (sz : Int) 1 id) p = some lv' ∧
      (⟨id, sz⟩ : OrderEntry) ∈ lv'.order_queue) ∧
    (∀ x lvx e, mapFind m x = some lvx → e ∈ lvx.order_queue →
      ∃ lvx', mapFind (updateLevelMap lt m p (sz : Int) 1 id) x = some lvx' ∧
        e ∈ lvx'.order_queue) := by
  have hagree := ordersSet_agree os id ⟨p, sz, s⟩ hfresh
  have h64 : sz < 2 ^ 64 := by omega
  cases hfind : mapFind m p with
  | none =>
    rw [updateLevelMap_add_absent lt m p sz id hsz h64 hfind]
    refine ⟨⟨?_, ?_⟩, ?_, ?_, ?_, ?_⟩
    · exact mapInsert_keys_nodup lt p _ m hfind hs.1
    · intro p' lv' hf
      by_cases hp : p' = p
      · rw [hp, mapFind_mapInsert_self] at hf
        injection hf with hf
        rw [← hf, hp]
        refine ⟨by simp [queueSum], by simp, hsz, by simp, ?_⟩
        intro e he
        simp only [List.mem_singleton] at he
        rw [he]
        exact ⟨hsz, hid, ordersSet_find_self os id _⟩
      · rw [mapInsert_find_ne lt p _ m p' hp] at hf
        obtain ⟨h1, h2, h3, h4, h5⟩ := hs.2 p' lv' hf
        exact ⟨h1, h2, h3, h4, fun e he =>
          ⟨(h5 e he).1, (h5 e he).2.1, hagree _ _ (h5 e he).2.2⟩⟩
    · intro k hk
      exact mapInsert_find_ne lt p _ m k hk
    · rw [levelMass_mapInsert lt p _ m hfind]
      dsimp only
      omega
    · exact ⟨_, mapFind_mapInsert_self lt p _ m, by simp⟩
    · intro x lvx e hx he
      by_cases hp : x = p
      · rw [hp, hfind] at hx
        exact absurd hx (by simp)
      · rw [← mapInsert_find_ne lt p (⟨p, sz, 1, [⟨id, sz⟩]⟩ : LevelData) m x hp] at hx
        exact ⟨lvx, hx, he⟩
  | some lv =>
    obtain ⟨hsum, hcnt, hpos, hqnd, hent⟩ := hs.2 p lv hfind
    have hlvm : lv.total_size ≤ levelMass m := level_le_levelMass m p lv hfind
    have hcle : lv.order_count ≤ lv.total_size := sideWF_entry_le_mass os s m hs p lv hfind
    have hidq : id ∉ lv.order_queue.map (fun e => e.order_id) := by
      intro hmem
      rcases List.mem_map.mp hmem with ⟨e, he, heid⟩
      have := (hent e he).2.2
      rw [heid, hfresh] at this
      exact absurd this (by simp)
    rw [updateLevelMap_add_present lt m p sz id lv hfind hid (by omega) (by omega) hsz]
    refine ⟨⟨?_, ?_⟩, ?_, ?_, ?_, ?_⟩
    · exact mapAdjust_keys_nodup m p _ hs.1
    · intro p' lv' hf
      by_cases hp : p' = p
      · rw [hp, mapFind_mapAdjust_self m p _ lv hfind] at hf
        injection hf with hf
        rw [← hf, hp]
        refine ⟨?_, ?_, ?_, ?_, ?_⟩
        · dsimp only
          rw [queueSum_append, queueSum_cons]
          simp [queueSum, hsum]
        · dsimp only
          simp
          omega
        · dsimp only
          omega
        · dsimp only
          rw [List.map_append, List.nodup_append]
          refine ⟨hqnd, by simp, ?_⟩
          intro a ha
          simp only [List.map_cons, List.map_nil, List.mem_singleton]
          intro hb
          exact hidq (hb ▸ ha)
        · intro e he
          dsimp only at he
          rw [List.mem_append] at he
          rcases he with he | he
          · exact ⟨(hent e he).1, (hent e he).2.1, hagree _ _ (hent e he).2.2⟩
          · simp only [List.mem_singleton] at he
            rw [he]
            exact ⟨hsz, hid, ordersSet_find_self os id _⟩
      · rw [mapAdjust_find_ne m p _ p' hp] at hf
        obtain ⟨h1, h2, h3, h4, h5⟩ := hs.2 p' lv' hf
        exact ⟨h1, h2, h3, h4, fun e he =>
          ⟨(h5 e he).1, (h5 e he).2.1, hagree _ _ (h5 e he).2.2⟩⟩
    · intro k hk
      exact mapAdjust_find_ne m p _ k hk
    · have := levelMass_mapAdjust m p (fun _ => ⟨lv.price, lv.total_size + sz,
        lv.order_count + 1, lv.order_queue ++ [⟨id, sz⟩]⟩) lv hfind
      dsimp only at this
      omega
    · refine ⟨_, mapFind_mapAdjust_self m p _ lv hfind, ?_⟩
      dsimp only
      simp
    · intro x lvx e hx he
      by_cases hp : x = p
      · subst hp
        rw [hfind] at hx
        injection hx with hx
        refine ⟨_, mapFind_mapAdjust_self m x _ lv hfind, ?_⟩
        dsimp only
        rw [List.mem_append]
        left
        rw [hx]
        exact he
      · rw [← mapAdjust_find_ne m p (fun _ => ⟨lv.price, lv.total_size + sz,
          lv.order_count + 1, lv.order_queue ++ [⟨id, sz⟩]⟩) x hp] at hx
        exact ⟨lvx, hx, he⟩

end OrderBookModel

namespace OrderBookModel

theorem addOrder_WF (b : OrderBook) (id : Nat) (p : Int) (sz : Nat) (side : Char)
    (hwf : booksWF b) (hid : id ≠ 0) (hsz : 0 < sz)
    (hfresh : ordersFind b.orders id = none)
    (hbound : massOf b + sz < 2 ^ 32) :
    booksWF (addOrder b id p sz side) ∧
    massOf (addOrder b id p sz side) ≤ massOf b + sz := by
  obtain ⟨hB, hA, hond, hrec⟩ := hwf
  have hc64 : centered64 sz = (sz : Int) := centered64_small sz (by unfold massOf at hbound; omega)
  have hagreeB := ordersSet_agree b.orders id ⟨p, sz, 'B'⟩ hfresh
  have hagreeA := ordersSet_agree b.orders id ⟨p, sz, 'A'⟩ hfresh
  unfold addOrder
  by_cases hsB : side = 'B'
  · subst hsB
    rw [if_pos rfl]
    unfold updateBidLevel
    dsimp only
    rw [hc64]
    obtain ⟨hsWF, hne, hmass, ⟨lvnew, hlvnew, hmemnew⟩, hpres⟩ :=
      add_map_WF bidLt b.bid_levels b.orders p sz id 'B' hB hid hsz hfresh
        (by unfold massOf at hbound; omega)
    refine ⟨⟨hsWF, ?_, ?_, ?_⟩, ?_⟩
    · exact sideWF_orders_congr b.orders _ 'A' b.ask_levels hA hagreeB
    · exact ordersSet_keys_nodup b.orders id _ hond
    · intro id0 od0 hf0
      by_cases hi : id0 = id
      · subst hi
        rw [ordersSet_find_self] at hf0
        injection hf0 with hf0
        rw [← hf0]
        refine ⟨hid, ?_⟩
        intro _
        refine ⟨lvnew, ?_, ?_⟩
        · exact hlvnew
        · exact hmemnew
      · rw [ordersSet_find_ne b.orders id _ id0 hi] at hf0
        obtain ⟨hz0, hlev0⟩ := hrec id0 od0 hf0
        refine ⟨hz0, ?_⟩
        intro hside0
        rcases hside0 with hs0 | hs0 <;> rw [hs0]
        · obtain ⟨lv0, hlv0, hm0⟩ := hlev0 (Or.inl hs0)
          rw [hs0] at hlv0
          obtain ⟨lv0', hlv0', hm0'⟩ :=
            hpres od0.price lv0 ⟨id0, od0.size⟩ hlv0 hm0
          exact ⟨lv0', hlv0', hm0'⟩
        · obtain ⟨lv0, hlv0, hm0⟩ := hlev0 (Or.inr hs0)
          rw [hs0] at hlv0
          exact ⟨lv0, hlv0, hm0⟩
    · unfold massOf
      dsimp only
      rw [hmass]
      omega
  · by_cases hsA : side = 'A'
    · subst hsA
      rw [if_neg (by decide), if_pos rfl]
      unfold updateAskLevel
      dsimp only
      rw [hc64]
      obtain ⟨hsWF, hne, hmass, ⟨lvnew, hlvnew, hmemnew⟩, hpres⟩ :=
        add_map_WF askLt b.ask_levels b.orders p sz id 'A' hA hid hsz hfresh
          (by unfold massOf at hbound; omega)
      refine ⟨⟨?_, hsWF, ?_, ?_⟩, ?_⟩
      · exact sideWF_orders_congr b.orders _ 'B' b.bid_levels hB hagreeA
      · exact ordersSet_keys_nodup b.orders id _ hond
      · intro id0 od0 hf0
        by_cases hi : id0 = id
        · subst hi
          rw [ordersSet_find_self] at hf0
          injection hf0 with hf0
          rw [← hf0]
          refine ⟨hid, ?_⟩
          intro _
          exact ⟨lvnew, hlvnew, hmemnew⟩
        · rw [ordersSet_find_ne b.orders id _ id0 hi] at hf0
          obtain ⟨hz0, hlev0⟩ := hrec id0 od0 hf0
          refine ⟨hz0, ?_⟩
          intro hside0
          rcases hside0 with hs0 | hs0 <;> rw [hs0]
          · obtain ⟨lv0, hlv0, hm0⟩ := hlev0 (Or.inl hs0)
            rw [hs0] at hlv0
            exact ⟨lv0, hlv0, hm0⟩
          · obtain ⟨lv0, hlv0, hm0⟩ := hlev0 (Or.inr hs0)
            rw [hs0] at hlv0
            obtain ⟨lv0', hlv0', hm0'⟩ :=
              hpres od0.price lv0 ⟨id0, od0.size⟩ hlv0 hm0
            exact ⟨lv0', hlv0', hm0'⟩
      · unfold massOf
        dsimp only
        rw [hmass]
        omega
    · rw [if_neg hsB, if_neg hsA]
      have hagreeS := ordersSet_agree b.orders id ⟨p, sz, side⟩ hfresh
      refine ⟨⟨?_, ?_, ?_, ?_⟩, ?_⟩
      · exact sideWF_orders_congr b.orders _ 'B' b.bid_levels hB hagreeS
      · exact sideWF_orders_congr b.orders _ 'A' b.ask_levels hA hagreeS
      · exact ordersSet_keys_nodup b.orders id _ hond
      · intro id0 od0 hf0
        by_cases hi : id0 = id
        · subst hi
          rw [ordersSet_find_self] at hf0
          injection hf0 with hf0
          rw [← hf0]
          refine ⟨hid, ?_⟩
          intro hside0
          dsimp only at hside0
          rcases hside0 with hs0 | hs0
          · exact absurd hs0 hsB
          · exact absurd hs0 hsA
        · rw [ordersSet_find_ne b.orders id _ id0 hi] at hf0
          obtain ⟨hz0, hlev0⟩ := hrec id0 od0 hf0
          refine ⟨hz0, ?_⟩
          intro hside0
          rcases hside0 with hs0 | hs0 <;> rw [hs0]
          · obtain ⟨lv0, hlv0, hm0⟩ := hlev0 (Or.inl hs0)
            rw [hs0] at hlv0
            exact ⟨lv0, hlv0, hm0⟩
          · obtain ⟨lv0, hlv0, hm0⟩ := hlev0 (Or.inr hs0)
            rw [hs0] at hlv0
            exact ⟨lv0, hlv0, hm0⟩
      · unfold massOf
        dsimp only
        omega

end OrderBookModel

namespace OrderBookModel

theorem fill_map_WF (m : LevelMap) (os : Orders) (p : Int) (Q : Nat) (s : Char)
    (lv : LevelData) (hlv : mapFind m p = some lv)
    (hs : sideWF os s m)
    (hosnd : (os.map Prod.fst).Nodup)
    (hbound : levelMass m < 2 ^ 32) :
    sideWF (fillAtLevelMap m os p Q).2 s (fillAtLevelMap m os p Q).1 ∧
    (∀ k, k ≠ p → mapFind (fillAtLevelMap m os p Q).1 k = mapFind m k) ∧
    levelMass (fillAtLevelMap m os p Q).1 ≤ levelMass m ∧
    ((fillAtLevelMap m os p Q).2.map Prod.fst).Nodup ∧
    (∀ id0, id0 ∉ lv.order_queue.map (fun e => e.order_id) →
      ordersFind (fillAtLevelMap m os p Q).2 id0 = ordersFind os id0) ∧
    (∀ id0 od0, ordersFind (fillAtLevelMap m os p Q).2 id0 = some od0 →
      (id0 ∉ lv.order_queue.map (fun e => e.order_id) ∧ ordersFind os id0 = some od0) ∨
      (od0.price = p ∧ od0.side = s ∧
        ∃ lv2, mapFind (fillAtLevelMap m os p Q).1 p = some lv2 ∧
          (⟨id0, od0.size⟩ : OrderEntry) ∈ lv2.order_queue)) := by
  obtain ⟨hsum, hcnt, hpos, hqnd, hent⟩ := hs.2 p lv hlv
  have hA : lv.total_size ≤ levelMass m := level_le_levelMass m p lv hlv
  have hC : lv.order_count ≤ lv.total_size := sideWF_entry_le_mass os s m hs p lv hlv
  have hother : ∀ p' lv', p' ≠ p → mapFind m p' = some lv' →
      ∀ e ∈ lv'.order_queue, e.order_id ∉ lv.order_queue.map (fun x => x.order_id) := by
    intro p' lv' hp' hlv' e he hmem
    rcases List.mem_map.mp hmem with ⟨x, hx, hxid⟩
    have h1 := ((hs.2 p' lv' hlv').2.2.2.2 e he).2.2
    have h2 := (hent x hx).2.2
    rw [hxid] at h2
    rw [h1] at h2
    injection h2 with h2
    exact hp' (congrArg OrderData.price h2)
  have hflspec := fillLoop_spec lv.order_queue os lv.total_size lv.order_count Q
    hsum (fun x hx => (hent x hx).1) (by omega) hcnt (by omega)
  have hsum_dep := fifoDepleteSpec_sum lv.order_queue (min Q lv.total_size)
  have hmin_le : min Q lv.total_size ≤ lv.total_size := Nat.min_le_right _ _
  have hminq : min (min Q lv.total_size) (queueSum lv.order_queue) =
      min Q lv.total_size := by
    rw [← hsum]
    exact Nat.min_eq_left hmin_le
  rw [hminq] at hsum_dep
  have hlen_dep := fifoDepleteSpec_length_le lv.order_queue (min Q lv.total_size)
  have hdep_ent := fifoDepleteSpec_entries lv.order_queue (min Q lv.total_size) os p s
    hqnd hent
  have hdep_nodup := fifoDepleteSpec_nodup lv.order_queue (min Q lv.total_size) hqnd
  have hos_nodup := fifoOrdersSpec_keys_nodup lv.order_queue (min Q lv.total_size) os hosnd
  have hfind_inv := fun id0 od0 h =>
    fifoOrdersSpec_find_inv lv.order_queue (min Q lv.total_size) os p s id0 od0
      hqnd hosnd (fun e he => (hent e he).2.2) h
  unfold fillAtLevelMap
  rw [hlv]
  dsimp only
  unfold fillOrdersAtLevel
  rw [hflspec]
  dsimp only
  by_cases hz : lv.total_size - min Q lv.total_size = 0
  · rw [if_pos hz]
    have heff : min Q lv.total_size = lv.total_size := by omega
    have hdep_nil : fifoDepleteSpec lv.order_queue (min Q lv.total_size) = [] := by
      have hsd : queueSum (fifoDepleteSpec lv.order_queue (min Q lv.total_size)) = 0 := by
        rw [← hsum] at hsum_dep
        omega
      cases hd : fifoDepleteSpec lv.order_queue (min Q lv.total_size) with
      | nil => rfl
      | cons x xs =>
        have hxm : x ∈ fifoDepleteSpec lv.order_queue (min Q lv.total_size) := by
          rw [hd]
          exact List.mem_cons_self x xs
        have := (hdep_ent x hxm).1
        rw [hd, queueSum_cons] at hsd
        omega
    have hm1self : mapFind (mapAdjust m p (fun _ =>
        (⟨lv.price, lv.total_size - min Q lv.total_size,
          lv.order_count - (lv.order_queue.length -
            (fifoDepleteSpec lv.order_queue (min Q lv.total_size)).length),
          fifoDepleteSpec lv.order_queue (min Q lv.total_size)⟩ : LevelData))) p =
        some _ := mapFind_mapAdjust_self m p _ lv hlv
    have hm1nodup := mapAdjust_keys_nodup m p (fun _ =>
        (⟨lv.price, lv.total_size - min Q lv.total_size,
          lv.order_count - (lv.order_queue.length -
            (fifoDepleteSpec lv.order_queue (min Q lv.total_size)).length),
          fifoDepleteSpec lv.order_queue (min Q lv.total_size)⟩ : LevelData)) hs.1
    have herased : mapFind (mapErase (mapAdjust m p (fun _ =>
        (⟨lv.price, lv.total_size - min Q lv.total_size,
          lv.order_count - (lv.order_queue.length -
            (fifoDepleteSpec lv.order_queue (min Q lv.total_size)).length),
          fifoDepleteSpec lv.order_queue (min Q lv.total_size)⟩ : LevelData))) p) p =
        none := mapFind_mapErase_self _ p hm1nodup
    refine ⟨⟨?_, ?_⟩, ?_, ?_, hos_nodup, ?_, ?_⟩
    · exact mapErase_keys_nodup _ p hm1nodup
    · intro p' lv' hf
      by_cases hp : p' = p
      · rw [hp, herased] at hf
        exact absurd hf (by simp)
      · rw [mapErase_find_ne _ p p' hp, mapAdjust_find_ne m p _ p' hp] at hf
        obtain ⟨h1, h2, h3, h4, h5⟩ := hs.2 p' lv' hf
        refine ⟨h1, h2, h3, h4, fun e he => ⟨(h5 e he).1, (h5 e he).2.1, ?_⟩⟩
        rw [fifoOrdersSpec_find_ne lv.order_queue (min Q lv.total_size) os e.order_id
          (hother p' lv' hp hf e he)]
        exact (h5 e he).2.2
    · intro k hk
      rw [mapErase_find_ne _ p k hk, mapAdjust_find_ne m p _ k hk]
    · have hadj := levelMass_mapAdjust m p (fun _ =>
        (⟨lv.price, lv.total_size - min Q lv.total_size,
          lv.order_count - (lv.order_queue.length -
            (fifoDepleteSpec lv.order_queue (min Q lv.total_size)).length),
          fifoDepleteSpec lv.order_queue (min Q lv.total_size)⟩ : LevelData)) lv hlv
      dsimp only at hadj
      have hers := levelMass_mapErase _ p _ hm1self
      omega
    · intro id0 hid0
      exact fifoOrdersSpec_find_ne lv.order_queue (min Q lv.total_size) os id0 hid0
    · intro id0 od0 h
      rcases hfind_inv id0 od0 h with hl | ⟨hmem, _⟩
      · exact Or.inl hl
      · rw [hdep_nil] at hmem
        exact absurd hmem (by simp)
  · rw [if_neg hz]
    have hm1self : mapFind (mapAdjust m p (fun _ =>
        (⟨lv.price, lv.total_size - min Q lv.total_size,
          lv.order_count - (lv.order_queue.length -
            (fifoDepleteSpec lv.order_queue (min Q lv.total_size)).length),
          fifoDepleteSpec lv.order_queue (min Q lv.total_size)⟩ : LevelData))) p =
        some _ := mapFind_mapAdjust_self m p _ lv hlv
    have hlen_eq : lv.order_count - (lv.order_queue.length -
        (fifoDepleteSpec lv.order_queue (min Q lv.total_size)).length) =
        (fifoDepleteSpec lv.order_queue (min Q lv.total_size)).length := by
      omega
    refine ⟨⟨?_, ?_⟩, ?_, ?_, hos_nodup, ?_, ?_⟩
    · exact mapAdjust_keys_nodup m p _ hs.1
    · intro p' lv' hf
      by_cases hp : p' = p
      · subst hp
        rw [hm1self] at hf
        injection hf with hf
        rw [← hf]
        refine ⟨?_, ?_, ?_, hdep_nodup, hdep_ent⟩
        · dsimp only
          rw [← hsum] at hsum_dep
          omega
        · dsimp only
          exact hlen_eq
        · dsimp only
          omega
      · rw [mapAdjust_find_ne m p _ p' hp] at hf
        obtain ⟨h1, h2, h3, h4, h5⟩ := hs.2 p' lv' hf
        refine ⟨h1, h2, h3, h4, fun e he => ⟨(h5 e he).1, (h5 e he).2.1, ?_⟩⟩
        rw [fifoOrdersSpec_find_ne lv.order_queue (min Q lv.total_size) os e.order_id
          (hother p' lv' hp hf e he)]
        exact (h5 e he).2.2
    · intro k hk
      exact mapAdjust_find_ne m p _ k hk
    · have hadj := levelMass_mapAdjust m p (fun _ =>
        (⟨lv.price, lv.total_size - min Q lv.total_size,
          lv.order_count - (lv.order_queue.length -
            (fifoDepleteSpec lv.order_queue (min Q lv.total_size)).length),
          fifoDepleteSpec lv.order_queue (min Q lv.total_size)⟩ : LevelData)) lv hlv
      dsimp only at hadj
      omega
    · intro id0 hid0
      exact fifoOrdersSpec_find_ne lv.order_queue (min Q lv.total_size) os id0 hid0
    · intro id0 od0 h
      rcases hfind_inv id0 od0 h with hl | ⟨hmem, hp0, hs0⟩
      · exact Or.inl hl
      · right
        exact ⟨hp0, hs0, _, hm1self, hmem⟩

end OrderBookModel

namespace OrderBookModel

theorem processTradeFill_WF (b : OrderBook) (ts : Char) (p : Int) (Q : Nat)
    (hwf : booksWF b) (hbound : massOf b < 2 ^ 32) :
    booksWF (processTradeFill b ts p Q) ∧
    massOf (processTradeFill b ts p Q) ≤ massOf b := by
  obtain ⟨hB, hA, hond, hrec⟩ := hwf
  unfold processTradeFill
  by_cases htB : getOppositeSide ts = 'B'
  · rw [if_pos htB]
    cases hlv : mapFind b.bid_levels p with
    | none =>
      have hfid : fillAtLevelMap b.bid_levels b.orders p Q = (b.bid_levels, b.orders) := by
        unfold fillAtLevelMap
        rw [hlv]
      rw [hfid]
      exact ⟨⟨hB, hA, hond, hrec⟩, Nat.le_refl _⟩
    | some lv =>
      obtain ⟨hsWF, hne, hmassle, hosnd', hagree, hinv⟩ :=
        fill_map_WF b.bid_levels b.orders p Q 'B' lv hlv hB hond
          (by unfold massOf at hbound; omega)
      have hcross : ∀ p' lv', mapFind b.ask_levels p' = some lv' →
          ∀ e ∈ lv'.order_queue,
            e.order_id ∉ lv.order_queue.map (fun x => x.order_id) := by
        intro p' lv' hf e he hmem
        rcases List.mem_map.mp hmem with ⟨x, hx, hxid⟩
        have h1 := ((hA.2 p' lv' hf).2.2.2.2 e he).2.2
        have h2 := ((hB.2 p lv hlv).2.2.2.2 x hx).2.2
        rw [hxid, h1] at h2
        injection h2 with h2
        injection h2 with hq1 hq2 hq3
        exact absurd hq3 (by decide)
      refine ⟨⟨hsWF, ⟨hA.1, ?_⟩, hosnd', ?_⟩, ?_⟩
      · intro p' lv' hf
        obtain ⟨h1, h2, h3, h4, h5⟩ := hA.2 p' lv' hf
        refine ⟨h1, h2, h3, h4, fun e he => ⟨(h5 e he).1, (h5 e he).2.1, ?_⟩⟩
        rw [hagree e.order_id (hcross p' lv' hf e he)]
        exact (h5 e he).2.2
      · intro id0 od0 hf0
        have hf0' : ordersFind (fillAtLevelMap b.bid_levels b.orders p Q).2 id0 =
            some od0 := hf0
        rcases hinv id0 od0 hf0' with ⟨hnotin, hfold⟩ | ⟨hp0, hs0, lv2, hlv2, hmem2⟩
        · obtain ⟨hz0, hlev0⟩ := hrec id0 od0 hfold
          refine ⟨hz0, ?_⟩
          intro hside0
          rcases hside0 with hs0 | hs0 <;> rw [hs0]
          · show ∃ lv3, mapFind (fillAtLevelMap b.bid_levels b.orders p Q).1 od0.price =
              some lv3 ∧ (⟨id0, od0.size⟩ : OrderEntry) ∈ lv3.order_queue
            obtain ⟨lv0, hlv0, hm0⟩ := hlev0 (Or.inl hs0)
            rw [hs0] at hlv0
            have hlv0' : mapFind b.bid_levels od0.price = some lv0 := hlv0
            by_cases hpp : od0.price = p
            · rw [hpp] at hlv0'
              rw [hlv0'] at hlv
              injection hlv with hlv
              rw [← hlv] at hnotin
              exact absurd (List.mem_map_of_mem _ hm0) hnotin
            · refine ⟨lv0, ?_, hm0⟩
              rw [hne od0.price hpp]
              exact hlv0'
          · show ∃ lv3, mapFind b.ask_levels od0.price = some lv3 ∧
              (⟨id0, od0.size⟩ : OrderEntry) ∈ lv3.order_queue
            obtain ⟨lv0, hlv0, hm0⟩ := hlev0 (Or.inr hs0)
            rw [hs0] at hlv0
            exact ⟨lv0, hlv0, hm0⟩
        · refine ⟨?_, ?_⟩
          · exact ((hsWF.2 p lv2 hlv2).2.2.2.2 _ hmem2).2.1
          · intro _
            rw [hs0, hp0]
            show ∃ lv3, mapFind (fillAtLevelMap b.bid_levels b.orders p Q).1 p =
              some lv3 ∧ (⟨id0, od0.size⟩ : OrderEntry) ∈ lv3.order_queue
            exact ⟨lv2, hlv2, hmem2⟩
      · show levelMass (fillAtLevelMap b.bid_levels b.orders p Q).1 +
          levelMass b.ask_levels ≤ massOf b
        unfold massOf
        omega
  · by_cases htA : getOppositeSide ts = 'A'
    · rw [if_neg htB, if_pos htA]
      cases hlv : mapFind b.ask_levels p with
      | none =>
        have hfid : fillAtLevelMap b.ask_levels b.orders p Q = (b.ask_levels, b.orders) := by
          unfold fillAtLevelMap
          rw [hlv]
        rw [hfid]
        exact ⟨⟨hB, hA, hond, hrec⟩, Nat.le_refl _⟩
      | some lv =>
        obtain ⟨hsWF, hne, hmassle, hosnd', hagree, hinv⟩ :=
          fill_map_WF b.ask_levels b.orders p Q 'A' lv hlv hA hond
            (by unfold massOf at hbound; omega)
        have hcross : ∀ p' lv', mapFind b.bid_levels p' = some lv' →
            ∀ e ∈ lv'.order_queue,
              e.order_id ∉ lv.order_queue.map (fun x => x.order_id) := by
          intro p' lv' hf e he hmem
          rcases List.mem_map.mp hmem with ⟨x, hx, hxid⟩
          have h1 := ((hB.2 p' lv' hf).2.2.2.2 e he).2.2
          have h2 := ((hA.2 p lv hlv).2.2.2.2 x hx).2.2
          rw [hxid, h1] at h2
          injection h2 with h2
          injection h2 with hq1 hq2 hq3
          exact absurd hq3 (by decide)
        refine ⟨⟨⟨hB.1, ?_⟩, hsWF, hosnd', ?_⟩, ?_⟩
        · intro p' lv' hf
          obtain ⟨h1, h2, h3, h4, h5⟩ := hB.2 p' lv' hf
          refine ⟨h1, h2, h3, h4, fun e he => ⟨(h5 e he).1, (h5 e he).2.1, ?_⟩⟩
          rw [hagree e.order_id (hcross p' lv' hf e he)]
          exact (h5 e he).2.2
        · intro id0 od0 hf0
          have hf0' : ordersFind (fillAtLevelMap b.ask_levels b.orders p Q).2 id0 =
              some od0 := hf0
          rcases hinv id0 od0 hf0' with ⟨hnotin, hfold⟩ | ⟨hp0, hs0, lv2, hlv2, hmem2⟩
          · obtain ⟨hz0, hlev0⟩ := hrec id0 od0 hfold
            refine ⟨hz0, ?_⟩
            intro hside0
            rcases hside0 with hs0 | hs0 <;> rw [hs0]
            · show ∃ lv3, mapFind b.bid_levels od0.price = some lv3 ∧
                (⟨id0, od0.size⟩ : OrderEntry) ∈ lv3.order_queue
              obtain ⟨lv0, hlv0, hm0⟩ := hlev0 (Or.inl hs0)
              rw [hs0] at hlv0
              exact ⟨lv0, hlv0, hm0⟩
            · show ∃ lv3, mapFind (fillAtLevelMap b.ask_levels b.orders p Q).1 od0.price =
                some lv3 ∧ (⟨id0, od0.size⟩ : OrderEntry) ∈ lv3.order_queue
              obtain ⟨lv0, hlv0, hm0⟩ := hlev0 (Or.inr hs0)
              rw [hs0] at hlv0
              have hlv0' : mapFind b.ask_levels od0.price = some lv0 := hlv0
              by_cases hpp : od0.price = p
              · rw [hpp] at hlv0'
                rw [hlv0'] at hlv
                injection hlv with hlv
                rw [← hlv] at hnotin
                exact absurd (List.mem_map_of_mem _ hm0) hnotin
              · refine ⟨lv0, ?_, hm0⟩
                rw [hne od0.price hpp]
                exact hlv0'
          · refine ⟨?_, ?_⟩
            · exact ((hsWF.2 p lv2 hlv2).2.2.2.2 _ hmem2).2.1
            · intro _
              rw [hs0, hp0]
              show ∃ lv3, mapFind (fillAtLevelMap b.ask_levels b.orders p Q).1 p =
                some lv3 ∧ (⟨id0, od0.size⟩ : OrderEntry) ∈ lv3.order_queue
              exact ⟨lv2, hlv2, hmem2⟩
        · show levelMass b.bid_levels +
            levelMass (fillAtLevelMap b.ask_levels b.orders p Q).1 ≤ massOf b
          unfold massOf
          omega
    · rw [if_neg htB, if_neg htA]
      exact ⟨⟨hB, hA, hond, hrec⟩, Nat.le_refl _⟩

end OrderBookModel

namespace OrderBookModel

theorem cancel_map_others (lt : Int → Int → Bool) (m : LevelMap) (p : Int)
    (id eff odsize : Nat) (lv : LevelData) (q1 q2 : List OrderEntry)
    (hlv : mapFind m p = some lv)
    (hnodup : (m.map Prod.fst).Nodup)
    (hsplit : lv.order_queue = q1 ++ ⟨id, odsize⟩ :: q2)
    (hq1 : ∀ x ∈ q1, x.order_id ≠ id) (hq2 : ∀ x ∈ q2, x.order_id ≠ id)
    (hsum : lv.total_size = queueSum lv.order_queue)
    (hcnt : lv.order_count = lv.order_queue.length)
    (hbound : lv.total_size < 2 ^ 63)
    (hcb : lv.order_queue.length < 2 ^ 32)
    (heff : eff ≤ odsize) :
    (∀ k, k ≠ p → mapFind (if odsize - eff = 0
      then updateLevelMap lt (mapApplyDefault lt
        (updateLevelMap lt m p (-(centered64 eff)) 0 0) p
        (fun lv' => updateOrderInQueue lv' id eff)) p 0 (-1) 0
      else mapApplyDefault lt (updateLevelMap lt m p (-(centered64 eff)) 0 0) p
        (fun lv' => updateOrderInQueue lv' id eff)) k = mapFind m k) ∧
    ((if odsize - eff = 0
      then updateLevelMap lt (mapApplyDefault lt
        (updateLevelMap lt m p (-(centered64 eff)) 0 0) p
        (fun lv' => updateOrderInQueue lv' id eff)) p 0 (-1) 0
      else mapApplyDefault lt (updateLevelMap lt m p (-(centered64 eff)) 0 0) p
        (fun lv' => updateOrderInQueue lv' id eff)).map Prod.fst).Nodup ∧
    levelMass (if odsize - eff = 0
      then updateLevelMap lt (mapApplyDefault lt
        (updateLevelMap lt m p (-(centered64 eff)) 0 0) p
        (fun lv' => updateOrderInQueue lv' id eff)) p 0 (-1) 0
      else mapApplyDefault lt (updateLevelMap lt m p (-(centered64 eff)) 0 0) p
        (fun lv' => updateOrderInQueue lv' id eff)) + eff = levelMass m := by
  have hsumq : lv.total_size = queueSum q1 + odsize + queueSum q2 := by
    rw [hsum, hsplit, queueSum_append, queueSum_cons]
    dsimp only
    omega
  have hcntq : lv.order_count = q1.length + 1 + q2.length := by
    rw [hcnt, hsplit]
    simp
    omega
  have heff_le_total : eff ≤ lv.total_size := by omega
  have h63 : eff < 2 ^ 63 := by omega
  have h64 : lv.total_size < 2 ^ 64 := by omega
  have hc32 : lv.order_count < 2 ^ 32 := by
    rw [hcnt]
    omega
  by_cases hzero : lv.total_size = eff
  · have hM1 : updateLevelMap lt m p (-(centered64 eff)) 0 0 = mapErase m p :=
      updateLevelMap_cancel_sub_all lt m p lv eff hlv h64 h63 hzero
    have hM1find : mapFind (mapErase m p) p = none := mapFind_mapErase_self m p hnodup
    have hM2 : mapApplyDefault lt (mapErase m p) p
        (fun lv' => updateOrderInQueue lv' id eff) =
        mapInsert lt p defaultLevel (mapErase m p) := by
      unfold mapApplyDefault
      rw [hM1find]
      rfl
    have hfind3 : mapFind (mapInsert lt p defaultLevel (mapErase m p)) p =
        some defaultLevel := mapFind_mapInsert_self lt p defaultLevel (mapErase m p)
    have hfull : odsize - eff = 0 := by omega
    rw [if_pos hfull, hM1, hM2,
      updateLevelMap_dec_count_zero lt _ p defaultLevel hfind3 rfl,
      mapErase_mapInsert_of_find_none lt p _ _ hM1find]
    refine ⟨?_, ?_, ?_⟩
    · intro k hk
      exact mapErase_find_ne m p k hk
    · exact mapErase_keys_nodup m p hnodup
    · have := levelMass_mapErase m p lv hlv
      omega
  · have hc0 : lv.order_count ≠ 0 := by
      rw [hcntq]
      omega
    have hM1 : updateLevelMap lt m p (-(centered64 eff)) 0 0 =
        mapAdjust m p (fun _ => ⟨lv.price, lv.total_size - eff, lv.order_count,
          lv.order_queue⟩) :=
      updateLevelMap_cancel_sub lt m p lv eff hlv heff_le_total h64 h63 hc32 hc0 hzero
    have hM1find : mapFind (mapAdjust m p (fun _ => (⟨lv.price, lv.total_size - eff,
        lv.order_count, lv.order_queue⟩ : LevelData))) p =
        some ⟨lv.price, lv.total_size - eff, lv.order_count, lv.order_queue⟩ :=
      mapFind_mapAdjust_self m p _ lv hlv
    have hupd := updateOrderInQueue_split ⟨lv.price, lv.total_size - eff, lv.order_count,
        lv.order_queue⟩ id eff odsize q1 q2 hsplit hq1 hq2
    have hM2 : mapApplyDefault lt (mapAdjust m p (fun _ => (⟨lv.price,
        lv.total_size - eff, lv.order_count, lv.order_queue⟩ : LevelData))) p
        (fun lv' => updateOrderInQueue lv' id eff) =
        mapAdjust (mapAdjust m p (fun _ => (⟨lv.price, lv.total_size - eff,
          lv.order_count, lv.order_queue⟩ : LevelData))) p
          (fun lv' => updateOrderInQueue lv' id eff) := by
      unfold mapApplyDefault
      rw [hM1find]
    have hM2find : mapFind (mapAdjust (mapAdjust m p (fun _ => (⟨lv.price,
        lv.total_size - eff, lv.order_count, lv.order_queue⟩ : LevelData))) p
          (fun lv' => updateOrderInQueue lv' id eff)) p =
        some ⟨lv.price, lv.total_size - eff, lv.order_count,
          q1 ++ (if eff < odsize then [⟨id, odsize - eff⟩] else []) ++ q2⟩ := by
      rw [mapFind_mapAdjust_self _ p _ _ hM1find, hupd]
    have hmass1 : levelMass (mapAdjust m p (fun _ => (⟨lv.price, lv.total_size - eff,
        lv.order_count, lv.order_queue⟩ : LevelData))) + eff = levelMass m := by
      have := levelMass_mapAdjust m p (fun _ => (⟨lv.price, lv.total_size - eff,
        lv.order_count, lv.order_queue⟩ : LevelData)) lv hlv
      dsimp only at this
      omega
    have hmass2 : levelMass (mapAdjust (mapAdjust m p (fun _ => (⟨lv.price,
        lv.total_size - eff, lv.order_count, lv.order_queue⟩ : LevelData))) p
          (fun lv' => updateOrderInQueue lv' id eff)) + eff = levelMass m := by
      have := levelMass_mapAdjust (mapAdjust m p (fun _ => (⟨lv.price,
        lv.total_size - eff, lv.order_count, lv.order_queue⟩ : LevelData))) p
        (fun lv' => updateOrderInQueue lv' id eff) _ hM1find
      dsimp only at this
      rw [hupd] at this
      dsimp only at this
      omega
    have hknodup : ((mapAdjust (mapAdjust m p (fun _ => (⟨lv.price,
        lv.total_size - eff, lv.order_count, lv.order_queue⟩ : LevelData))) p
          (fun lv' => updateOrderInQueue lv' id eff)).map Prod.fst).Nodup := by
      rw [mapAdjust_keys, mapAdjust_keys]
      exact hnodup
    by_cases hfull : odsize - eff = 0
    · have hodeq : eff = odsize := by omega
      have hcm1 : lv.order_count - 1 ≠ 0 := by
        intro hcm
        have hq1n : q1.length = 0 := by omega
        have hq2n : q2.length = 0 := by omega
        rw [List.length_eq_zero.mp hq1n, List.length_eq_zero.mp hq2n] at hsumq
        simp [queueSum] at hsumq
        omega
      have hdec := updateLevelMap_dec_count lt _ p _ hM2find
        (show lv.total_size - eff < 2 ^ 64 by omega)
        (show lv.order_count < 2 ^ 32 from hc32)
        (show 1 ≤ lv.order_count by omega)
      have hfinal : updateLevelMap lt (mapApplyDefault lt
          (updateLevelMap lt m p (-(centered64 eff)) 0 0) p
          (fun lv' => updateOrderInQueue lv' id eff)) p 0 (-1) 0 =
          mapAdjust (mapAdjust (mapAdjust m p (fun _ => (⟨lv.price, lv.total_size - eff,
            lv.order_count, lv.order_queue⟩ : LevelData))) p
              (fun lv' => updateOrderInQueue lv' id eff)) p
            (fun _ => (⟨lv.price, lv.total_size - eff, lv.order_count - 1,
              q1 ++ (if eff < odsize then [⟨id, odsize - eff⟩] else []) ++ q2⟩ :
              LevelData)) := by
        rw [hM1, hM2, hdec]
        rw [if_neg (show ¬((⟨lv.price, lv.total_size - eff, lv.order_count,
            q1 ++ (if eff < odsize then [⟨id, odsize - eff⟩] else []) ++ q2⟩ :
            LevelData).total_size = 0 ∨ (⟨lv.price, lv.total_size - eff, lv.order_count,
            q1 ++ (if eff < odsize then [⟨id, odsize - eff⟩] else []) ++ q2⟩ :
            LevelData).order_count - 1 = 0) from by
          dsimp only
          push_neg
          exact ⟨by omega, hcm1⟩)]
      rw [if_pos hfull, hfinal]
      refine ⟨?_, ?_, ?_⟩
      · intro k hk
        rw [mapAdjust_find_ne _ p _ k hk, mapAdjust_find_ne _ p _ k hk,
          mapAdjust_find_ne _ p _ k hk]
      · rw [mapAdjust_keys]
        exact hknodup
      · have := levelMass_mapAdjust (mapAdjust (mapAdjust m p (fun _ => (⟨lv.price,
          lv.total_size - eff, lv.order_count, lv.order_queue⟩ : LevelData))) p
            (fun lv' => updateOrderInQueue lv' id eff)) p
            (fun _ => (⟨lv.price, lv.total_size - eff, lv.order_count - 1,
              q1 ++ (if eff < odsize then [⟨id, odsize - eff⟩] else []) ++ q2⟩ :
              LevelData)) _ hM2find
        dsimp only at this
        omega
    · rw [if_neg hfull, hM1, hM2]
      refine ⟨?_, ?_, ?_⟩
      · intro k hk
        rw [mapAdjust_find_ne _ p _ k hk, mapAdjust_find_ne _ p _ k hk]
      · exact hknodup
      · exact hmass2

end OrderBookModel

namespace OrderBookModel

theorem cancelOrder_eq_bid (b : OrderBook) (id cs eff : Nat) (od : OrderData)
    (heffdef : (if cs = 0 then od.size else min cs od.size) = eff)
    (hod : ordersFind b.orders id = some od)
    (hB : od.side = 'B') :
    cancelOrder b id cs =
      (if od.size - eff = 0 then
        { b with
            bid_levels := updateLevelMap bidLt (mapApplyDefault bidLt
              (updateLevelMap bidLt b.bid_levels od.price (-(centered64 eff)) 0 0) od.price
              (fun lv' => updateOrderInQueue lv' id eff)) od.price 0 (-1) 0,
            orders := ordersErase (ordersSetSize b.orders id 0) id }
      else
        { b with
            bid_levels := mapApplyDefault bidLt
              (updateLevelMap bidLt b.bid_levels od.price (-(centered64 eff)) 0 0) od.price
              (fun lv' => updateOrderInQueue lv' id eff),
            orders := ordersSetSize b.orders id (od.size - eff) }) := by
  unfold cancelOrder
  rw [hod]
  dsimp only
  rw [heffdef]
  simp only [hB, charBB, charBA, if_true, if_false]
  unfold updateBidLevel
  dsimp only
  by_cases hfull : od.size - eff = 0
  · rw [if_pos hfull]
    rw [hfull]
    rfl
  · rw [if_neg hfull, if_neg hfull]

theorem cancelOrder_eq_ask (b : OrderBook) (id cs eff : Nat) (od : OrderData)
    (heffdef : (if cs = 0 then od.size else min cs od.size) = eff)
    (hod : ordersFind b.orders id = some od)
    (hA : od.side = 'A') :
    cancelOrder b id cs =
      (if od.size - eff = 0 then
        { b with
            ask_levels := updateLevelMap askLt (mapApplyDefault askLt
              (updateLevelMap askLt b.ask_levels od.price (-(centered64 eff)) 0 0) od.price
              (fun lv' => updateOrderInQueue lv' id eff)) od.price 0 (-1) 0,
            orders := ordersErase (ordersSetSize b.orders id 0) id }
      else
        { b with
            ask_levels := mapApplyDefault askLt
              (updateLevelMap askLt b.ask_levels od.price (-(centered64 eff)) 0 0) od.price
              (fun lv' => updateOrderInQueue lv' id eff),
            orders := ordersSetSize b.orders id (od.size - eff) }) := by
  unfold cancelOrder
  rw [hod]
  dsimp only
  rw [heffdef]
  simp only [hA, charAB, charAA, if_true, if_false]
  unfold updateAskLevel
  dsimp only
  by_cases hfull : od.size - eff = 0
  · rw [if_pos hfull]
    rw [hfull]
    rfl
  · rw [if_neg hfull, if_neg hfull]

theorem cancelOrder_eq_none (b : OrderBook) (id cs : Nat)
    (hod : ordersFind b.orders id = none) :
    cancelOrder b id cs = b := by
  unfold cancelOrder
  rw [hod]

theorem cancelOrder_eq_other (b : OrderBook) (id cs : Nat) (od : OrderData)
    (hod : ordersFind b.orders id = some od)
    (hnB : ¬ od.side = 'B') (hnA : ¬ od.side = 'A') :
    cancelOrder b id cs =
      (if od.size - (if cs = 0 then od.size else min cs od.size) = 0 then
        { b with orders := ordersErase (ordersSetSize b.orders id (od.size - (if cs = 0 then od.size else min cs od.size))) id }
      else
        { b with orders := ordersSetSize b.orders id (od.size - (if cs = 0 then od.size else min cs od.size)) }) := by
  unfold cancelOrder
  rw [hod]
  dsimp only
  simp only [if_neg hnB, if_neg hnA]

end OrderBookModel

namespace OrderBookModel

/-- The level-map transformation performed by `cancelOrder` on the cancelled
order's side (aggregate update, queue rewrite through `operator[]`, and the
order-count decrement of a full cancel). -/
def cancelChain (lt : Int → Int → Bool) (m : LevelMap) (p : Int)
    (id eff odsize : Nat) : LevelMap :=
  if odsize - eff = 0
  then updateLevelMap lt (mapApplyDefault lt
    (updateLevelMap lt m p (-(centered64 eff)) 0 0) p
    (fun lv' => updateOrderInQueue lv' id eff)) p 0 (-1) 0
  else mapApplyDefault lt (updateLevelMap lt m p (-(centered64 eff)) 0 0) p
    (fun lv' => updateOrderInQueue lv' id eff)

/-- The per-order-index transformation performed by `cancelOrder`. -/
def cancelOrdersChain (os : Orders) (id eff odsize : Nat) : Orders :=
  if odsize - eff = 0 then ordersErase (ordersSetSize os id 0) id
  else ordersSetSize os id (odsize - eff)

theorem cancelOrder_eq_bid2 (b : OrderBook) (id cs eff : Nat) (od : OrderData)
    (heffdef : (if cs = 0 then od.size else min cs od.size) = eff)
    (hod : ordersFind b.orders id = some od)
    (hB : od.side = 'B') :
    cancelOrder b id cs =
      { b with
          bid_levels := cancelChain bidLt b.bid_levels od.price id eff od.size,
          orders := cancelOrdersChain b.orders id eff od.size } := by
  rw [cancelOrder_eq_bid b id cs eff od heffdef hod hB]
  unfold cancelChain cancelOrdersChain
  by_cases hfull : od.size - eff = 0
  · rw [if_pos hfull, if_pos hfull, if_pos hfull]
  · rw [if_neg hfull, if_neg hfull, if_neg hfull]

theorem cancelOrder_eq_ask2 (b : OrderBook) (id cs eff : Nat) (od : OrderData)
    (heffdef : (if cs = 0 then od.size else min cs od.size) = eff)
    (hod : ordersFind b.orders id = some od)
    (hA : od.side = 'A') :
    cancelOrder b id cs =
      { b with
          ask_levels := cancelChain askLt b.ask_levels od.price id eff od.size,
          orders := cancelOrdersChain b.orders id eff od.size } := by
  rw [cancelOrder_eq_ask b id cs eff od heffdef hod hA]
  unfold cancelChain cancelOrdersChain
  by_cases hfull : od.size - eff = 0
  · rw [if_pos hfull, if_pos hfull, if_pos hfull]
  · rw [if_neg hfull, if_neg hfull, if_neg hfull]

theorem cancelOrdersChain_find_self (os : Orders) (id eff odsize : Nat)
    (od : OrderData) (hod : ordersFind os id = some od)
    (hosnd : (os.map Prod.fst).Nodup) :
    ordersFind (cancelOrdersChain os id eff odsize) id =
      (if odsize - eff = 0 then none else some ⟨od.price, odsize - eff, od.side⟩) := by
  unfold cancelOrdersChain
  by_cases hfull : odsize - eff = 0
  · rw [if_pos hfull, if_pos hfull]
    apply ordersFind_erase_self
    rw [ordersSetSize_keys]
    exact hosnd
  · rw [if_neg hfull, if_neg hfull]
    exact ordersFind_setSize_self os id (odsize - eff) od hod

theorem cancelOrdersChain_find_ne (os : Orders) (id eff odsize : Nat)
    (id0 : Nat) (h : id0 ≠ id) :
    ordersFind (cancelOrdersChain os id eff odsize) id0 = ordersFind os id0 := by
  unfold cancelOrdersChain
  by_cases hfull : odsize - eff = 0
  · rw [if_pos hfull, ordersErase_find_ne _ id id0 h,
      ordersSetSize_find_ne os id 0 id0 h]
  · rw [if_neg hfull, ordersSetSize_find_ne os id _ id0 h]

theorem cancelOrdersChain_keys_nodup (os : Orders) (id eff odsize : Nat)
    (h : (os.map Prod.fst).Nodup) :
    ((cancelOrdersChain os id eff odsize).map Prod.fst).Nodup := by
  unfold cancelOrdersChain
  by_cases hfull : odsize - eff = 0
  · rw [if_pos hfull]
    refine List.Nodup.sublist ((ordersErase_sublist _ id).map Prod.fst) ?_
    rw [ordersSetSize_keys]
    exact h
  · rw [if_neg hfull]
    rw [ordersSetSize_keys]
    exact h

theorem queue_split_of_mem (q : List OrderEntry) (id : Nat) (sz : Nat)
    (hnd : (q.map (fun e => e.order_id)).Nodup)
    (hm : (⟨id, sz⟩ : OrderEntry) ∈ q) :
    ∃ q1 q2, q = q1 ++ ⟨id, sz⟩ :: q2 ∧ (∀ x ∈ q1, x.order_id ≠ id) ∧
      ∀ x ∈ q2, x.order_id ≠ id := by
  obtain ⟨q1, q2, hsplit⟩ := List.append_of_mem hm
  refine ⟨q1, q2, hsplit, ?_, ?_⟩
  · intro x hx hxid
    rw [hsplit] at hnd
    simp only [List.map_append, List.map_cons] at hnd
    rw [List.nodup_append] at hnd
    exact hnd.2.2 (hxid ▸ List.mem_map_of_mem _ hx) (List.mem_cons_self _ _)
  · intro x hx hxid
    rw [hsplit] at hnd
    simp only [List.map_append, List.map_cons] at hnd
    rw [List.nodup_append] at hnd
    have := hnd.2.1
    rw [List.nodup_cons] at this
    exact this.1 (hxid ▸ List.mem_map_of_mem _ hx)

end OrderBookModel

namespace OrderBookModel

theorem queueSum_nil : queueSum [] = 0 := rfl

theorem queueSum_singleton (e : OrderEntry) : queueSum [e] = e.size := by
  simp [queueSum]

theorem cancel_side_WF (lt : Int → Int → Bool) (m : LevelMap) (os : Orders)
    (p : Int) (id eff odsize : Nat) (s : Char) (lv : LevelData)
    (q1 q2 : List OrderEntry)
    (hs : sideWF os s m)
    (hosnd : (os.map Prod.fst).Nodup)
    (hlv : mapFind m p = some lv)
    (hsplit : lv.order_queue = q1 ++ ⟨id, odsize⟩ :: q2)
    (hq1 : ∀ x ∈ q1, x.order_id ≠ id) (hq2 : ∀ x ∈ q2, x.order_id ≠ id)
    (hbound : levelMass m < 2 ^ 32)
    (heff : eff ≤ odsize) (heffpos : 0 < eff) :
    sideWF (cancelOrdersChain os id eff odsize) s (cancelChain lt m p id eff odsize) ∧
    (∀ k, k ≠ p → mapFind (cancelChain lt m p id eff odsize) k = mapFind m k) ∧
    levelMass (cancelChain lt m p id eff odsize) + eff = levelMass m ∧
    (∀ x, x ∈ q1 ++ q2 →
      ∃ lv', mapFind (cancelChain lt m p id eff odsize) p = some lv' ∧
        x ∈ lv'.order_queue) ∧
    (eff < odsize →
      ∃ lv', mapFind (cancelChain lt m p id eff odsize) p = some lv' ∧
        (⟨id, odsize - eff⟩ : OrderEntry) ∈ lv'.order_queue) := by
  obtain ⟨hsum, hcnt, hpos3, hqnd, hent⟩ := hs.2 p lv hlv
  have hmidmem : (⟨id, odsize⟩ : OrderEntry) ∈ lv.order_queue := by
    rw [hsplit]
    exact List.mem_append.mpr (Or.inr (List.mem_cons_self _ _))
  obtain ⟨hodpos, hidnz, hrecid⟩ := hent _ hmidmem
  dsimp only at hodpos hidnz hrecid
  have hsumq : lv.total_size = queueSum q1 + odsize + queueSum q2 := by
    rw [hsum, hsplit, queueSum_append, queueSum_cons]
    dsimp only
    omega
  have hcntq : lv.order_count = q1.length + 1 + q2.length := by
    rw [hcnt, hsplit]
    simp
    omega
  have hq1mem : ∀ x ∈ q1, x ∈ lv.order_queue := by
    intro x hx
    rw [hsplit]
    exact List.mem_append.mpr (Or.inl hx)
  have hq2mem : ∀ x ∈ q2, x ∈ lv.order_queue := by
    intro x hx
    rw [hsplit]
    exact List.mem_append.mpr (Or.inr (List.mem_cons_of_mem _ hx))
  have h63b : lv.total_size < 2 ^ 63 := by
    have := level_le_levelMass m p lv hlv
    omega
  have hlen32 : lv.order_queue.length < 2 ^ 32 := by
    have h1 := queue_len_le_sum lv.order_queue (fun e he => (hent e he).1)
    have h2 := level_le_levelMass m p lv hlv
    omega
  have hmap := cancel_map_spec lt m p id eff odsize lv q1 q2 hlv hs.1 hsplit hq1 hq2
    hsum hcnt h63b hlen32 heff
  have hoth := cancel_map_others lt m p id eff odsize lv q1 q2 hlv hs.1 hsplit hq1 hq2
    hsum hcnt h63b hlen32 heff
  have hfself : mapFind (cancelChain lt m p id eff odsize) p =
      (if lv.total_size = eff then none
       else some ⟨lv.price, lv.total_size - eff,
         lv.order_count - (if eff = odsize then 1 else 0),
         q1 ++ (if eff < odsize then [⟨id, odsize - eff⟩] else []) ++ q2⟩) := hmap
  have hne' : ∀ k, k ≠ p →
      mapFind (cancelChain lt m p id eff odsize) k = mapFind m k := hoth.1
  have hknodup : ((cancelChain lt m p id eff odsize).map Prod.fst).Nodup := hoth.2.1
  have hmass' : levelMass (cancelChain lt m p id eff odsize) + eff = levelMass m :=
    hoth.2.2
  have hq12nil : lv.total_size = eff → q1 = [] ∧ q2 = [] := by
    intro hz
    have hl1 := queue_len_le_sum q1 (fun e he => (hent e (hq1mem e he)).1)
    have hl2 := queue_len_le_sum q2 (fun e he => (hent e (hq2mem e he)).1)
    have : q1.length = 0 ∧ q2.length = 0 := by omega
    exact ⟨List.length_eq_zero.mp this.1, List.length_eq_zero.mp this.2⟩
  have hodsize_le : odsize ≤ lv.total_size := by omega
  have hchain_ent_find : ∀ x ∈ lv.order_queue, x.order_id ≠ id →
      ordersFind (cancelOrdersChain os id eff odsize) x.order_id =
        some ⟨p, x.size, s⟩ := by
    intro x hx hxid
    rw [cancelOrdersChain_find_ne os id eff odsize x.order_id hxid]
    exact (hent x hx).2.2
  refine ⟨⟨hknodup, ?_⟩, hne', hmass', ?_, ?_⟩
  · intro p' lv' hf
    by_cases hp : p' = p
    · subst hp
      rw [hfself] at hf
      by_cases hz : lv.total_size = eff
      · rw [if_pos hz] at hf
        exact absurd hf (by simp)
      · rw [if_neg hz] at hf
        injection hf with hf
        rw [← hf]
        refine ⟨?_, ?_, ?_, ?_, ?_⟩
        · dsimp only
          rw [queueSum_append, queueSum_append]
          by_cases heo : eff < odsize
          · rw [if_pos heo, queueSum_singleton]
            dsimp only
            omega
          · rw [if_neg heo, queueSum_nil]
            omega
        · dsimp only
          simp only [List.length_append]
          by_cases heo : eff < odsize
          · rw [if_pos heo, if_neg (show ¬ eff = odsize by omega)]
            simp
            omega
          · rw [if_neg heo, if_pos (show eff = odsize by omega)]
            simp
            omega
        · dsimp only
          omega
        · dsimp only
          by_cases heo : eff < odsize
          · rw [if_pos heo]
            have hxx : (q1 ++ [(⟨id, odsize - eff⟩ : OrderEntry)] ++ q2).map
                (fun e => e.order_id) = lv.order_queue.map (fun e => e.order_id) := by
              rw [hsplit]
              simp
            rw [hxx]
            exact hqnd
          · rw [if_neg heo]
            have hxx : lv.order_queue.map (fun e => e.order_id) =
                q1.map (fun e => e.order_id) ++ id :: q2.map (fun e => e.order_id) := by
              rw [hsplit]
              simp
            refine hqnd.sublist ?_
            rw [hxx]
            have hyy : (q1 ++ ([] : List OrderEntry) ++ q2).map (fun e => e.order_id) =
                q1.map (fun e => e.order_id) ++ q2.map (fun e => e.order_id) := by
              simp
            rw [hyy]
            exact (List.sublist_cons_self id (q2.map (fun e => e.order_id))).append_left
              (q1.map (fun e => e.order_id))
        · intro x hx
          dsimp only at hx
          rw [List.mem_append, List.mem_append] at hx
          rcases hx with (hx | hx) | hx
          · exact ⟨(hent x (hq1mem x hx)).1, (hent x (hq1mem x hx)).2.1,
              hchain_ent_find x (hq1mem x hx) (hq1 x hx)⟩
          · by_cases heo : eff < odsize
            · rw [if_pos heo] at hx
              simp only [List.mem_singleton] at hx
              subst hx
              refine ⟨by dsimp only; omega, hidnz, ?_⟩
              dsimp only
              rw [cancelOrdersChain_find_self os id eff odsize _ hrecid hosnd]
              rw [if_neg (show ¬ odsize - eff = 0 by omega)]
            · rw [if_neg heo] at hx
              exact absurd hx (by simp)
          · exact ⟨(hent x (hq2mem x hx)).1, (hent x (hq2mem x hx)).2.1,
              hchain_ent_find x (hq2mem x hx) (hq2 x hx)⟩
    · rw [hne' p' hp] at hf
      obtain ⟨h1, h2, h3, h4, h5⟩ := hs.2 p' lv' hf
      refine ⟨h1, h2, h3, h4, fun e he => ⟨(h5 e he).1, (h5 e he).2.1, ?_⟩⟩
      have hxid : e.order_id ≠ id := by
        intro hid0
        have := (h5 e he).2.2
        rw [hid0, hrecid] at this
        injection this with this
        exact hp (congrArg OrderData.price this).symm
      rw [cancelOrdersChain_find_ne os id eff odsize e.order_id hxid]
      exact (h5 e he).2.2
  · intro x hx
    by_cases hz : lv.total_size = eff
    · obtain ⟨h1, h2⟩ := hq12nil hz
      rw [h1, h2] at hx
      exact absurd hx (by simp)
    · refine ⟨_, by rw [hfself, if_neg hz], ?_⟩
      rw [List.mem_append] at hx
      rw [List.mem_append, List.mem_append]
      rcases hx with hx | hx
      · exact Or.inl (Or.inl hx)
      · exact Or.inr hx
  · intro heo
    have hz : ¬ lv.total_size = eff := by omega
    refine ⟨_, by rw [hfself, if_neg hz], ?_⟩
    rw [List.mem_append, List.mem_append]
    left
    right
    rw [if_pos heo]
    exact List.mem_singleton.mpr rfl

end OrderBookModel

namespace OrderBookModel

theorem cancelOrder_WF (b : OrderBook) (id cs : Nat)
    (hwf : booksWF b) (hbound : massOf b < 2 ^ 32) :
    booksWF (cancelOrder b id cs) ∧ massOf (cancelOrder b id cs) ≤ massOf b := by
  obtain ⟨hB, hA, hond, hrec⟩ := hwf
  cases hod : ordersFind b.orders id with
  | none =>
    rw [cancelOrder_eq_none b id cs hod]
    exact ⟨⟨hB, hA, hond, hrec⟩, Nat.le_refl _⟩
  | some od =>
    obtain ⟨hidnz, hlev⟩ := hrec id od hod
    by_cases hsB : od.side = 'B'
    · obtain ⟨lv, hlv, hment⟩ := hlev (Or.inl hsB)
      rw [hsB] at hlv
      have hlv' : mapFind b.bid_levels od.price = some lv := hlv
      obtain ⟨hsum, hcnt, hpos3, hqnd, hent⟩ := hB.2 od.price lv hlv'
      obtain ⟨q1, q2, hsplit, hq1, hq2⟩ :=
        queue_split_of_mem lv.order_queue id od.size hqnd hment
      have hodpos : 0 < od.size := (hent _ hment).1
      have heff_le : (if cs = 0 then od.size else min cs od.size) ≤ od.size := by
        by_cases hcs : cs = 0 <;> simp [hcs]
      have heffpos : 0 < (if cs = 0 then od.size else min cs od.size) := by
        by_cases hcs : cs = 0
        · simp [hcs, hodpos]
        · simp [hcs]
          omega
      obtain ⟨hsWF, hne, hmass, hpresq, hpresdec⟩ :=
        cancel_side_WF bidLt b.bid_levels b.orders od.price id
          (if cs = 0 then od.size else min cs od.size) od.size 'B' lv q1 q2
          hB hond hlv' hsplit hq1 hq2 (by unfold massOf at hbound; omega)
          heff_le heffpos
      rw [cancelOrder_eq_bid2 b id cs _ od rfl hod hsB]
      have hcross : ∀ p' lv', mapFind b.ask_levels p' = some lv' →
          ∀ e ∈ lv'.order_queue, e.order_id ≠ id := by
        intro p' lv' hf e he heid
        have h1 := ((hA.2 p' lv' hf).2.2.2.2 e he).2.2
        rw [heid, hod] at h1
        injection h1 with h1
        rw [h1] at hsB
        simp at hsB
      refine ⟨⟨hsWF, ⟨hA.1, ?_⟩, cancelOrdersChain_keys_nodup _ _ _ _ hond, ?_⟩, ?_⟩
      · intro p' lv' hf
        obtain ⟨h1, h2, h3, h4, h5⟩ := hA.2 p' lv' hf
        refine ⟨h1, h2, h3, h4, fun e he => ⟨(h5 e he).1, (h5 e he).2.1, ?_⟩⟩
        rw [cancelOrdersChain_find_ne b.orders id _ od.size e.order_id
          (hcross p' lv' hf e he)]
        exact (h5 e he).2.2
      · intro id0 od0 hf0
        have hf0' : ordersFind (cancelOrdersChain b.orders id
            (if cs = 0 then od.size else min cs od.size) od.size) id0 = some od0 := hf0
        by_cases hi : id0 = id
        · subst hi
          rw [cancelOrdersChain_find_self b.orders id0 _ od.size od hod hond] at hf0'
          by_cases hfull : od.size - (if cs = 0 then od.size else min cs od.size) = 0
          · rw [if_pos hfull] at hf0'
            exact absurd hf0' (by simp)
          · rw [if_neg hfull] at hf0'
            injection hf0' with hf0'
            rw [← hf0']
            refine ⟨hidnz, ?_⟩
            intro _
            rw [hsB]
            obtain ⟨lv', hlv2, hmem2⟩ := hpresdec (by omega)
            show ∃ lv3, mapFind (cancelChain bidLt b.bid_levels od.price id0
              (if cs = 0 then od.size else min cs od.size) od.size) od.price =
              some lv3 ∧ _ ∈ lv3.order_queue
            exact ⟨lv', hlv2, hmem2⟩
        · rw [cancelOrdersChain_find_ne b.orders id _ od.size id0 hi] at hf0'
          obtain ⟨hz0, hlev0⟩ := hrec id0 od0 hf0'
          refine ⟨hz0, ?_⟩
          intro hside0
          rcases hside0 with hs0 | hs0 <;> rw [hs0]
          · show ∃ lv3, mapFind (cancelChain bidLt b.bid_levels od.price id
              (if cs = 0 then od.size else min cs od.size) od.size) od0.price =
              some lv3 ∧ (⟨id0, od0.size⟩ : OrderEntry) ∈ lv3.order_queue
            obtain ⟨lv0, hlv0, hm0⟩ := hlev0 (Or.inl hs0)
            rw [hs0] at hlv0
            have hlv0' : mapFind b.bid_levels od0.price = some lv0 := hlv0
            by_cases hpp : od0.price = od.price
            · rw [hpp] at hlv0'
              rw [hlv0'] at hlv'
              injection hlv' with hlv'
              rw [hlv', hsplit] at hm0
              rw [List.mem_append, List.mem_cons] at hm0
              rw [hpp]
              apply hpresq
              rw [List.mem_append]
              rcases hm0 with hm0 | hm0 | hm0
              · exact Or.inl hm0
              · exact absurd (congrArg OrderEntry.order_id hm0) (by simpa using hi)
              · exact Or.inr hm0
            · refine ⟨lv0, ?_, hm0⟩
              rw [hne od0.price hpp]
              exact hlv0'
          · show ∃ lv3, mapFind b.ask_levels od0.price = some lv3 ∧
              (⟨id0, od0.size⟩ : OrderEntry) ∈ lv3.order_queue
            obtain ⟨lv0, hlv0, hm0⟩ := hlev0 (Or.inr hs0)
            rw [hs0] at hlv0
            exact ⟨lv0, hlv0, hm0⟩
      · show levelMass (cancelChain bidLt b.bid_levels od.price id
          (if cs = 0 then od.size else min cs od.size) od.size) +
          levelMass b.ask_levels ≤ massOf b
        unfold massOf
        omega
    · by_cases hsA : od.side = 'A'
      · obtain ⟨lv, hlv, hment⟩ := hlev (Or.inr hsA)
        rw [hsA] at hlv
        have hlv' : mapFind b.ask_levels od.price = some lv := hlv
        obtain ⟨hsum, hcnt, hpos3, hqnd, hent⟩ := hA.2 od.price lv hlv'
        obtain ⟨q1, q2, hsplit, hq1, hq2⟩ :=
          queue_split_of_mem lv.order_queue id od.size hqnd hment
        have hodpos : 0 < od.size := (hent _ hment).1
        have heff_le : (if cs = 0 then od.size else min cs od.size) ≤ od.size := by
          by_cases hcs : cs = 0 <;> simp [hcs]
        have heffpos : 0 < (if cs = 0 then od.size else min cs od.size) := by
          by_cases hcs : cs = 0
          · simp [hcs, hodpos]
          · simp [hcs]
            omega
        obtain ⟨hsWF, hne, hmass, hpresq, hpresdec⟩ :=
          cancel_side_WF askLt b.ask_levels b.orders od.price id
            (if cs = 0 then od.size else min cs od.size) od.size 'A' lv q1 q2
            hA hond hlv' hsplit hq1 hq2 (by unfold massOf at hbound; omega)
            heff_le heffpos
        rw [cancelOrder_eq_ask2 b id cs _ od rfl hod hsA]
        have hcross : ∀ p' lv', mapFind b.bid_levels p' = some lv' →
            ∀ e ∈ lv'.order_queue, e.order_id ≠ id := by
          intro p' lv' hf e he heid
          have h1 := ((hB.2 p' lv' hf).2.2.2.2 e he).2.2
          rw [heid, hod] at h1
          injection h1 with h1
          rw [h1] at hsA
          simp at hsA
        refine ⟨⟨⟨hB.1, ?_⟩, hsWF, cancelOrdersChain_keys_nodup _ _ _ _ hond, ?_⟩, ?_⟩
        · intro p' lv' hf
          obtain ⟨h1, h2, h3, h4, h5⟩ := hB.2 p' lv' hf
          refine ⟨h1, h2, h3, h4, fun e he => ⟨(h5 e he).1, (h5 e he).2.1, ?_⟩⟩
          rw [cancelOrdersChain_find_ne b.orders id _ od.size e.order_id
            (hcross p' lv' hf e he)]
          exact (h5 e he).2.2
        · intro id0 od0 hf0
          have hf0' : ordersFind (cancelOrdersChain b.orders id
              (if cs = 0 then od.size else min cs od.size) od.size) id0 = some od0 := hf0
          by_cases hi : id0 = id
          · subst hi
            rw [cancelOrdersChain_find_self b.orders id0 _ od.size od hod hond] at hf0'
            by_cases hfull : od.size - (if cs = 0 then od.size else min cs od.size) = 0
            · rw [if_pos hfull] at hf0'
              exact absurd hf0' (by simp)
            · rw [if_neg hfull] at hf0'
              injection hf0' with hf0'
              rw [← hf0']
              refine ⟨hidnz, ?_⟩
              intro _
              rw [hsA]
              obtain ⟨lv', hlv2, hmem2⟩ := hpresdec (by omega)
              show ∃ lv3, mapFind (cancelChain askLt b.ask_levels od.price id0
                (if cs = 0 then od.size else min cs od.size) od.size) od.price =
                some lv3 ∧ _ ∈ lv3.order_queue
              exact ⟨lv', hlv2, hmem2⟩
          · rw [cancelOrdersChain_find_ne b.orders id _ od.size id0 hi] at hf0'
            obtain ⟨hz0, hlev0⟩ := hrec id0 od0 hf0'
            refine ⟨hz0, ?_⟩
            intro hside0
            rcases hside0 with hs0 | hs0 <;> rw [hs0]
            · show ∃ lv3, mapFind b.bid_levels od0.price = some lv3 ∧
                (⟨id0, od0.size⟩ : OrderEntry) ∈ lv3.order_queue
              obtain ⟨lv0, hlv0, hm0⟩ := hlev0 (Or.inl hs0)
              rw [hs0] at hlv0
              exact ⟨lv0, hlv0, hm0⟩
            · show ∃ lv3, mapFind (cancelChain askLt b.ask_levels od.price id
                (if cs = 0 then od.size else min cs od.size) od.size) od0.price =
                some lv3 ∧ (⟨id0, od0.size⟩ : OrderEntry) ∈ lv3.order_queue
              obtain ⟨lv0, hlv0, hm0⟩ := hlev0 (Or.inr hs0)
              rw [hs0] at hlv0
              have hlv0' : mapFind b.ask_levels od0.price = some lv0 := hlv0
              by_cases hpp : od0.price = od.price
              · rw [hpp] at hlv0'
                rw [hlv0'] at hlv'
                injection hlv' with hlv'
                rw [hlv', hsplit] at hm0
                rw [List.mem_append, List.mem_cons] at hm0
                rw [hpp]
                apply hpresq
                rw [List.mem_append]
                rcases hm0 with hm0 | hm0 | hm0
                · exact Or.inl hm0
                · exact absurd (congrArg OrderEntry.order_id hm0) (by simpa using hi)
                · exact Or.inr hm0
              · refine ⟨lv0, ?_, hm0⟩
                rw [hne od0.price hpp]
                exact hlv0'
        · show levelMass b.bid_levels + levelMass (cancelChain askLt b.ask_levels
            od.price id (if cs = 0 then od.size else min cs od.size) od.size) ≤ massOf b
          unfold massOf
          omega
      · rw [cancelOrder_eq_other b id cs od hod hsB hsA]
        have hagree : ∀ id0, id0 ≠ id →
            (∀ sz, ordersFind (ordersErase (ordersSetSize b.orders id sz) id) id0 =
              ordersFind b.orders id0) ∧
            (∀ sz, ordersFind (ordersSetSize b.orders id sz) id0 =
              ordersFind b.orders id0) := by
          intro id0 hi
          exact ⟨fun sz => by
            rw [ordersErase_find_ne _ id id0 hi, ordersSetSize_find_ne _ id sz id0 hi],
            fun sz => ordersSetSize_find_ne _ id sz id0 hi⟩
        have hentne : ∀ (mside : LevelMap) (sch : Char), sideWF b.orders sch mside →
            ¬ od.side = sch →
            ∀ p' lv', mapFind mside p' = some lv' → ∀ e ∈ lv'.order_queue,
              e.order_id ≠ id := by
          intro mside sch hside hnsch p' lv' hf e he heid
          have h1 := ((hside.2 p' lv' hf).2.2.2.2 e he).2.2
          rw [heid, hod] at h1
          injection h1 with h1
          exact hnsch (by rw [h1])
        by_cases hfull : od.size - (if cs = 0 then od.size else min cs od.size) = 0
        · rw [if_pos hfull]
          have hfid : ∀ id0 od0, ordersFind (ordersErase (ordersSetSize b.orders id
              (od.size - (if cs = 0 then od.size else min cs od.size))) id) id0 =
              some od0 → id0 ≠ id ∧ ordersFind b.orders id0 = some od0 := by
            intro id0 od0 hf0
            by_cases hi : id0 = id
            · subst hi
              rw [ordersFind_erase_self _ id0 (by rw [ordersSetSize_keys]; exact hond)]
                at hf0
              exact absurd hf0 (by simp)
            · exact ⟨hi, by rw [← (hagree id0 hi).1 _]; exact hf0⟩
          refine ⟨⟨⟨hB.1, ?_⟩, ⟨hA.1, ?_⟩, ?_, ?_⟩, ?_⟩
          · intro p' lv' hf
            obtain ⟨h1, h2, h3, h4, h5⟩ := hB.2 p' lv' hf
            refine ⟨h1, h2, h3, h4, fun e he => ⟨(h5 e he).1, (h5 e he).2.1, ?_⟩⟩
            rw [(hagree e.order_id (hentne b.bid_levels 'B' hB hsB p' lv' hf e he)).1]
            exact (h5 e he).2.2
          · intro p' lv' hf
            obtain ⟨h1, h2, h3, h4, h5⟩ := hA.2 p' lv' hf
            refine ⟨h1, h2, h3, h4, fun e he => ⟨(h5 e he).1, (h5 e he).2.1, ?_⟩⟩
            rw [(hagree e.order_id (hentne b.ask_levels 'A' hA hsA p' lv' hf e he)).1]
            exact (h5 e he).2.2
          · refine List.Nodup.sublist ((ordersErase_sublist _ id).map Prod.fst) ?_
            rw [ordersSetSize_keys]
            exact hond
          · intro id0 od0 hf0
            obtain ⟨hi, hf0'⟩ := hfid id0 od0 hf0
            obtain ⟨hz0, hlev0⟩ := hrec id0 od0 hf0'
            exact ⟨hz0, hlev0⟩
          · unfold massOf
            dsimp only
            omega
        · rw [if_neg hfull]
          refine ⟨⟨⟨hB.1, ?_⟩, ⟨hA.1, ?_⟩, ?_, ?_⟩, ?_⟩
          · intro p' lv' hf
            obtain ⟨h1, h2, h3, h4, h5⟩ := hB.2 p' lv' hf
            refine ⟨h1, h2, h3, h4, fun e he => ⟨(h5 e he).1, (h5 e he).2.1, ?_⟩⟩
            rw [(hagree e.order_id (hentne b.bid_levels 'B' hB hsB p' lv' hf e he)).2]
            exact (h5 e he).2.2
          · intro p' lv' hf
            obtain ⟨h1, h2, h3, h4, h5⟩ := hA.2 p' lv' hf
            refine ⟨h1, h2, h3, h4, fun e he => ⟨(h5 e he).1, (h5 e he).2.1, ?_⟩⟩
            rw [(hagree e.order_id (hentne b.ask_levels 'A' hA hsA p' lv' hf e he)).2]
            exact (h5 e he).2.2
          · rw [ordersSetSize_keys]
            exact hond
          · intro id0 od0 hf0
            by_cases hi : id0 = id
            · subst hi
              have := ordersFind_setSize_self b.orders id0
                (od.size - (if cs = 0 then od.size else min cs od.size)) od hod
              rw [this] at hf0
              injection hf0 with hf0
              rw [← hf0]
              refine ⟨hidnz, ?_⟩
              intro hside0
              dsimp only at hside0
              rcases hside0 with hs0 | hs0
              · exact absurd hs0 hsB
              · exact absurd hs0 hsA
            · rw [(hagree id0 hi).2] at hf0
              obtain ⟨hz0, hlev0⟩ := hrec id0 od0 hf0
              exact ⟨hz0, hlev0⟩
          · unfold massOf
            dsimp only
            omega

end OrderBookModel

namespace OrderBookModel

theorem sideWF_nil (os : Orders) (s : Char) : sideWF os s [] := by
  refine ⟨by simp, ?_⟩
  intro p lv hf
  exact absurd hf (by simp [mapFind])

theorem clearBook_WF (b : OrderBook) :
    booksWF (clearBook b) ∧ massOf (clearBook b) = 0 := by
  refine ⟨⟨sideWF_nil [] 'B', sideWF_nil [] 'A', List.nodup_nil, ?_⟩, rfl⟩
  intro id od hf
  exact absurd hf (by simp [ordersFind])

theorem emptyBook_WF : booksWF emptyBook ∧ massOf emptyBook = 0 := by
  refine ⟨⟨sideWF_nil [] 'B', sideWF_nil [] 'A', List.nodup_nil, ?_⟩, rfl⟩
  intro id od hf
  exact absurd hf (by simp [ordersFind])

theorem processEvent_WF (b : OrderBook) (e : MboEvent) (A : Nat) (hA32 : A < 2 ^ 32)
    (hwf : booksWF b)
    (hm : massOf b + (if e.action = 'A' then e.size else 0) ≤ A)
    (hsz : e.action = 'A' → 0 < e.size) :
    booksWF (processEvent b e).1 ∧
    massOf (processEvent b e).1 ≤ massOf b + (if e.action = 'A' then e.size else 0) := by
  have hmb : massOf { b with sequence_counter := b.sequence_counter + 1 } = massOf b := rfl
  unfold processEvent
  split
  · -- Add
    rename_i heq
    rw [if_pos heq] at hm ⊢
    have hsz' := hsz heq
    unfold processAddEvent
    by_cases hz : e.order_id = 0
    · rw [if_pos hz]
      exact ⟨hwf, Nat.le_add_right _ _⟩
    · rw [if_neg hz]
      by_cases hdup : (ordersFind ({ b with sequence_counter := b.sequence_counter + 1 } :
          OrderBook).orders e.order_id).isSome = true
      · rw [if_pos hdup]
        exact ⟨hwf, Nat.le_add_right _ _⟩
      · rw [if_neg hdup]
        have hfresh : ordersFind b.orders e.order_id = none := by
          rcases hfind : ordersFind b.orders e.order_id with _ | od
          · rfl
          · exact absurd (by show (ordersFind b.orders e.order_id).isSome = true
                             rw [hfind]
                             rfl) hdup
        obtain ⟨h1, h2⟩ := addOrder_WF { b with sequence_counter := b.sequence_counter + 1 }
          e.order_id e.price e.size e.side hwf hz hsz' hfresh (by omega)
        exact ⟨h1, h2⟩
  · -- Cancel
    rename_i heq
    have hna : ¬ e.action = 'A' := by rw [heq]; decide
    rw [if_neg hna] at hm ⊢
    unfold processCancelEvent
    by_cases hz : e.order_id = 0
    · rw [if_pos hz]
      exact ⟨hwf, Nat.le_refl _⟩
    · rw [if_neg hz]
      by_cases hfsm : ({ b with sequence_counter := b.sequence_counter + 1 } :
          OrderBook).last_fill_was_trade = true ∧
          ({ b with sequence_counter := b.sequence_counter + 1 } :
          OrderBook).trade_state = TradeState.EXPECTING_FILL
      · rw [if_pos hfsm]
        obtain ⟨h1, h2⟩ := processTradeFill_WF
          { b with sequence_counter := b.sequence_counter + 1 }
          b.pending_trade_side b.pending_trade_price b.pending_trade_size hwf (by omega)
        exact ⟨h1, h2⟩
      · rw [if_neg hfsm]
        rcases hfind : ordersFind ({ b with sequence_counter := b.sequence_counter + 1 } :
            OrderBook).orders e.order_id with _ | od
        · exact ⟨hwf, Nat.le_refl _⟩
        · dsimp only
          by_cases hes : e.size = 0
          · rw [if_pos hes]
            obtain ⟨h1, h2⟩ := cancelOrder_WF
              { b with sequence_counter := b.sequence_counter + 1 }
              e.order_id 0 hwf (by omega)
            exact ⟨h1, h2⟩
          · rw [if_neg hes]
            obtain ⟨h1, h2⟩ := cancelOrder_WF
              { b with sequence_counter := b.sequence_counter + 1 }
              e.order_id e.size hwf (by omega)
            exact ⟨h1, h2⟩
  · -- Trade
    rename_i heq
    have hna : ¬ e.action = 'A' := by rw [heq]; decide
    rw [if_neg hna] at hm ⊢
    unfold processTradeEvent
    by_cases hn : e.side = 'N'
    · rw [if_pos hn]
      exact ⟨hwf, Nat.le_refl _⟩
    · rw [if_neg hn]
      exact ⟨hwf, Nat.le_refl _⟩
  · -- Fill
    rename_i heq
    have hna : ¬ e.action = 'A' := by rw [heq]; decide
    rw [if_neg hna] at hm ⊢
    unfold processFillEvent
    by_cases hst : ({ b with sequence_counter := b.sequence_counter + 1 } :
        OrderBook).trade_state = TradeState.EXPECTING_FILL
    · rw [if_pos hst]
      exact ⟨hwf, Nat.le_refl _⟩
    · rw [if_neg hst]
      exact ⟨hwf, Nat.le_refl _⟩
  · -- Reset
    rename_i heq
    have hna : ¬ e.action = 'A' := by rw [heq]; decide
    rw [if_neg hna] at hm ⊢
    unfold processResetEvent
    dsimp only
    obtain ⟨h1, h2⟩ := clearBook_WF { b with sequence_counter := b.sequence_counter + 1 }
    exact ⟨h1, by omega⟩
  · -- anything else
    rename_i h1 h2 h3 h4 h5
    have hna : ¬ e.action = 'A' := h1
    rw [if_neg hna] at hm ⊢
    exact ⟨hwf, Nat.le_refl _⟩

end OrderBookModel

namespace OrderBookModel

theorem mapFind_of_mem (m : LevelMap) (hnd : (m.map Prod.fst).Nodup) (p : Int)
    (lv : LevelData) (h : (p, lv) ∈ m) : mapFind m p = some lv := by
  induction m with
  | nil => simp at h
  | cons hd tl ih =>
    simp only [List.map_cons, List.nodup_cons] at hnd
    rw [List.mem_cons] at h
    rw [mapFind_cons]
    rcases h with h | h
    · rw [← h]
      dsimp only
      rw [if_pos rfl]
    · by_cases hp : p = hd.1
      · exact absurd (hp ▸ List.mem_map_of_mem Prod.fst h) hnd.1
      · rw [if_neg hp]
        exact ih hnd.2 h

theorem addMass_cons (e : MboEvent) (rest : List MboEvent) :
    addMass (e :: rest) = (if e.action = 'A' then e.size else 0) + addMass rest := by
  unfold addMass
  simp

theorem processEvents_WF (es : List MboEvent) (b : OrderBook) (A : Nat)
    (hA32 : A < 2 ^ 32) (hwf : booksWF b) (hm : massOf b + addMass es ≤ A)
    (hsz : ∀ e ∈ es, e.action = 'A' → 0 < e.size) :
    booksWF (processEvents b es) := by
  induction es generalizing b with
  | nil => exact hwf
  | cons e rest ih =>
    rw [addMass_cons] at hm
    obtain ⟨h1, h2⟩ := processEvent_WF b e A hA32 hwf (by omega)
      (hsz e (List.mem_cons_self e rest))
    exact ih (processEvent b e).1 h1 (by omega)
      (fun x hx => hsz x (List.mem_cons_of_mem e hx))

/-- Claim C9 (amended): starting from the empty book, if every Add event
carries a strictly positive size and the total size added over the input is
below `2^32` (so that neither the 64-bit aggregate counters nor the 32-bit
order counters can wrap), then after the whole sequence every retained price
level on either side has its aggregate size equal to the sum of its queued
entry sizes, its order count equal to its queue length, and both strictly
positive.  Since every prefix of such a sequence satisfies the same
hypotheses, the invariant holds after each completed event.  Without the
positive-size condition the invariant fails: a zero-size Add indexes an order
with no queue entry and its later cancel corrupts the level's order count
(see the recorded counterexample). -/
theorem claim9_level_invariants (es : List MboEvent)
    (hpos : ∀ e ∈ es, e.action = 'A' → 0 < e.size)
    (hmass : addMass es < 2 ^ 32) :
    levelsGood (processEvents emptyBook es) := by
  have h0 : massOf emptyBook = 0 := rfl
  have hwf := processEvents_WF es emptyBook (addMass es) hmass emptyBook_WF.1
    (by omega) hpos
  obtain ⟨hB, hA, _⟩ := hwf
  constructor
  · intro pl hpl
    have hf := mapFind_of_mem _ hB.1 pl.1 pl.2 hpl
    obtain ⟨h1, h2, h3, _, h5⟩ := hB.2 pl.1 pl.2 hf
    refine ⟨h1, h2, h3, ?_⟩
    rcases hq : pl.2.order_queue with _ | ⟨x, xs⟩
    · rw [hq, queueSum_nil] at h1
      omega
    · rw [h2, hq]
      simp
  · intro pl hpl
    have hf := mapFind_of_mem _ hA.1 pl.1 pl.2 hpl
    obtain ⟨h1, h2, h3, _, h5⟩ := hA.2 pl.1 pl.2 hf
    refine ⟨h1, h2, h3, ?_⟩
    rcases hq : pl.2.order_queue with _ | ⟨x, xs⟩
    · rw [hq, queueSum_nil] at h1
      omega
    · rw [h2, hq]
      simp

theorem claim9_level_invariants_witness :
    (∀ e ∈ ([⟨'A', 'B', 10, 5, 1, 1⟩, ⟨'A', 'B', 10, 7, 2, 2⟩,
        ⟨'C', 'B', 10, 0, 1, 3⟩] : List MboEvent), e.action = 'A' → 0 < e.size) ∧
    addMass [⟨'A', 'B', 10, 5, 1, 1⟩, ⟨'A', 'B', 10, 7, 2, 2⟩,
        ⟨'C', 'B', 10, 0, 1, 3⟩] < 2 ^ 32 ∧
    levelsGood (processEvents emptyBook [⟨'A', 'B', 10, 5, 1, 1⟩,
        ⟨'A', 'B', 10, 7, 2, 2⟩, ⟨'C', 'B', 10, 0, 1, 3⟩]) :=
  ⟨by decide, by decide,
   claim9_level_invariants [⟨'A', 'B', 10, 5, 1, 1⟩, ⟨'A', 'B', 10, 7, 2, 2⟩,
     ⟨'C', 'B', 10, 0, 1, 3⟩] (by decide) (by decide)⟩

end OrderBookModel
